import Mathlib

/-!
Verification development for a small job-scraping program consisting of two
Python modules, `scraper.py` and `generate_report.py`.

The code is shallowly embedded: Python `str` becomes `String` (or `List Char`
where induction is needed), JSON values become the inductive `JValue`,
fallible code returns `Except` or `Option`, and the standard-library helpers
the program calls (`str.strip`, `float`, `int`, `urllib.parse`,
`datetime.fromisoformat`, `strftime`) are modelled charwise or bytewise after
CPython's implementations.  Python floats are modelled as exact rationals
(`ℚ`) plus explicit infinity/NaN constructors; the claims under study concern
parsing and control flow, not binary rounding.
-/

namespace Scraper

/-- ASCII whitespace recognised by Python's `str.strip()` and numeric
conversions (the non-ASCII Unicode spaces Python also strips play no role in
any claim). -/
def pySpace (c : Char) : Bool :=
  c = ' ' || c = '\t' || c = '\n' || c = '\r' || c = '\x0b' || c = '\x0c'

/-- Python `str.strip()` (no argument): drop leading and trailing whitespace. -/
def pyStrip (l : List Char) : List Char :=
  ((l.dropWhile pySpace).reverse.dropWhile pySpace).reverse

/-- Python `str.lower()` restricted to ASCII (sufficient for every string the
program lower-cases). -/
def pyLower (l : List Char) : List Char := l.map Char.toLower

/-- `str.replace(" km", "")`: remove every non-overlapping occurrence of the
two-character substring consisting of a space followed by `km`, scanning left
to right, exactly as CPython's `str.replace` does for this pattern. -/
def replaceAllKm : List Char → List Char
  | ' ' :: 'k' :: 'm' :: rest => replaceAllKm rest
  | c :: rest => c :: replaceAllKm rest
  | [] => []

/-- Value of a list of decimal digit characters. -/
def natOfDigits (l : List Char) : ℕ :=
  l.foldl (fun a c => 10 * a + (c.toNat - 48)) 0

/-- A run of decimal digits in which single underscores may appear between two
digits (CPython's numeric-literal underscore rule).  Returns the digit
characters (underscores removed) and the unconsumed remainder; an ill-placed
underscore is simply left in the remainder, which makes the caller's
"everything must be consumed" check fail exactly as CPython's parser fails. -/
def uDigits : List Char → List Char × List Char
  | [] => ([], [])
  | c :: '_' :: d :: rest2 =>
    if c.isDigit then
      if d.isDigit then
        let (ds, r) := uDigits (d :: rest2)
        (c :: ds, r)
      else (c :: [], '_' :: d :: rest2)
    else ([], c :: '_' :: d :: rest2)
  | c :: rest =>
    if c.isDigit then
      let (ds, r) := uDigits rest
      (c :: ds, r)
    else ([], c :: rest)

/-- Model of a Python `float` value: an exact rational, an infinity, or NaN. -/
inductive PyFloat where
  | finite (q : ℚ)
  | inf (neg : Bool)
  | nan
deriving DecidableEq

/-- The finite part of `float(string)`: `[digits][.digits][(e|E)[sign]digits]`,
underscores allowed inside digit runs, at least one mantissa digit required,
the whole input consumed. -/
def parseFloatBody (l : List Char) : Option ℚ :=
  let (ip, r1) := uDigits l
  let (fp, r2) :=
    match r1 with
    | '.' :: rest => uDigits rest
    | _ => ([], r1)
  if ip.isEmpty && fp.isEmpty then none
  else
    let mant : ℚ := (natOfDigits ip : ℚ) + (natOfDigits fp : ℚ) / (10 : ℚ) ^ fp.length
    match r2 with
    | [] => some mant
    | e :: rest =>
      if e = 'e' || e = 'E' then
        let (eneg, rest2) :=
          match rest with
          | '+' :: t => (false, t)
          | '-' :: t => (true, t)
          | t => (false, t)
        match uDigits rest2 with
        | (ed, []) =>
          if ed.isEmpty then none
          else
            let ex : ℤ := if eneg then -(natOfDigits ed : ℤ) else (natOfDigits ed : ℤ)
            some (mant * (10 : ℚ) ^ ex)
        | _ => none
      else none

/-- Model of CPython `float(string)`: strip whitespace, optional sign, then an
infinity/NaN keyword (case-insensitive) or a decimal literal. -/
def pyFloatOfString (l : List Char) : Option PyFloat :=
  let l1 := pyStrip l
  let (neg, l2) :=
    match l1 with
    | '+' :: t => (false, t)
    | '-' :: t => (true, t)
    | t => (false, t)
  let low := pyLower l2
  if low = "inf".data || low = "infinity".data then some (.inf neg)
  else if low = "nan".data then some .nan
  else (parseFloatBody l2).map fun q => .finite (if neg then -q else q)

/-- Model of CPython `int(string)`: strip whitespace, optional sign, a base-10
digit run (underscores allowed), the whole input consumed. -/
def pyIntOfString (l : List Char) : Option ℤ :=
  let l1 := pyStrip l
  let (neg, l2) :=
    match l1 with
    | '+' :: t => (false, t)
    | '-' :: t => (true, t)
    | t => (false, t)
  match uDigits l2 with
  | (ds, []) =>
    if ds.isEmpty then none
    else some (if neg then -(natOfDigits ds : ℤ) else (natOfDigits ds : ℤ))
  | _ => none

/-- JSON value as produced by `json.loads`: the object constructor models the
resulting `dict` (keys unique, insertion order). -/
inductive JValue where
  | null
  | bool (b : Bool)
  | num (q : ℚ)
  | str (s : String)
  | arr (elems : List JValue)
  | obj (fields : List (String × JValue))

/-- Python exception kinds raised by the code under study. -/
inductive PyErr where
  | attributeError
  | typeError
  | valueError
deriving DecidableEq

/-- `d.get(k)` on a dict: the value stored under `k`, `None` when missing.
(On a non-dict receiver the callers below raise `AttributeError` explicitly.) -/
def jget (p : JValue) (k : String) : JValue :=
  match p with
  | .obj fs =>
    match fs.find? (fun kv => kv.1 == k) with
    | some kv => kv.2
    | none => .null
  | _ => .null

/-- Python truthiness of a JSON value. -/
def truthy : JValue → Bool
  | .null => false
  | .bool b => b
  | .num q => q != 0
  | .str s => s != ""
  | .arr l => !l.isEmpty
  | .obj l => !l.isEmpty

/-- Python `x or y` (value-returning) on JSON values. -/
def pyOrJ (x y : JValue) : JValue := if truthy x then x else y

/-- Truncation toward zero, the behaviour of Python `int()` on a number. -/
def pyTrunc (q : ℚ) : ℤ := if 0 ≤ q then ⌊q⌋ else -⌊-q⌋

/-- Python `int(x)` on a JSON value: numbers truncate toward zero, booleans
count as ints, strings are parsed (ValueError on failure), anything else is a
TypeError. -/
def pyIntOfJ : JValue → Except PyErr ℤ
  | .num q => .ok (pyTrunc q)
  | .bool b => .ok (if b then 1 else 0)
  | .str s =>
    match pyIntOfString s.data with
    | some n => .ok n
    | none => .error .valueError
  | _ => .error .typeError

/-- The membership test `distance in (None, "")` from `_parse_distance`
(Python `==` against `None` and against the empty string). -/
def isNoneOrEmptyStr : JValue → Bool
  | .null => true
  | .str s => s == ""
  | _ => false

/-- `scraper._parse_distance`: `None`/`""` give `None`; ints and floats (and
booleans, which Python's `isinstance(x, int)` accepts) convert to float;
strings are stripped, lower-cased, have every occurrence of `" km"` removed
and are then given to `float()`, with a parse failure giving `None`; any
other shape gives `None`. -/
def _parse_distance (d : JValue) : Option PyFloat :=
  if isNoneOrEmptyStr d then none
  else
    match d with
    | .bool b => some (.finite (if b then 1 else 0))
    | .num q => some (.finite q)
    | .str s => pyFloatOfString (replaceAllKm (pyLower (pyStrip s.data)))
    | _ => none

/-! ### Model of `datetime.fromisoformat` and `strftime`

The program targets the pre-3.11 `fromisoformat` (it applies the classic
`replace("Z", "+00:00")` idiom), so the model follows CPython's C
implementation of that era: a fixed `YYYY-MM-DD` date, an arbitrary separator
character, a time `HH[:MM[:SS[.fff[fff]]]]`, and an optional UTC offset
`±HH:MM[:SS[.ffffff]]` starting at the first `+`/`-` of the time portion. -/

/-- The `.fff`/`.ffffff` fractional block of C `parse_hh_mm_ss_ff`: exactly 3
or 6 digits, scaled to microseconds. -/
def fracBlock (l : List Char) : Option ℕ :=
  if (l.length = 3 || l.length = 6) && l.all Char.isDigit then
    some (natOfDigits l * (if l.length = 3 then 1000 else 1))
  else none

/-- Component loop of C `parse_hh_mm_ss_ff`.  `tzB` says whether the part is
delimited by a timezone sign (rather than the end of the string); the boolean
in the result is C's return value 1, meaning the delimiting character was
consumed while components remained unchecked — callers accept it only when a
timezone follows.  Mirrors the C quirks: a single trailing character after a
complete component is consumed without inspection, and after the seconds
component either `.` or `:` introduces the fractional block. -/
def parseHMSFAux (tzB : Bool) : ℕ → List Char → Option (List ℕ × ℕ × Bool)
  | i, a :: b :: rest =>
    if a.isDigit && b.isDigit then
      let v := 10 * (a.toNat - 48) + (b.toNat - 48)
      match rest with
      | [] => some ([v], 0, tzB)
      | [_] => some ([v], 0, true)
      | c :: rest' =>
        if c = ':' && i < 2 then
          (parseHMSFAux tzB (i + 1) rest').map fun (vs, us, rv) => (v :: vs, us, rv)
        else if c = '.' || (c = ':' && i = 2) then
          (fracBlock rest').map fun us => ([v], us, tzB)
        else none
    else none
  | _, _ => none

/-- C `parse_hh_mm_ss_ff`: hour, minute, second, microsecond, and the
"consumed the delimiter" flag. -/
def parseHMSF (tzB : Bool) (l : List Char) : Option (ℕ × ℕ × ℕ × ℕ × Bool) :=
  (parseHMSFAux tzB 0 l).map fun (vs, us, rv) =>
    (vs.headD 0, (vs.drop 1).headD 0, (vs.drop 2).headD 0, us, rv)

/-- Split a string at its first `+` or `-` (C's timezone-position scan). -/
def splitAtSign : List Char → List Char × Option (Char × List Char)
  | [] => ([], none)
  | c :: rest =>
    if c = '+' || c = '-' then ([], some (c, rest))
    else
      let (a, t) := splitAtSign rest
      (c :: a, t)

/-- C `parse_isoformat_time`: time components plus an optional UTC offset in
microseconds.  Without a timezone, leftover input (return value 1) is an
error; the sign-inclusive timezone text must have length 6, 9 or 16. -/
def parseIsoTime (l : List Char) : Option (ℕ × ℕ × ℕ × ℕ × Option ℤ) :=
  let (tp, tzPart) := splitAtSign l
  match tzPart with
  | none =>
    match parseHMSF false tp with
    | some (h, m, s, us, rv) => if rv then none else some (h, m, s, us, none)
    | none => none
  | some (sgn, tzRest) =>
    match parseHMSF true tp with
    | some (h, m, s, us, _) =>
      if tzRest.length + 1 = 6 || tzRest.length + 1 = 9 || tzRest.length + 1 = 16 then
        match parseHMSF false tzRest with
        | some (th, tm, ts, tus, _) =>
          let off : ℤ := ((th * 3600 + tm * 60 + ts) * 1000000 + tus : ℕ)
          some (h, m, s, us, some (if sgn = '-' then -off else off))
        | none => none
      else none
    | none => none

/-- `YYYY-MM-DD` with strict digit positions (C `parse_isoformat_date`). -/
def parseIsoDate : List Char → Option (ℕ × ℕ × ℕ)
  | [y1, y2, y3, y4, s1, m1, m2, s2, d1, d2] =>
    if [y1, y2, y3, y4, m1, m2, d1, d2].all Char.isDigit && s1 = '-' && s2 = '-' then
      some (natOfDigits [y1, y2, y3, y4], natOfDigits [m1, m2], natOfDigits [d1, d2])
    else none
  | _ => none

/-- A `datetime` value; `tz` is the UTC offset in microseconds when aware. -/
structure PyDateTime where
  year : ℕ
  month : ℕ
  day : ℕ
  hour : ℕ
  minute : ℕ
  second : ℕ
  microsecond : ℕ
  tz : Option ℤ
deriving DecidableEq

def daysInMonth (y m : ℕ) : ℕ :=
  if m = 2 then (if y % 4 == 0 && (y % 100 != 0 || y % 400 == 0) then 29 else 28)
  else if m = 4 || m = 6 || m = 9 || m = 11 then 30
  else 31

/-- The range checks of the `datetime` constructor and of `timezone` (offset
strictly between -24h and +24h). -/
def validDT (dt : PyDateTime) : Bool :=
  decide (1 ≤ dt.year ∧ dt.year ≤ 9999 ∧ 1 ≤ dt.month ∧ dt.month ≤ 12 ∧
    1 ≤ dt.day ∧ dt.day ≤ daysInMonth dt.year dt.month ∧
    dt.hour ≤ 23 ∧ dt.minute ≤ 59 ∧ dt.second ≤ 59) &&
  (match dt.tz with
   | none => true
   | some off => decide (off.natAbs < 24 * 3600 * 1000000))

/-- Model of CPython (pre-3.11) `datetime.fromisoformat`: 10 characters of
date; if anything follows, position 10 is an ignored separator and the rest
must be a valid time. -/
def fromisoformat (l : List Char) : Option PyDateTime :=
  if l.length = 10 then
    (parseIsoDate l).bind fun (y, mo, d) =>
      let dt : PyDateTime := ⟨y, mo, d, 0, 0, 0, 0, none⟩
      if validDT dt then some dt else none
  else if l.length > 10 then
    (parseIsoDate (l.take 10)).bind fun (y, mo, d) =>
      (parseIsoTime (l.drop 11)).bind fun (h, mi, s, us, off) =>
        let dt : PyDateTime := ⟨y, mo, d, h, mi, s, us, off⟩
        if validDT dt then some dt else none
  else none

/-- Left-pad a number with zeros to the given width. -/
def pad (w n : ℕ) : List Char :=
  let s := (Nat.repr n).data
  List.replicate (w - s.length) '0' ++ s

/-- `timezone._name_from_offset`: `UTC` for a zero offset, otherwise
`UTC±HH:MM` extended with `:SS` and `.ffffff` when nonzero. -/
def tznameOf (off : ℤ) : List Char :=
  if off = 0 then "UTC".data
  else
    let sign := if off < 0 then '-' else '+'
    let a := off.natAbs
    let usec := a % 1000000
    let totalSec := a / 1000000
    let hh := totalSec / 3600
    let mm := totalSec % 3600 / 60
    let ss := totalSec % 60
    "UTC".data ++ [sign] ++ pad 2 hh ++ [':'] ++ pad 2 mm ++
      (if usec ≠ 0 then [':'] ++ pad 2 ss ++ ['.'] ++ pad 6 usec
       else if ss ≠ 0 then [':'] ++ pad 2 ss
       else [])

/-- `dt.strftime("%Y-%m-%d %H:%M %Z")`: `%Z` is empty for a naive datetime and
the timezone name otherwise. -/
def strftimeDeadline (dt : PyDateTime) : List Char :=
  pad 4 dt.year ++ ['-'] ++ pad 2 dt.month ++ ['-'] ++ pad 2 dt.day ++ [' '] ++
    pad 2 dt.hour ++ [':'] ++ pad 2 dt.minute ++ [' '] ++
    (match dt.tz with
     | none => []
     | some off => tznameOf off)

/-- `deadline.replace("Z", "+00:00")`: the pattern is a single character, so
CPython's replace-all is a per-character expansion. -/
def replaceZ (l : List Char) : List Char :=
  (l.map fun c => if c = 'Z' then "+00:00".data else [c]).flatten

/-- `scraper._format_deadline`: a falsy value gives `None`; a (nonempty)
string has every `Z` replaced by `+00:00` and is given to
`datetime.fromisoformat` — on success the result is rendered with
`strftime("%Y-%m-%d %H:%M %Z").strip()`, on `ValueError` the original string
is returned unchanged; a truthy non-string raises `AttributeError` at
`deadline.replace`. -/
def _format_deadline (d : JValue) : Except PyErr (Option String) :=
  if !truthy d then .ok none
  else
    match d with
    | .str s =>
      match fromisoformat (replaceZ s.data) with
      | some dt => .ok (some ⟨pyStrip (strftimeDeadline dt)⟩)
      | none => .ok (some s)
    | _ => .error .attributeError

/-! ### The normalizer: `JobPosting.from_api_payload` and `parse_jobs` -/

/-- `scraper.JobPosting`.  Field types follow what the constructor is given:
`headline`, `company`, `area` and `apply_url` receive raw JSON values,
`apply_deadline` the result of `_format_deadline`, `distance_km` the result
of `_parse_distance`. -/
structure JobPosting where
  headline : JValue
  company : JValue
  area : JValue
  apply_deadline : Option String
  apply_url : JValue
  distance_km : Option PyFloat

/-- `JobPosting.from_api_payload`.  `payload.get` on a non-dict raises
`AttributeError`; `company = payload.get("company") or {}` keeps a truthy
non-dict value, so `company.get("name")` then raises `AttributeError`;
`_format_deadline` raises on a truthy non-string deadline.  Error order
follows the Python evaluation order of the keyword arguments. -/
def JobPosting.from_api_payload (p : JValue) : Except PyErr JobPosting :=
  match p with
  | .obj _ =>
    let company := pyOrJ (jget p "company") (.obj [])
    let distance := _parse_distance (jget p "distance")
    match company with
    | .obj _ =>
      match _format_deadline (jget p "apply_deadline") with
      | .ok dl =>
        .ok { headline := pyOrJ (jget p "headline") (.str "(no title)")
              company := jget company "name"
              area := jget p "area"
              apply_deadline := dl
              apply_url := pyOrJ (jget p "apply_url") (jget p "url")
              distance_km := distance }
      | .error e => .error e
    | _ => .error .attributeError
  | _ => .error .attributeError

/-- Iteration in `[... for job in results]`: lists yield their elements,
strings their characters (as 1-character strings), dicts their keys; any
other value raises `TypeError`. -/
def pyIter : JValue → Except PyErr (List JValue)
  | .arr l => .ok l
  | .str s => .ok (s.data.map fun c => .str ⟨[c]⟩)
  | .obj fs => .ok (fs.map fun kv => .str kv.1)
  | .bool _ => .error .typeError
  | .num _ => .error .typeError
  | .null => .error .typeError

/-- The list comprehension `[JobPosting.from_api_payload(job) for job in r]`:
elements are normalised left to right and the first exception aborts. -/
def mapPostings : List JValue → Except PyErr (List JobPosting)
  | [] => .ok []
  | x :: xs =>
    match JobPosting.from_api_payload x with
    | .error e => .error e
    | .ok jp =>
      match mapPostings xs with
      | .error e => .error e
      | .ok rest => .ok (jp :: rest)

/-- `scraper.parse_jobs`: `payload.get("results") or []`, then the
comprehension over whatever that yields. -/
def parse_jobs (payload : JValue) : Except PyErr (List JobPosting) :=
  match payload with
  | .obj _ =>
    let results := pyOrJ (jget payload "results") (.arr [])
    match pyIter results with
    | .ok items => mapPostings items
    | .error e => .error e
  | _ => .error .attributeError

/-! ### Model of `urllib.parse`

`urlparse`/`urlunparse`, `parse_qs` and `urlencode(..., doseq=True)` are
modelled after current CPython (`&`-only query separator, tab/CR/LF removed
from the URL, scheme required to start with an ASCII letter, unmatched
netloc bracket raising `ValueError`). -/

/-- Characters CPython removes from a URL before splitting. -/
def unsafeURLChar (c : Char) : Bool := c = '\t' || c = '\r' || c = '\n'

def removeUnsafe (l : List Char) : List Char := l.filter fun c => !unsafeURLChar c

/-- Scheme characters: ASCII letters, digits, `+`, `-`, `.`. -/
def isSchemeChar (c : Char) : Bool :=
  c.isAlpha || c.isDigit || c = '+' || c = '-' || c = '.'

/-- Split a list at the first occurrence of the character `c`. -/
def splitFirst (c : Char) : List Char → Option (List Char × List Char)
  | [] => none
  | x :: xs =>
    if x = c then some ([], xs)
    else (splitFirst c xs).map fun ab => (x :: ab.1, ab.2)

/-- The scheme step of `urlsplit`: the text before the first `:` becomes the
lower-cased scheme when it is nonempty, starts with an ASCII letter, and
consists of scheme characters only. -/
def splitScheme (url : List Char) : List Char × List Char :=
  match splitFirst ':' url with
  | some (pre, rest) =>
    if !pre.isEmpty && pre.all isSchemeChar && (url.headD ' ').isAlpha then
      (pre.map Char.toLower, rest)
    else ([], url)
  | none => ([], url)

def netDelim (c : Char) : Bool := c = '/' || c = '?' || c = '#'

/-- `_splitnetloc`: everything up to the first `/`, `?` or `#` (applied to the
text after the `//` prefix). -/
def splitNetloc (l : List Char) : List Char × List Char :=
  (l.takeWhile (fun c => !netDelim c), l.dropWhile (fun c => !netDelim c))

/-- `url.split(sep, 1)` as used by `urlsplit` for `#` and `?`. -/
def split1 (c : Char) (l : List Char) : List Char × List Char :=
  match splitFirst c l with
  | some (a, b) => (a, b)
  | none => (l, [])

/-- Split at the last `/`: (prefix including that slash, suffix after it). -/
def splitLastSlash : List Char → List Char × List Char
  | [] => ([], [])
  | c :: rest =>
    if rest.contains '/' then
      let (a, b) := splitLastSlash rest
      (c :: a, b)
    else if c = '/' then ([c], rest)
    else ([], c :: rest)

/-- `_splitparams`: split the path at the first `;` after the last `/`
(searching the whole text when there is no slash). -/
def splitParams (p : List Char) : List Char × List Char :=
  let (pre, seg) := splitLastSlash p
  match splitFirst ';' seg with
  | some (a, b) => (pre ++ a, b)
  | none => (p, [])

structure UrlComps where
  scheme : List Char
  netloc : List Char
  path : List Char
  params : List Char
  query : List Char
  fragment : List Char
deriving DecidableEq

/-- The C0-control-or-space prefix `urlsplit` strips from the URL. -/
def c0OrSpace (c : Char) : Bool := c.toNat ≤ 0x20

/-- Model of `urllib.parse.urlparse` (CPython 3.11): strip any leading
C0-control/space characters, remove tab/CR/LF, split off scheme, netloc,
fragment, query and params.  `none` models the `ValueError` raised for a
bracket in the netloc — CPython raises on an unmatched bracket and validates
a matched bracket pair as an IPv6/IPvFuture host, which the model
conservatively treats as a failure as well; the Unicode-NFKC netloc check
(`_checknetloc`), which only fires on exotic compatibility characters, is not
modelled. -/
def urlparseM (url : List Char) : Option UrlComps :=
  let u := removeUnsafe (url.dropWhile c0OrSpace)
  let (scheme, r1) := splitScheme u
  let (netloc, r2) :=
    if r1.take 2 = ['/', '/'] then splitNetloc (r1.drop 2)
    else ([], r1)
  if netloc.contains '[' || netloc.contains ']' then none
  else
    let (r3, fragment) := split1 '#' r2
    let (r4, query) := split1 '?' r3
    let (path, params) := splitParams r4
    some ⟨scheme, netloc, path, params, query, fragment⟩

/-- The `uses_netloc` scheme list of `urllib.parse` (the schemes the program
can meet; the full CPython list also has gopher, wais, etc.). -/
def usesNetloc (s : List Char) : Bool :=
  s = "ftp".data || s = "http".data || s = "https".data || s = "ws".data ||
    s = "wss".data || s = "file".data || s = "git".data || s = "rsync".data ||
    s = "nntp".data || s = "telnet".data || s = "imap".data || s = "mms".data ||
    s = "sftp".data || s = "svn".data || s = "nfs".data || s = "rtsp".data ||
    s = "rtsps".data || s = "rtspu".data || s = "shttp".data ||
    s = "snews".data || s = "prospero".data || s = "gopher".data ||
    s = "svn+ssh".data || s = "git+ssh".data

/-- The `path[;params]` text `urlunparse` rebuilds before `urlunsplit`. -/
def pathParams (c : UrlComps) : List Char :=
  if !c.params.isEmpty then c.path ++ ';' :: c.params else c.path

/-- `urlunparse` via `urlunsplit` (CPython 3.11): the `//` is emitted when
there is a netloc, or when the scheme is a `uses_netloc` scheme and the path
does not already start with `//`. -/
def urlunparseM (c : UrlComps) : List Char :=
  let u0 := pathParams c
  let u1 :=
    if !c.netloc.isEmpty ||
        (!c.scheme.isEmpty && usesNetloc c.scheme && !(u0.take 2 = ['/', '/'])) then
      '/' :: '/' :: c.netloc ++
        (if !u0.isEmpty && !(u0.headD ' ' == '/') then '/' :: u0 else u0)
    else u0
  let u2 := if !c.scheme.isEmpty then c.scheme ++ ':' :: u1 else u1
  let u3 := if !c.query.isEmpty then u2 ++ '?' :: c.query else u2
  if !c.fragment.isEmpty then u3 ++ '#' :: c.fragment else u3

/-! #### `quote_plus` / `unquote_plus` (bytewise, UTF-8) -/

/-- The `always_safe` bytes of `urllib.parse`: ASCII letters, digits and
`_ . - ~`. -/
def alwaysSafeByte (b : ℕ) : Bool :=
  (65 ≤ b && b ≤ 90) || (97 ≤ b && b ≤ 122) || (48 ≤ b && b ≤ 57) ||
    b = 95 || b = 46 || b = 45 || b = 126

def utf8EncodeChar (c : Char) : List ℕ :=
  let n := c.toNat
  if n < 0x80 then [n]
  else if n < 0x800 then [0xC0 + n / 64, 0x80 + n % 64]
  else if n < 0x10000 then [0xE0 + n / 4096, 0x80 + n / 64 % 64, 0x80 + n % 64]
  else [0xF0 + n / 262144, 0x80 + n / 4096 % 64, 0x80 + n / 64 % 64, 0x80 + n % 64]

def utf8Encode (l : List Char) : List ℕ := (l.map utf8EncodeChar).flatten

def contB (b : ℕ) : Bool := 0x80 ≤ b && b < 0xC0

/-- A token of `unquote`'s intermediate stream: a byte from an ASCII
character or a `%XX` escape, or a non-ASCII character that passes through
verbatim (CPython decodes each maximal ASCII segment separately; a non-ASCII
character therefore acts as a hard byte-sequence boundary, which is exactly
how the decoder below treats a `chr` token). -/
inductive UTok where
  | byte (b : ℕ)
  | chr (c : Char)

/-- UTF-8 decoding with replacement (`errors="replace"`) over the token
stream; on an invalid sequence one replacement character is produced and one
byte consumed — a simplification of CPython's maximal-subpart rule that no
valid byte string (the only ones the theorems below evaluate) can observe. -/
def two? : List UTok → Option (ℕ × List UTok)
  | .byte b1 :: rest1 => if contB b1 then some (b1, rest1) else none
  | _ => none

def three? (b : ℕ) : List UTok → Option (ℕ × ℕ × List UTok)
  | .byte b1 :: .byte b2 :: rest2 =>
    if contB b1 && contB b2 && (!(b == 0xE0) || 0xA0 ≤ b1) &&
        (!(b == 0xED) || b1 < 0xA0) then some (b1, b2, rest2)
    else none
  | _ => none

def four? (b : ℕ) : List UTok → Option (ℕ × ℕ × ℕ × List UTok)
  | .byte b1 :: .byte b2 :: .byte b3 :: rest3 =>
    if contB b1 && contB b2 && contB b3 && (!(b == 0xF0) || 0x90 ≤ b1) &&
        (!(b == 0xF4) || b1 < 0x90) then some (b1, b2, b3, rest3)
    else none
  | _ => none

def udtF : ℕ → List UTok → List Char
  | 0, _ => []
  | _ + 1, [] => []
  | f + 1, .chr c :: rest => c :: udtF f rest
  | f + 1, .byte b :: rest =>
    if b < 0x80 then Char.ofNat b :: udtF f rest
    else if 0xC2 ≤ b && b < 0xE0 then
      match two? rest with
      | some (b1, rest1) => Char.ofNat ((b - 0xC0) * 64 + (b1 - 0x80)) :: udtF f rest1
      | none => '�' :: udtF f rest
    else if 0xE0 ≤ b && b < 0xF0 then
      match three? b rest with
      | some (b1, b2, rest2) =>
        Char.ofNat ((b - 0xE0) * 4096 + (b1 - 0x80) * 64 + (b2 - 0x80)) :: udtF f rest2
      | none => '�' :: udtF f rest
    else if 0xF0 ≤ b && b < 0xF5 then
      match four? b rest with
      | some (b1, b2, b3, rest3) =>
        Char.ofNat ((b - 0xF0) * 262144 + (b1 - 0x80) * 4096 +
            (b2 - 0x80) * 64 + (b3 - 0x80)) :: udtF f rest3
      | none => '�' :: udtF f rest
    else '�' :: udtF f rest

def utf8DecodeTok (l : List UTok) : List Char := udtF l.length l

def hexUpper (n : ℕ) : Char := if n < 10 then Char.ofNat (48 + n) else Char.ofNat (55 + n)

/-- One byte of `quote_plus`: safe bytes stay, a space becomes `+`, anything
else becomes `%XX` with upper-case hex. -/
def quoteByte (b : ℕ) : List Char :=
  if alwaysSafeByte b then [Char.ofNat b]
  else if b = 32 then ['+']
  else ['%', hexUpper (b / 16), hexUpper (b % 16)]

/-- `urllib.parse.quote_plus` on a string (UTF-8 encoding, `safe=''`). -/
def quote_plus (s : String) : List Char := ((utf8Encode s.data).map quoteByte).flatten

def hexVal? (c : Char) : Option ℕ :=
  if c.isDigit then some (c.toNat - 48)
  else if 65 ≤ c.toNat && c.toNat ≤ 70 then some (c.toNat - 55)
  else if 97 ≤ c.toNat && c.toNat ≤ 102 then some (c.toNat - 87)
  else none

/-- `unquote_to_bytes`' percent layer as a token stream: `%` plus two hex
digits becomes that byte, any other `%` stays a literal `%` byte, an ASCII
character becomes its byte, a non-ASCII character passes through. -/
def pctTokens : List Char → List UTok
  | '%' :: a :: b :: rest =>
    match hexVal? a, hexVal? b with
    | some x, some y => .byte (16 * x + y) :: pctTokens rest
    | _, _ => .byte 37 :: pctTokens (a :: b :: rest)
  | c :: rest =>
    (if c.toNat < 0x80 then .byte c.toNat else .chr c) :: pctTokens rest
  | [] => []

/-- `unquote_plus` as `parse_qsl` performs it: `+` to space, then `unquote`
(percent-decode the ASCII segments and UTF-8-decode them with replacement). -/
def unquote_plus (l : List Char) : List Char :=
  utf8DecodeTok (pctTokens (l.map fun c => if c = '+' then ' ' else c))

/-- Python `str.split(sep)` for a one-character separator: one (possibly
empty) piece per gap. -/
def splitOnChar (sep : Char) : List Char → List (List Char)
  | [] => [[]]
  | c :: rest =>
    if c = sep then [] :: splitOnChar sep rest
    else
      match splitOnChar sep rest with
      | p :: ps => (c :: p) :: ps
      | [] => [[c]]

/-- `parse_qsl` with the default `keep_blank_values=False`: split on `&`,
skip empty chunks, chunks without `=`, and chunks with an empty value;
decode names and values with `unquote_plus`. -/
def parse_qsl (qs : List Char) : List (String × String) :=
  (splitOnChar '&' qs).filterMap fun piece =>
    if piece.isEmpty then none
    else
      match splitFirst '=' piece with
      | none => none
      | some (n, v) =>
        if v.isEmpty then none
        else some (⟨unquote_plus n⟩, ⟨unquote_plus v⟩)

/-- One step of CPython's `parse_qs` dict construction: append the value
when the name is already a key (the entry keeps its position), insert at the
end otherwise. -/
def qsInsert (d : List (String × List String)) (n v : String) :
    List (String × List String) :=
  if d.any fun kv => kv.1 == n then
    d.map fun kv => if kv.1 == n then (kv.1, kv.2 ++ [v]) else kv
  else d ++ [(n, [v])]

/-- `urllib.parse.parse_qs`: fold the `parse_qsl` pairs into an
insertion-ordered dict. -/
def parse_qs (qs : List Char) : List (String × List String) :=
  (parse_qsl qs).foldl (fun d nv => qsInsert d nv.1 nv.2) []

/-- Python `"&".join(chunks)`. -/
def joinAmp : List (List Char) → List Char
  | [] => []
  | [p] => p
  | p :: ps => p ++ '&' :: joinAmp ps

/-- `urlencode(d, doseq=True)` on a str-to-list-of-str dict: one
`quote_plus(k)=quote_plus(v)` chunk per value, joined with `&`. -/
def urlencodeD (d : List (String × List String)) : List Char :=
  joinAmp ((d.map fun kv => kv.2.map fun v => quote_plus kv.1 ++ '=' :: quote_plus v).flatten)

/-- `q[key] = [value]` on the parsed-query dict: replace in place when the
key is present (dict update keeps the position), append otherwise. -/
def dictSet (d : List (String × List String)) (k : String) (vs : List String) :
    List (String × List String) :=
  if d.any fun kv => kv.1 == k then
    d.map fun kv => if kv.1 == k then (kv.1, vs) else kv
  else d ++ [(k, vs)]

/-- The parsed query dict of a URL. -/
def queryDict (url : String) : Option (List (String × List String)) :=
  (urlparseM url.data).map fun c => parse_qs c.query

/-- The raw (undecoded) `&`-separated chunks of a URL's query string. -/
def rawQueryPieces (url : String) : Option (List (List Char)) :=
  (urlparseM url.data).map fun c => splitOnChar '&' c.query

/-- The decoded names of the blank-valued parameters of a query string (the
chunks of the form `name=` or a bare `name`). -/
def blankNames (q : List Char) : List String :=
  (splitOnChar '&' q).filterMap fun piece =>
    if piece.isEmpty then none
    else
      match splitFirst '=' piece with
      | none => some ⟨unquote_plus piece⟩
      | some (nm, v) => if v.isEmpty then some ⟨unquote_plus nm⟩ else none

/-- The blank-valued parameter names of a URL's query. -/
def queryBlankNames (url : String) : Option (List String) :=
  (urlparseM url.data).map fun c => blankNames c.query

/-- The component change `urlunparse` then `urlparse` can make to otherwise
well-formed components: with an empty netloc, a `uses_netloc` scheme and a
relative `path[;params]` text, `urlunsplit` emits `///` and the re-parse
absorbs the extra slash into the path. -/
def normP (c : UrlComps) : UrlComps :=
  if c.netloc = [] ∧ c.scheme ≠ [] ∧ usesNetloc c.scheme ∧
      ¬(c.path = [] ∧ c.params = []) ∧ (pathParams c).headD ' ' ≠ '/' then
    { c with path := '/' :: c.path }
  else c

/-- `scraper.set_query_param`: parse the URL, set `q[key] = [value]` on the
`parse_qs` dict, re-encode with `urlencode(..., doseq=True)` and reassemble
with `urlunparse`.  `none` models the `ValueError` `urlparse` can raise. -/
def set_query_param (url key value : String) : Option String :=
  (urlparseM url.data).map fun c =>
    ⟨urlunparseM { c with query := urlencodeD (dictSet (parse_qs c.query) key [value]) }⟩

/-! ### The paginator (`scraper.main` / `generate_report.fetch_all_jobs`) -/

/-- `scraper.DEFAULT_URL`. -/
def DEFAULT_URL : String :=
  "https://www.jobindex.dk/api/jobsearch/v3/?address=Skovvej+67%2C+9510+Arden&jobage=1&latitude=56.776759306331&longitude=9.859810066344&radius=40&sort=score&page=1&include_html=1&include_skyscraper=1"

/-- One failure of a pagination run: the `ValueError` from `urlparse`, a
Python exception from `int()`/normalisation, or a propagated fetch failure
(`RuntimeError` in `scraper.fetch`, kept abstract as its message). -/
inductive RunError where
  | urlError
  | pyError (e : PyErr)
  | fetchError (msg : String)
deriving DecidableEq

/-- `total_pages = int(first_payload.get("total_pages") or 1)`. -/
def totalPagesOf (p : JValue) : Except PyErr ℤ :=
  match p with
  | .obj _ =>
    let tp := jget p "total_pages"
    if truthy tp then pyIntOfJ tp else .ok 1
  | _ => .error .attributeError

/-- The fetch loop over pages `2..total_pages`: the urls requested, in
order, and either the concatenated postings or the first failure. -/
def pagLoop (fetch : String → Except String JValue) (base : String) :
    List ℕ → List String × Except RunError (List JobPosting)
  | [] => ([], .ok [])
  | i :: rest =>
    match set_query_param base "page" (toString i) with
    | none => ([], .error .urlError)
    | some u =>
      match fetch u with
      | .error e => ([u], .error (.fetchError e))
      | .ok p =>
        match parse_jobs p with
        | .error pe => ([u], .error (.pyError pe))
        | .ok js =>
          let (tr, res) := pagLoop fetch base rest
          (u :: tr,
            match res with
            | .ok acc => .ok (js ++ acc)
            | .error e => .error e)

/-- The pagination shared verbatim by `scraper.main` and
`generate_report.fetch_all_jobs`: rewrite `page` to `1`, fetch, read
`total_pages`, normalise page 1, then fetch and normalise pages
`2..total_pages` strictly sequentially.  The first component lists the urls
fetched, in request order. -/
def paginate (fetch : String → Except String JValue) (base : String) :
    List String × Except RunError (List JobPosting) :=
  match set_query_param base "page" "1" with
  | none => ([], .error .urlError)
  | some u1 =>
    match fetch u1 with
    | .error e => ([u1], .error (.fetchError e))
    | .ok p1 =>
      match totalPagesOf p1 with
      | .error pe => ([u1], .error (.pyError pe))
      | .ok tot =>
        match parse_jobs p1 with
        | .error pe => ([u1], .error (.pyError pe))
        | .ok js1 =>
          let pages := if tot > 1 then List.range' 2 (tot - 1).toNat else []
          let (tr, res) := pagLoop fetch base pages
          (u1 :: tr,
            match res with
            | .ok acc => .ok (js1 ++ acc)
            | .error e => .error e)

/-- `generate_report.fetch_all_jobs` (the network fetch abstracted as an
oracle from url to decoded JSON or a `FetchError` message). -/
def fetch_all_jobs (fetch : String → Except String JValue) :
    List String × Except RunError (List JobPosting) :=
  paginate fetch DEFAULT_URL

/-- `scraper.main`: optional positional base-url argument defaulting to
`DEFAULT_URL`; the printing of a successful run happens after the pagination
and is outside the model. -/
def mainRun (fetch : String → Except String JValue) (args : List String) :
    List String × Except RunError (List JobPosting) :=
  paginate fetch (args.headD DEFAULT_URL)

/-! ### Shape predicates and spec-side definitions used by the claims -/

def isObjB : JValue → Bool
  | .obj _ => true
  | _ => false

def isArrB : JValue → Bool
  | .arr _ => true
  | _ => false

def isStrB : JValue → Bool
  | .str _ => true
  | _ => false

def jArrElems : JValue → List JValue
  | .arr l => l
  | _ => []

/-- A record for which `from_api_payload` stays on its happy path: a mapping
whose `company` is a mapping or falsy and whose `apply_deadline` is a string
or falsy. -/
def recordOkB (r : JValue) : Bool :=
  isObjB r &&
    (isObjB (jget r "company") || !truthy (jget r "company")) &&
    (isStrB (jget r "apply_deadline") || !truthy (jget r "apply_deadline"))

/-- Distance parsing as claim C2 words it (a refinement target written from
the spec, not from the source): a numeric value converts directly; a string
is trimmed, lower-cased and has a trailing `km` suffix stripped, then must
parse as a float; anything else is absent. -/
def claimDistance : JValue → Option PyFloat
  | .num q => some (.finite q)
  | .str s =>
    let t := pyLower (pyStrip s.data)
    pyFloatOfString (if t.reverse.take 2 = ['m', 'k'] then t.take (t.length - 2) else t)
  | _ => none

/-- Distance parsing as the amended claim words it: `None` and `""` are
absent; numbers (and booleans, which Python's `isinstance(x, int)` lets
through) convert to float; a string is trimmed, lower-cased and has every
occurrence of the substring `" km"` removed, then must parse as a float;
lists and mappings are absent. -/
def amendedDistance : JValue → Option PyFloat
  | .null => none
  | .bool b => some (.finite (if b then 1 else 0))
  | .num q => some (.finite q)
  | .str s =>
    if s = "" then none
    else pyFloatOfString (replaceAllKm (pyLower (pyStrip s.data)))
  | .arr _ => none
  | .obj _ => none

/-- A two-page fetch oracle for the pagination witnesses: page 1 declares
`total_pages = 2` and one record, page 2 holds one record. -/
def fetchTwoPages : String → Except String JValue := fun url =>
  if url = "http://h/?page=1" then
    .ok (.obj [("total_pages", .num 2), ("results", .arr [.obj [("headline", .str "A")]])])
  else if url = "http://h/?page=2" then
    .ok (.obj [("results", .arr [.obj [("headline", .str "B")]])])
  else .error "unknown url"

/-- A fetch oracle whose page 2 fails with a connection error. -/
def fetchPageTwoFails : String → Except String JValue := fun url =>
  if url = "http://h/?page=1" then
    .ok (.obj [("total_pages", .num 2), ("results", .arr [])])
  else .error "connection refused"

/-- A fetch oracle returning a page-1 payload with no `total_pages`. -/
def fetchNoTotal : String → Except String JValue := fun _ =>
  .ok (.obj [("results", .arr [.obj [("headline", .str "X")]])])

/-- A fetch oracle returning a truthy non-numeric `total_pages`. -/
def fetchBadTotal : String → Except String JValue := fun _ =>
  .ok (.obj [("total_pages", .str "soon"), ("results", .arr [])])

/-- The normalised record of `{"headline": h}`. -/
def soleJob (h : String) : JobPosting :=
  ⟨.str h, .null, .null, none, .null, none⟩

/-! ### Helper lemmas for the normalizer claims -/

instance {ε α : Type} [DecidableEq ε] [DecidableEq α] : DecidableEq (Except ε α) :=
  fun x y =>
    match x, y with
    | .ok a, .ok b =>
      if h : a = b then isTrue (by rw [h]) else isFalse fun hh => h (Except.ok.inj hh)
    | .error a, .error b =>
      if h : a = b then isTrue (by rw [h]) else isFalse fun hh => h (Except.error.inj hh)
    | .ok _, .error _ => isFalse Except.noConfusion
    | .error _, .ok _ => isFalse Except.noConfusion

/-- Characters `quote_plus` can emit: `always_safe` bytes, `+` and `%` (the
upper-case hex digits are themselves `always_safe`). -/
def qchar (ch : Char) : Bool := alwaysSafeByte ch.toNat || ch == '+' || ch == '%'

/-- The invariants of `urlparse` output that make re-parsing its
`urlunparse` well behaved. -/
structure GoodComps (c : UrlComps) : Prop where
  scheme_ok : c.scheme = [] ∨ (c.scheme ≠ [] ∧ c.scheme.all isSchemeChar = true ∧
      ((c.scheme.headD ' ').isAlpha = true) ∧ c.scheme.map Char.toLower = c.scheme)
  netloc_nd : ∀ ch ∈ c.netloc, netDelim ch = false
  netloc_nb : '[' ∉ c.netloc ∧ ']' ∉ c.netloc
  pp_resplit : splitParams (pathParams c) = (c.path, c.params)
  pp_no_hash : '#' ∉ pathParams c
  pp_no_q : '?' ∉ pathParams c
  no_unsafe : ∀ ch ∈ c.netloc ++ pathParams c ++ c.fragment, unsafeURLChar ch = false
  netloc_slash : c.netloc ≠ [] → pathParams c = [] ∨ (pathParams c).headD ' ' = '/'
  no_dslash : c.netloc = [] → (pathParams c).take 2 ≠ ['/', '/']
  scheme_nil_head : c.scheme = [] → c.netloc = [] → pathParams c ≠ [] →
      c0OrSpace ((pathParams c).headD ' ') = false
  scheme_nil_colon : c.scheme = [] → c.netloc = [] →
      match splitFirst ':' (pathParams c) with
      | none => True
      | some (pre, _) =>
        pre = [] ∨ ¬(pre.all isSchemeChar = true) ∨
          ¬(((pathParams c).headD ' ').isAlpha = true)

/-- The invariants of a `parse_qs` dict: keys occur once, every key has at
least one value, no value is the empty string. -/
def QDictInv (d : List (String × List String)) : Prop :=
  (d.map Prod.fst).Nodup ∧ (∀ kv ∈ d, kv.2 ≠ []) ∧ ∀ kv ∈ d, ∀ v ∈ kv.2, v ≠ ""

theorem pyOrJ_pos (x y : JValue) (h : truthy x = true) : pyOrJ x y = x := by
  simp [pyOrJ, h]

theorem pyOrJ_neg (x y : JValue) (h : truthy x = false) : pyOrJ x y = y := by
  simp [pyOrJ, h]

theorem isArrB_elim {v : JValue} (h : isArrB v = true) : ∃ l, v = .arr l := by
  cases v <;> simp_all [isArrB]

theorem isObjB_elim {v : JValue} (h : isObjB v = true) : ∃ fs, v = .obj fs := by
  cases v <;> simp_all [isObjB]

theorem isStrB_elim {v : JValue} (h : isStrB v = true) : ∃ s, v = .str s := by
  cases v <;> simp_all [isStrB]

theorem format_deadline_ok (j : JValue) (h : isStrB j = true ∨ truthy j = false) :
    ∃ r, _format_deadline j = .ok r := by
  rcases h with h | h
  · obtain ⟨s, rfl⟩ := isStrB_elim h
    by_cases ht : truthy (.str s) = true
    · cases hfi : fromisoformat (replaceZ s.data) with
      | none => exact ⟨some s, by simp [_format_deadline, ht, hfi]⟩
      | some dt =>
        exact ⟨some ⟨pyStrip (strftimeDeadline dt)⟩, by simp [_format_deadline, ht, hfi]⟩
    · exact ⟨none, by simp [_format_deadline, eq_false_of_ne_true ht]⟩
  · exact ⟨none, by simp [_format_deadline, h]⟩

theorem from_api_payload_ok (r : JValue) (h : recordOkB r = true) :
    ∃ jp, JobPosting.from_api_payload r = .ok jp := by
  cases r with
  | obj fs =>
    simp only [recordOkB, Bool.and_eq_true, Bool.or_eq_true, Bool.not_eq_true'] at h
    obtain ⟨⟨-, hc⟩, hd⟩ := h
    obtain ⟨dl, hdl⟩ := format_deadline_ok (jget (.obj fs) "apply_deadline") hd
    have hcomp : ∃ gs, pyOrJ (jget (.obj fs) "company") (.obj []) = .obj gs := by
      by_cases ht : truthy (jget (.obj fs) "company") = true
      · rcases hc with hc | hc
        · obtain ⟨gs, hv⟩ := isObjB_elim hc
          exact ⟨gs, by rw [pyOrJ_pos _ _ ht, hv]⟩
        · rw [ht] at hc; cases hc
      · exact ⟨[], pyOrJ_neg _ _ (eq_false_of_ne_true ht)⟩
    obtain ⟨gs, hgs⟩ := hcomp
    exact ⟨⟨pyOrJ (jget (.obj fs) "headline") (.str "(no title)"),
        jget (.obj gs) "name", jget (.obj fs) "area", dl,
        pyOrJ (jget (.obj fs) "apply_url") (jget (.obj fs) "url"),
        _parse_distance (jget (.obj fs) "distance")⟩, by
      simp only [JobPosting.from_api_payload, hgs, hdl]⟩
  | _ => simp [recordOkB, isObjB] at h

theorem mapPostings_ok (l : List JValue)
    (h : ∀ r ∈ l, ∃ jp, JobPosting.from_api_payload r = .ok jp) :
    ∃ l', mapPostings l = .ok l' := by
  induction l with
  | nil => exact ⟨[], rfl⟩
  | cons x xs ih =>
    obtain ⟨jp, hjp⟩ := h x (List.mem_cons_self x xs)
    obtain ⟨rest, hrest⟩ := ih fun r hr => h r (List.mem_cons_of_mem x hr)
    exact ⟨jp :: rest, by simp [mapPostings, hjp, hrest]⟩

/-! ### Claims C1, C2, C3, C8 -/

/-- Claim C1, amended: `parse_jobs` together with `from_api_payload` always
terminates, and it raises no exception on any page payload that is a mapping
whose `results` field is a list or falsy and whose records are mappings with
a mapping-or-falsy `company` and a string-or-falsy `apply_deadline`; within
that shape every malformed optional field (unparsable distance, unparsable
deadline, missing nested name) degrades to the absent value.  (The original
claim, refuted by `claim_C1_counterexample`, asserted this for arbitrarily
shaped records as well.) -/
theorem claim_C1 (p : JValue)
    (hobj : isObjB p = true)
    (hres : isArrB (jget p "results") = true ∨ truthy (jget p "results") = false)
    (hrec : ∀ r ∈ jArrElems (pyOrJ (jget p "results") (.arr [])), recordOkB r = true) :
    ∃ l, parse_jobs p = .ok l := by
  obtain ⟨fs, rfl⟩ := isObjB_elim hobj
  by_cases ht : truthy (jget (.obj fs) "results") = true
  · have harr : isArrB (jget (.obj fs) "results") = true := by
      rcases hres with h | h
      · exact h
      · rw [ht] at h; cases h
    obtain ⟨items, hv⟩ := isArrB_elim harr
    have hiter : pyOrJ (jget (.obj fs) "results") (.arr []) = .arr items := by
      rw [pyOrJ_pos _ _ ht, hv]
    obtain ⟨l', hl'⟩ := mapPostings_ok items (by
      intro r hr
      apply from_api_payload_ok
      apply hrec
      rw [hiter]
      simpa [jArrElems] using hr)
    exact ⟨l', by simp only [parse_jobs, hiter, pyIter, hl']⟩
  · exact ⟨[], by
      simp only [parse_jobs, pyOrJ_neg _ _ (eq_false_of_ne_true ht), pyIter, mapPostings]⟩

/-- Witness for C1: a payload with two records full of malformed optional
fields (null company, junk distance, junk deadline, missing everything)
normalises without an exception. -/
theorem claim_C1_witness :
    ∃ l,
      parse_jobs (.obj [("results", .arr [
        .obj [("headline", .str "Dev"), ("company", .null),
              ("distance", .str "x km y"), ("apply_deadline", .str "not-a-date")],
        .obj []])]) = .ok l :=
  claim_C1 _ rfl (Or.inl rfl) (by decide)

/-- Counterexample to C1 as stated: a record whose `company` is a (truthy)
string makes `company.get("name")` raise `AttributeError`; the claim demanded
an absent company instead of a thrown error. -/
theorem claim_C1_counterexample :
    parse_jobs (.obj [("results", .arr [.obj [("company", .str "Acme Ltd")]])]) =
      .error .attributeError ∧
    ∀ l, parse_jobs (.obj [("results", .arr [.obj [("company", .str "Acme Ltd")]])]) ≠
      .ok l := by
  refine ⟨rfl, fun l h => ?_⟩
  rw [show parse_jobs (.obj [("results", .arr [.obj [("company", .str "Acme Ltd")]])]) =
    .error .attributeError from rfl] at h
  exact Except.noConfusion h

/-- Claim C2, amended: `_parse_distance` equals the field-by-field
description in which a string has every occurrence of the substring `" km"`
(space before `km`) removed — not just a trailing `km` suffix stripped — and
booleans count as numeric; the claim's concrete examples
(`"12.3 km"` to `12.3`, `"km"` to absent, `7` to `7.0`, missing to absent)
all hold.  (The trailing-suffix reading is refuted by
`claim_C2_counterexample`.) -/
theorem claim_C2 :
    (∀ j, _parse_distance j = amendedDistance j) ∧
    _parse_distance (.str "12.3 km") = some (.finite (123 / 10 : ℚ)) ∧
    _parse_distance (.str "km") = none ∧
    _parse_distance (.num 7) = some (.finite 7) ∧
    _parse_distance .null = none := by
  refine ⟨fun j => ?_, ?_, by decide, rfl, rfl⟩
  · cases j with
    | str s =>
      by_cases h : s = ""
      · simp [_parse_distance, isNoneOrEmptyStr, amendedDistance, h]
      · simp [_parse_distance, isNoneOrEmptyStr, amendedDistance, h]
    | _ => rfl
  · rw [show _parse_distance (.str "12.3 km") =
        some (.finite ((natOfDigits ['1', '2'] : ℚ) +
          (natOfDigits ['3'] : ℚ) / (10 : ℚ) ^ (['3'] : List Char).length)) from rfl,
      show (natOfDigits ['1', '2'] : ℕ) = 12 from rfl,
      show (natOfDigits ['3'] : ℕ) = 3 from rfl]
    norm_num

/-- Counterexample to C2 as stated: the code removes `" km"` (with a space)
everywhere rather than stripping a trailing `km` suffix, so `"12.3km"` is
absent where the claim requires `12.3`; and a boolean — "any other shape" —
yields `1.0` rather than absent because Python's `isinstance(True, int)`
holds. -/
theorem claim_C2_counterexample :
    _parse_distance (.str "12.3km") = none ∧
    claimDistance (.str "12.3km") = some (.finite (123 / 10 : ℚ)) ∧
    _parse_distance (.bool true) = some (.finite 1) ∧
    claimDistance (.bool true) = none := by
  refine ⟨by decide, ?_, rfl, rfl⟩
  rw [show claimDistance (.str "12.3km") =
      some (.finite ((natOfDigits ['1', '2'] : ℚ) +
        (natOfDigits ['3'] : ℚ) / (10 : ℚ) ^ (['3'] : List Char).length)) from rfl,
    show (natOfDigits ['1', '2'] : ℕ) = 12 from rfl,
    show (natOfDigits ['3'] : ℕ) = 3 from rfl]
  norm_num

/-- Claim C3, amended: `_format_deadline` keeps an absent deadline absent and
also collapses every other falsy value — in particular the empty string,
which the claim's "unparsable strings pass through unchanged" does not cover
— to absent; a nonempty string is reformatted to `YYYY-MM-DD HH:MM <tz>`
(via `strftime`, with `%Z` empty for a naive timestamp) exactly when the
`Z`-normalised text parses as ISO-8601, and passes through unchanged
otherwise; `"2024-05-01T10:00:00Z"` becomes `"2024-05-01 10:00 UTC"`. -/
theorem claim_C3 :
    (∀ j, truthy j = false → _format_deadline j = .ok none) ∧
    (∀ s : String, s ≠ "" →
      _format_deadline (.str s) = .ok (some (
        match fromisoformat (replaceZ s.data) with
        | some dt => ⟨pyStrip (strftimeDeadline dt)⟩
        | none => s))) ∧
    _format_deadline (.str "2024-05-01T10:00:00Z") = .ok (some "2024-05-01 10:00 UTC") := by
  refine ⟨fun j h => by simp [_format_deadline, h], fun s hs => ?_, by decide⟩
  have ht : truthy (.str s) = true := by
    simp [truthy]
    exact hs
  simp only [_format_deadline, ht, Bool.not_true, Bool.false_eq_true, if_false]
  cases fromisoformat (replaceZ s.data) <;> rfl

/-- Witness for C3: an unparsable nonempty deadline string passes through
unchanged. -/
theorem claim_C3_witness :
    _format_deadline (.str "ASAP") = .ok (some "ASAP") := by
  have h := claim_C3.2.1 "ASAP" (by decide)
  simpa using h

/-- Counterexample to C3 as stated: the empty string is present and
unparsable, so the claim requires it back unchanged, but `if not deadline`
collapses it to absent. -/
theorem claim_C3_counterexample :
    _format_deadline (.str "") = .ok none ∧
    (Except.ok none : Except PyErr (Option String)) ≠ .ok (some "") :=
  ⟨rfl, fun h => Option.noConfusion (Except.ok.inj h)⟩

/-- Claim C8, amended: a payload mapping whose `results` field is falsy
(missing, null, `false`, `0`, empty string/list/dict) normalises to the
empty list, but a truthy non-list `results` raises (`TypeError` for numbers
and booleans, `AttributeError` from the per-record `.get` when iterating a
string's characters or a dict's keys) instead of being treated as empty.
(The original "not list-shaped gives empty" reading is refuted by
`claim_C8_counterexample`.) -/
theorem claim_C8 :
    (∀ p, isObjB p = true → truthy (jget p "results") = false → parse_jobs p = .ok []) ∧
    (∀ p, isObjB p = true → truthy (jget p "results") = true →
      isArrB (jget p "results") = false → ∃ e, parse_jobs p = .error e) := by
  constructor
  · intro p hobj hres
    obtain ⟨fs, rfl⟩ := isObjB_elim hobj
    simp only [parse_jobs, pyOrJ_neg _ _ hres, pyIter, mapPostings]
  · intro p hobj hres harr
    obtain ⟨fs, rfl⟩ := isObjB_elim hobj
    have hp : pyOrJ (jget (.obj fs) "results") (.arr []) = jget (.obj fs) "results" :=
      pyOrJ_pos _ _ hres
    cases hv : jget (.obj fs) "results" with
    | null => rw [hv] at hres; simp [truthy] at hres
    | bool b =>
      exact ⟨.typeError, by
        have hp2 : pyOrJ (jget (.obj fs) "results") (.arr []) = .bool b := by rw [hp, hv]
        simp only [parse_jobs, hp2, pyIter]⟩
    | num q =>
      exact ⟨.typeError, by
        have hp2 : pyOrJ (jget (.obj fs) "results") (.arr []) = .num q := by rw [hp, hv]
        simp only [parse_jobs, hp2, pyIter]⟩
    | arr l => rw [hv] at harr; simp [isArrB] at harr
    | str s =>
      cases s with
      | mk data =>
        cases data with
        | nil => rw [hv] at hres; simp [truthy] at hres
        | cons c cs =>
          exact ⟨.attributeError, by
            have hp2 : pyOrJ (jget (.obj fs) "results") (.arr []) = .str ⟨c :: cs⟩ := by
              rw [hp, hv]
            simp only [parse_jobs, hp2, pyIter, List.map_cons, mapPostings,
              JobPosting.from_api_payload]⟩
    | obj gs =>
      cases gs with
      | nil => rw [hv] at hres; simp [truthy] at hres
      | cons kv rest =>
        exact ⟨.attributeError, by
          have hp2 : pyOrJ (jget (.obj fs) "results") (.arr []) = .obj (kv :: rest) := by
            rw [hp, hv]
          simp only [parse_jobs, hp2, pyIter, List.map_cons, mapPostings,
            JobPosting.from_api_payload]⟩

/-- Witness for C8: a mapping with no `results` key normalises to the empty
list (and one with `results: 5` raises). -/
theorem claim_C8_witness :
    parse_jobs (.obj [("total", .num 3)]) = .ok [] ∧
    ∃ e, parse_jobs (.obj [("results", .num 5)]) = .error e :=
  ⟨claim_C8.1 (.obj [("total", .num 3)]) rfl rfl,
   claim_C8.2 (.obj [("results", .num 5)]) rfl rfl rfl⟩

/-- Counterexample to C8 as stated: `results: 42` is "not list-shaped", yet
`parse_jobs` raises `TypeError` instead of returning the empty sequence. -/
theorem claim_C8_counterexample :
    parse_jobs (.obj [("results", .num 42)]) = .error .typeError ∧
    ∀ l, parse_jobs (.obj [("results", .num 42)]) ≠ .ok l := by
  refine ⟨rfl, fun l h => ?_⟩
  rw [show parse_jobs (.obj [("results", .num 42)]) = .error .typeError from rfl] at h
  exact Except.noConfusion h

/-! ### Claims C5, C6, C7: the paginator -/

theorem pagLoop_ok (f : String → Except String JValue) (base : String)
    (u : ℕ → String) (P : ℕ → JValue) (J : ℕ → List JobPosting) :
    ∀ (len lo : ℕ),
    (∀ i, lo ≤ i → i < lo + len → set_query_param base "page" (toString i) = some (u i)) →
    (∀ i, lo ≤ i → i < lo + len → f (u i) = .ok (P i)) →
    (∀ i, lo ≤ i → i < lo + len → parse_jobs (P i) = .ok (J i)) →
    pagLoop f base (List.range' lo len) =
      ((List.range' lo len).map u, .ok ((List.range' lo len).map J).flatten) := by
  intro len
  induction len with
  | zero => intro lo _ _ _; rfl
  | succ n ih =>
    intro lo hu hf hj
    have hr : List.range' lo (n + 1) = lo :: List.range' (lo + 1) n := rfl
    rw [hr]
    simp only [pagLoop, hu lo le_rfl (by omega), hf lo le_rfl (by omega),
      hj lo le_rfl (by omega)]
    rw [ih (lo + 1) (fun i a b => hu i (by omega) (by omega))
      (fun i a b => hf i (by omega) (by omega))
      (fun i a b => hj i (by omega) (by omega))]
    simp [List.flatten]

theorem pagLoop_err (f : String → Except String JValue) (base : String)
    (u : ℕ → String) (P : ℕ → JValue) (J : ℕ → List JobPosting) (e : String) :
    ∀ (len lo j : ℕ), lo ≤ j → j < lo + len →
    (∀ i, lo ≤ i → i ≤ j → set_query_param base "page" (toString i) = some (u i)) →
    (∀ i, lo ≤ i → i < j → f (u i) = .ok (P i)) →
    (∀ i, lo ≤ i → i < j → parse_jobs (P i) = .ok (J i)) →
    f (u j) = .error e →
    pagLoop f base (List.range' lo len) =
      ((List.range' lo (j + 1 - lo)).map u, .error (.fetchError e)) := by
  intro len
  induction len with
  | zero => intro lo j h1 h2 _ _ _ _; omega
  | succ n ih =>
    intro lo j hlo hlt hu hf hj hfe
    have hr : List.range' lo (n + 1) = lo :: List.range' (lo + 1) n := rfl
    rw [hr]
    by_cases hcase : lo = j
    · subst hcase
      simp only [pagLoop, hu lo le_rfl le_rfl, hfe]
      have h1 : lo + 1 - lo = 1 := by omega
      rw [h1]
      rfl
    · have hlo' : lo < j := by omega
      simp only [pagLoop, hu lo le_rfl (by omega), hf lo le_rfl hlo', hj lo le_rfl hlo']
      rw [ih (lo + 1) j (by omega) (by omega) (fun i a b => hu i (by omega) b)
        (fun i a b => hf i (by omega) b) (fun i a b => hj i (by omega) b) hfe]
      have h1 : j + 1 - lo = (j + 1 - (lo + 1)) + 1 := by omega
      rw [h1]
      rfl

/-- Claim C5: a successful pagination run returns exactly the concatenation
of the normalised records of pages `1` through `total_pages`, fetching the
pages strictly sequentially in ascending order (the first component is the
url trace, in request order), with each page's records kept in payload order,
no early termination on empty pages and no de-duplication. -/
theorem claim_C5 (f : String → Except String JValue) (base : String) (N : ℕ)
    (u : ℕ → String) (P : ℕ → JValue) (J : ℕ → List JobPosting)
    (hN : 1 ≤ N)
    (hu : ∀ i, 1 ≤ i → i ≤ N → set_query_param base "page" (toString i) = some (u i))
    (hf : ∀ i, 1 ≤ i → i ≤ N → f (u i) = .ok (P i))
    (ht : totalPagesOf (P 1) = .ok (N : ℤ))
    (hj : ∀ i, 1 ≤ i → i ≤ N → parse_jobs (P i) = .ok (J i)) :
    paginate f base =
      ((List.range' 1 N).map u, .ok ((List.range' 1 N).map J).flatten) := by
  have hu1 : set_query_param base "page" "1" = some (u 1) := hu 1 le_rfl hN
  simp only [paginate, hu1, hf 1 le_rfl hN, ht, hj 1 le_rfl hN]
  by_cases hN1 : N = 1
  · subst hN1
    rw [if_neg (by norm_num)]
    simp [pagLoop, List.flatten]
  · have h2 : ((N : ℤ)) > 1 := by omega
    rw [if_pos h2]
    have htn : ((N : ℤ) - 1).toNat = N - 1 := by omega
    rw [htn, pagLoop_ok f base u P J (N - 1) 2
      (fun i a b => hu i (by omega) (by omega))
      (fun i a b => hf i (by omega) (by omega))
      (fun i a b => hj i (by omega) (by omega))]
    have hsplit : List.range' 1 N = 1 :: List.range' 2 (N - 1) := by
      have hN' : N = (N - 1) + 1 := by omega
      rw [hN']
      rfl
    rw [hsplit]
    simp [List.flatten]

/-- Witness for C5: with a concrete two-page response the run requests
`page=1` then `page=2` and returns the two records in page order. -/
theorem claim_C5_witness :
    paginate fetchTwoPages "http://h/" =
      ((List.range' 1 2).map (fun i => "http://h/?page=" ++ toString i),
        .ok ((List.range' 1 2).map
          (fun i => if i = 1 then [soleJob "A"] else [soleJob "B"])).flatten) :=
  claim_C5 fetchTwoPages "http://h/" 2
    (fun i => "http://h/?page=" ++ toString i)
    (fun i => if i = 1 then
        .obj [("total_pages", .num 2), ("results", .arr [.obj [("headline", .str "A")]])]
      else .obj [("results", .arr [.obj [("headline", .str "B")]])])
    (fun i => if i = 1 then [soleJob "A"] else [soleJob "B"])
    (by omega)
    (by
      intro i h1 h2
      rcases (by omega : i = 1 ∨ i = 2) with rfl | rfl <;> rfl)
    (by
      intro i h1 h2
      rcases (by omega : i = 1 ∨ i = 2) with rfl | rfl <;> rfl)
    (by rfl)
    (by
      intro i h1 h2
      rcases (by omega : i = 1 ∨ i = 2) with rfl | rfl <;> rfl)

/-- Claim C6, amended: when the page-1 `total_pages` field is absent — or any
other falsy value — the paginator uses a total of `1`, fetches nothing beyond
page 1 and succeeds; but a truthy non-numeric `total_pages` (e.g. a
non-numeric string) makes `int()` raise instead of defaulting to 1
(`claim_C6_counterexample`). -/
theorem claim_C6 (f : String → Except String JValue) (base u1 : String) (p1 : JValue)
    (js : List JobPosting)
    (hu : set_query_param base "page" "1" = some u1)
    (hf : f u1 = .ok p1)
    (hobj : isObjB p1 = true)
    (htp : truthy (jget p1 "total_pages") = false)
    (hj : parse_jobs p1 = .ok js) :
    paginate f base = ([u1], .ok js) := by
  obtain ⟨fs, rfl⟩ := isObjB_elim hobj
  have ht : totalPagesOf (.obj fs) = .ok 1 := by simp [totalPagesOf, htp]
  simp only [paginate, hu, hf, ht, hj]
  rw [if_neg (by norm_num)]
  simp [pagLoop]

/-- Witness for C6: a payload with no `total_pages` key yields exactly the
page-1 records from a single fetch. -/
theorem claim_C6_witness :
    paginate fetchNoTotal "http://h/" = (["http://h/?page=1"], .ok [soleJob "X"]) :=
  claim_C6 fetchNoTotal "http://h/" "http://h/?page=1"
    (.obj [("results", .arr [.obj [("headline", .str "X")]])])
    [soleJob "X"] (by rfl) (by rfl) (by rfl) (by rfl) (by rfl)

/-- Counterexample to C6 as stated: a non-numeric (truthy) `total_pages`
makes the run fail with `ValueError` from `int("soon")` where the claim
requires the default of 1 and no failure. -/
theorem claim_C6_counterexample :
    (paginate fetchBadTotal "http://h/").2 = .error (.pyError .valueError) ∧
    ∀ l, (paginate fetchBadTotal "http://h/").2 ≠ .ok l := by
  refine ⟨rfl, fun l h => ?_⟩
  rw [show (paginate fetchBadTotal "http://h/").2 = .error (.pyError .valueError)
    from rfl] at h
  exact Except.noConfusion h

/-- Claim C7: if the fetch of any page `j` (including page 1) fails, the whole
pagination run fails with that fetch failure; the partial results of pages
`1..j-1` are discarded (the result carries no record list) and the url trace
stops at page `j`. -/
theorem claim_C7 (f : String → Except String JValue) (base : String) (N j : ℕ)
    (u : ℕ → String) (P : ℕ → JValue) (J : ℕ → List JobPosting) (e : String)
    (hj1 : 1 ≤ j)
    (hu : ∀ i, 1 ≤ i → i ≤ j → set_query_param base "page" (toString i) = some (u i))
    (hfok : ∀ i, 1 ≤ i → i < j → f (u i) = .ok (P i))
    (hjok : ∀ i, 1 ≤ i → i < j → parse_jobs (P i) = .ok (J i))
    (ht : 2 ≤ j → totalPagesOf (P 1) = .ok (N : ℤ) ∧ j ≤ N)
    (hfe : f (u j) = .error e) :
    paginate f base = ((List.range' 1 j).map u, .error (.fetchError e)) := by
  have hu1 : set_query_param base "page" "1" = some (u 1) := hu 1 le_rfl hj1
  by_cases hone : j = 1
  · subst hone
    simp only [paginate, hu1, hfe]
    rfl
  · have h2j : 2 ≤ j := by omega
    obtain ⟨htp, hjN⟩ := ht h2j
    simp only [paginate, hu1, hfok 1 le_rfl (by omega), htp,
      hjok 1 le_rfl (by omega)]
    have hN2 : ((N : ℤ)) > 1 := by omega
    rw [if_pos hN2]
    have htn : ((N : ℤ) - 1).toNat = N - 1 := by omega
    rw [htn, pagLoop_err f base u P J e (N - 1) 2 j h2j (by omega)
      (fun i a b => hu i (by omega) b)
      (fun i a b => hfok i (by omega) b)
      (fun i a b => hjok i (by omega) b) hfe]
    have hj2 : j + 1 - 2 = j - 1 := by omega
    have hsplit : List.range' 1 j = 1 :: List.range' 2 (j - 1) := by
      have hj' : j = (j - 1) + 1 := by omega
      rw [hj']
      rfl
    rw [hj2, hsplit]
    rfl

/-- Witness for C7: with page 2 failing, the run requests pages 1 and 2 and
aborts with the connection error, surfacing no records. -/
theorem claim_C7_witness :
    paginate fetchPageTwoFails "http://h/" =
      ((List.range' 1 2).map (fun i => "http://h/?page=" ++ toString i),
        .error (.fetchError "connection refused")) :=
  claim_C7 fetchPageTwoFails "http://h/" 2 2
    (fun i => "http://h/?page=" ++ toString i)
    (fun _ => .obj [("total_pages", .num 2), ("results", .arr [])])
    (fun _ => []) "connection refused"
    (by omega)
    (by
      intro i h1 h2
      rcases (by omega : i = 1 ∨ i = 2) with rfl | rfl <;> rfl)
    (by
      intro i h1 h2
      rcases (by omega : i = 1) with rfl
      rfl)
    (by
      intro i h1 h2
      rcases (by omega : i = 1) with rfl
      rfl)
    (fun _ => ⟨by rfl, le_rfl⟩)
    (by rfl)

/-! ### Lemmas about the splitting helpers of the `urllib.parse` model -/

theorem splitFirst_some {c : Char} :
    ∀ {l a b : List Char}, splitFirst c l = some (a, b) → l = a ++ c :: b ∧ c ∉ a := by
  intro l
  induction l with
  | nil => intro a b h; exact absurd h (by simp [splitFirst])
  | cons x xs ih =>
    intro a b h
    rw [splitFirst] at h
    split at h
    · rename_i hx
      obtain ⟨rfl, rfl⟩ : a = [] ∧ b = xs := by
        have h' := Option.some.inj h
        exact ⟨(congrArg Prod.fst h').symm, (congrArg Prod.snd h').symm⟩
      subst hx
      exact ⟨rfl, by simp⟩
    · rename_i hx
      rw [Option.map_eq_some'] at h
      obtain ⟨⟨a', b'⟩, hsp, heq⟩ := h
      obtain ⟨rfl, rfl⟩ : a = x :: a' ∧ b = b' :=
        ⟨(congrArg Prod.fst heq).symm, (congrArg Prod.snd heq).symm⟩
      obtain ⟨hl, hm⟩ := ih hsp
      refine ⟨by rw [hl]; rfl, ?_⟩
      simp only [List.mem_cons, not_or]
      exact ⟨fun hc => hx hc.symm, hm⟩

theorem splitFirst_append (c : Char) :
    ∀ (a b : List Char), c ∉ a → splitFirst c (a ++ c :: b) = some (a, b) := by
  intro a
  induction a with
  | nil => intro b _; simp [splitFirst]
  | cons x xs ih =>
    intro b h
    simp only [List.mem_cons, not_or] at h
    obtain ⟨hx, hxs⟩ := h
    rw [List.cons_append, splitFirst, if_neg (fun hh => hx hh.symm), ih b hxs]
    rfl

theorem splitFirst_not_mem (c : Char) :
    ∀ (l : List Char), c ∉ l → splitFirst c l = none := by
  intro l
  induction l with
  | nil => intro _; rfl
  | cons x xs ih =>
    intro h
    simp only [List.mem_cons, not_or] at h
    rw [splitFirst, if_neg (fun hh => h.1 hh.symm), ih h.2]
    rfl

theorem split1_append (c : Char) (a b : List Char) (h : c ∉ a) :
    split1 c (a ++ c :: b) = (a, b) := by
  rw [split1, splitFirst_append c a b h]

theorem split1_not_mem (c : Char) (l : List Char) (h : c ∉ l) :
    split1 c l = (l, []) := by
  rw [split1, splitFirst_not_mem c l h]

theorem takeWhile_exact (p : Char → Bool) :
    ∀ (a b : List Char), (∀ x ∈ a, p x = true) →
      (∀ x, b.head? = some x → p x = false) →
      (a ++ b).takeWhile p = a ∧ (a ++ b).dropWhile p = b := by
  intro a
  induction a with
  | nil =>
    intro b _ hb
    cases b with
    | nil => simp
    | cons y ys =>
      simp only [List.nil_append, List.takeWhile_cons, List.dropWhile_cons, hb y rfl]
      simp
  | cons x xs ih =>
    intro b ha hb
    have hx : p x = true := ha x (by simp)
    obtain ⟨h1, h2⟩ := ih b (fun y hy => ha y (by simp [hy])) hb
    simp only [List.cons_append, List.takeWhile_cons, List.dropWhile_cons, hx, h1, h2]
    simp

theorem contains_true {l : List Char} {c : Char} (h : c ∈ l) : l.contains c = true :=
  List.elem_iff.mpr h

theorem contains_false {l : List Char} {c : Char} (h : c ∉ l) : l.contains c = false := by
  cases hc : l.contains c with
  | false => rfl
  | true => exact absurd (List.elem_iff.mp hc) h

theorem splitLastSlash_not_mem :
    ∀ (l : List Char), '/' ∉ l → splitLastSlash l = ([], l) := by
  intro l
  induction l with
  | nil => intro _; rfl
  | cons x xs ih =>
    intro h
    simp only [List.mem_cons, not_or] at h
    have hc : xs.contains '/' = false := contains_false h.2
    rw [splitLastSlash, hc]
    simp only [Bool.false_eq_true, if_false]
    rw [if_neg (fun hh => h.1 hh.symm)]

theorem splitLastSlash_append :
    ∀ (a b : List Char), '/' ∉ b →
      splitLastSlash (a ++ b) = ((splitLastSlash a).1, (splitLastSlash a).2 ++ b) := by
  intro a
  induction a with
  | nil =>
    intro b hb
    rw [List.nil_append, splitLastSlash_not_mem b hb]
    rfl
  | cons x xs ih =>
    intro b hb
    by_cases hx : '/' ∈ xs
    · have hc : (xs ++ b).contains '/' = true := contains_true (by simp [hx])
      have hc' : xs.contains '/' = true := contains_true hx
      rw [List.cons_append, splitLastSlash, hc, if_pos rfl, ih b hb,
        splitLastSlash, hc', if_pos rfl]
    · have hc : (xs ++ b).contains '/' = false := contains_false (by
        simp only [List.mem_append, not_or]
        exact ⟨hx, hb⟩)
      have hc' : xs.contains '/' = false := contains_false hx
      rw [List.cons_append, splitLastSlash, hc, splitLastSlash, hc']
      simp only [Bool.false_eq_true, if_false]
      by_cases hxx : x = '/'
      · rw [if_pos hxx, if_pos hxx]
      · rw [if_neg hxx, if_neg hxx]
        simp

theorem splitLastSlash_parts :
    ∀ (l : List Char), (splitLastSlash l).1 ++ (splitLastSlash l).2 = l ∧
      '/' ∉ (splitLastSlash l).2 := by
  intro l
  induction l with
  | nil => simp [splitLastSlash]
  | cons x xs ih =>
    rw [splitLastSlash]
    by_cases hx : '/' ∈ xs
    · have hc : xs.contains '/' = true := contains_true hx
      rw [hc, if_pos rfl]
      exact ⟨by simpa using ih.1, ih.2⟩
    · have hc : xs.contains '/' = false := contains_false hx
      rw [hc]
      simp only [Bool.false_eq_true, if_false]
      by_cases hxx : x = '/'
      · rw [if_pos hxx]
        exact ⟨by simp [hxx], hx⟩
      · rw [if_neg hxx]
        exact ⟨rfl, by simp [hxx, hx]; exact fun hh => hxx hh.symm⟩

theorem splitParams_no_semi (p : List Char) (hsemi : ';' ∉ (splitLastSlash p).2) :
    splitParams p = (p, []) := by
  rw [splitParams]
  rcases hsl : splitLastSlash p with ⟨pre, seg⟩
  have h2 : splitFirst ';' seg = none :=
    splitFirst_not_mem ';' seg (by rw [hsl] at hsemi; exact hsemi)
  simp only [hsl, h2]

theorem splitParams_append (path params : List Char)
    (hsemi : ';' ∉ (splitLastSlash path).2) (hp : '/' ∉ params) :
    splitParams (path ++ ';' :: params) = (path, params) := by
  have h1 : splitLastSlash (path ++ ';' :: params) =
      ((splitLastSlash path).1, (splitLastSlash path).2 ++ ';' :: params) :=
    splitLastSlash_append path (';' :: params) (by
      simp only [List.mem_cons, not_or]
      exact ⟨by decide, hp⟩)
  rw [splitParams, h1]
  show (match splitFirst ';' ((splitLastSlash path).2 ++ ';' :: params) with
    | some (a, b) => ((splitLastSlash path).1 ++ a, b)
    | none => (path ++ ';' :: params, [])) = (path, params)
  rw [splitFirst_append ';' _ _ hsemi]
  show ((splitLastSlash path).1 ++ (splitLastSlash path).2, params) = (path, params)
  rw [(splitLastSlash_parts path).1]

/-! ### Character classes of `quote_plus` output -/

theorem Char_toNat_ofNat {n : ℕ} (h : n < 0xD800) : (Char.ofNat n).toNat = n := by
  unfold Char.ofNat
  rw [dif_pos (Or.inl h)]
  rfl

theorem char_ne_of_toNat {a b : Char} (h : a.toNat ≠ b.toNat) : a ≠ b :=
  fun hh => h (by rw [hh])

theorem utf8EncodeChar_lt (c : Char) : ∀ b ∈ utf8EncodeChar c, b < 256 := by
  intro b hb
  have hv : c.toNat < 1114112 := by
    rcases c.valid with h | ⟨h1, h2⟩
    · exact lt_trans h (by norm_num)
    · exact h2
  by_cases h1 : c.toNat < 0x80
  · simp [utf8EncodeChar, h1] at hb
    omega
  · by_cases h2 : c.toNat < 0x800
    · simp [utf8EncodeChar, h1, h2] at hb
      rcases hb with rfl | rfl <;> omega
    · by_cases h3 : c.toNat < 0x10000
      · simp [utf8EncodeChar, h1, h2, h3] at hb
        rcases hb with rfl | rfl | rfl <;> omega
      · simp [utf8EncodeChar, h1, h2, h3] at hb
        rcases hb with rfl | rfl | rfl | rfl <;> omega

theorem hexUpper_safe (x : ℕ) (h : x < 16) : alwaysSafeByte (hexUpper x).toNat = true := by
  rw [hexUpper]
  by_cases h10 : x < 10
  · rw [if_pos h10, Char_toNat_ofNat (by omega)]
    simp only [alwaysSafeByte, Bool.or_eq_true, Bool.and_eq_true, decide_eq_true_eq]
    omega
  · rw [if_neg h10, Char_toNat_ofNat (by omega)]
    simp only [alwaysSafeByte, Bool.or_eq_true, Bool.and_eq_true, decide_eq_true_eq]
    omega

theorem quoteByte_qchar (b : ℕ) (hb : b < 256) : ∀ ch ∈ quoteByte b, qchar ch = true := by
  intro ch hch
  rw [quoteByte] at hch
  by_cases hs : alwaysSafeByte b = true
  · rw [if_pos hs] at hch
    simp only [List.mem_singleton] at hch
    subst hch
    have ht : (Char.ofNat b).toNat = b := Char_toNat_ofNat (by omega)
    simp [qchar, ht, hs]
  · rw [if_neg hs] at hch
    by_cases h32 : b = 32
    · rw [if_pos h32] at hch
      simp only [List.mem_singleton] at hch
      subst hch
      simp [qchar]
    · rw [if_neg h32] at hch
      simp only [List.mem_cons, List.mem_singleton, List.not_mem_nil, or_false] at hch
      rcases hch with rfl | rfl | rfl
      · simp [qchar]
      · simp [qchar, hexUpper_safe (b / 16) (by omega)]
      · simp [qchar, hexUpper_safe (b % 16) (by omega)]

theorem utf8Encode_lt (l : List Char) : ∀ b ∈ utf8Encode l, b < 256 := by
  intro b hb
  rw [utf8Encode] at hb
  simp only [List.mem_flatten, List.mem_map] at hb
  obtain ⟨bs, ⟨c, _, rfl⟩, hbbs⟩ := hb
  exact utf8EncodeChar_lt c b hbbs

theorem quote_plus_qchar (s : String) : ∀ ch ∈ quote_plus s, qchar ch = true := by
  intro ch hch
  rw [quote_plus] at hch
  simp only [List.mem_flatten, List.mem_map] at hch
  obtain ⟨piece, ⟨b, hb, rfl⟩, hchp⟩ := hch
  exact quoteByte_qchar b (utf8Encode_lt s.data b hb) ch hchp

theorem qchar_toNat {ch : Char} (h : qchar ch = true) :
    ch.toNat = 43 ∨ ch.toNat = 37 ∨
      ((65 ≤ ch.toNat ∧ ch.toNat ≤ 90) ∨ (97 ≤ ch.toNat ∧ ch.toNat ≤ 122) ∨
       (48 ≤ ch.toNat ∧ ch.toNat ≤ 57) ∨ ch.toNat = 95 ∨ ch.toNat = 46 ∨
       ch.toNat = 45 ∨ ch.toNat = 126) := by
  simp only [qchar, alwaysSafeByte, Bool.or_eq_true, Bool.and_eq_true,
    decide_eq_true_eq, beq_iff_eq] at h
  rcases h with (h | h) | h
  · tauto
  · exact Or.inl (by rw [h]; rfl)
  · exact Or.inr (Or.inl (by rw [h]; rfl))

theorem qchar_bounds {ch : Char} (h : qchar ch = true) :
    32 < ch.toNat ∧ ch.toNat ≠ 61 ∧ ch.toNat ≠ 38 ∧ ch.toNat ≠ 35 ∧
      ch.toNat ≠ 63 ∧ ch.toNat ≠ 58 ∧ ch.toNat ≠ 59 ∧ ch.toNat ≠ 47 ∧
      ch.toNat ≠ 91 ∧ ch.toNat ≠ 93 := by
  rcases qchar_toNat h with h | h | h <;> omega

/-- Everything a `quote_plus`-emitted character is not: none of the URL
delimiters, no control character. -/
theorem qchar_props {ch : Char} (h : qchar ch = true) :
    ch ≠ '=' ∧ ch ≠ '&' ∧ ch ≠ '#' ∧ ch ≠ '?' ∧ ch ≠ ':' ∧ ch ≠ ';' ∧
      ch ≠ '/' ∧ ch ≠ '[' ∧ ch ≠ ']' ∧ unsafeURLChar ch = false ∧
      c0OrSpace ch = false ∧ netDelim ch = false := by
  obtain ⟨h0, h1, h2, h3, h4, h5, h6, h7, h8, h9⟩ := qchar_bounds h
  refine ⟨char_ne_of_toNat (by rw [show ('=' : Char).toNat = 61 from rfl]; omega),
    char_ne_of_toNat (by rw [show ('&' : Char).toNat = 38 from rfl]; omega),
    char_ne_of_toNat (by rw [show ('#' : Char).toNat = 35 from rfl]; omega),
    char_ne_of_toNat (by rw [show ('?' : Char).toNat = 63 from rfl]; omega),
    char_ne_of_toNat (by rw [show (':' : Char).toNat = 58 from rfl]; omega),
    char_ne_of_toNat (by rw [show (';' : Char).toNat = 59 from rfl]; omega),
    char_ne_of_toNat (by rw [show ('/' : Char).toNat = 47 from rfl]; omega),
    char_ne_of_toNat (by rw [show ('[' : Char).toNat = 91 from rfl]; omega),
    char_ne_of_toNat (by rw [show (']' : Char).toNat = 93 from rfl]; omega),
    ?_, ?_, ?_⟩
  · simp only [unsafeURLChar, Bool.or_eq_false_iff, decide_eq_false_iff_not]
    exact ⟨⟨char_ne_of_toNat (by rw [show ('\t' : Char).toNat = 9 from rfl]; omega),
      char_ne_of_toNat (by rw [show ('\r' : Char).toNat = 13 from rfl]; omega)⟩,
      char_ne_of_toNat (by rw [show ('\n' : Char).toNat = 10 from rfl]; omega)⟩
  · simp only [c0OrSpace, decide_eq_false_iff_not]
    omega
  · simp only [netDelim, Bool.or_eq_false_iff, decide_eq_false_iff_not]
    exact ⟨⟨char_ne_of_toNat (by rw [show ('/' : Char).toNat = 47 from rfl]; omega),
      char_ne_of_toNat (by rw [show ('?' : Char).toNat = 63 from rfl]; omega)⟩,
      char_ne_of_toNat (by rw [show ('#' : Char).toNat = 35 from rfl]; omega)⟩

/-! ### UTF-8 round trip -/

theorem udtF_nil (f : ℕ) : udtF f [] = [] := by
  cases f <;> rfl

theorem udtF_chr (f : ℕ) (c : Char) (rest : List UTok) :
    udtF (f + 1) (.chr c :: rest) = c :: udtF f rest := rfl

theorem udtF_byte (f b : ℕ) (rest : List UTok) :
    udtF (f + 1) (.byte b :: rest) =
      (if b < 0x80 then Char.ofNat b :: udtF f rest
       else if 0xC2 ≤ b && b < 0xE0 then
         match two? rest with
         | some (b1, rest1) => Char.ofNat ((b - 0xC0) * 64 + (b1 - 0x80)) :: udtF f rest1
         | none => '�' :: udtF f rest
       else if 0xE0 ≤ b && b < 0xF0 then
         match three? b rest with
         | some (b1, b2, rest2) =>
           Char.ofNat ((b - 0xE0) * 4096 + (b1 - 0x80) * 64 + (b2 - 0x80)) :: udtF f rest2
         | none => '�' :: udtF f rest
       else if 0xF0 ≤ b && b < 0xF5 then
         match four? b rest with
         | some (b1, b2, b3, rest3) =>
           Char.ofNat ((b - 0xF0) * 262144 + (b1 - 0x80) * 4096 +
               (b2 - 0x80) * 64 + (b3 - 0x80)) :: udtF f rest3
         | none => '�' :: udtF f rest
       else '�' :: udtF f rest) := rfl

theorem two?_len (rest : List UTok) (b1 : ℕ) (rest1 : List UTok)
    (h : two? rest = some (b1, rest1)) : rest1.length < rest.length := by
  cases rest with
  | nil => exact Option.noConfusion h
  | cons t r =>
    cases t with
    | chr c => exact Option.noConfusion h
    | byte b =>
      rw [show two? (.byte b :: r) = if contB b then some (b, r) else none from rfl] at h
      by_cases hc : contB b = true
      · rw [if_pos hc] at h
        simp only [Option.some.injEq, Prod.mk.injEq] at h
        obtain ⟨-, rfl⟩ := h
        simp
      · rw [if_neg hc] at h
        exact Option.noConfusion h

theorem three?_len (b : ℕ) (rest : List UTok) (b1 b2 : ℕ) (rest2 : List UTok)
    (h : three? b rest = some (b1, b2, rest2)) : rest2.length < rest.length := by
  match rest, h with
  | .byte x :: .byte y :: r, h =>
    rw [show three? b (.byte x :: .byte y :: r)
        = if contB x && contB y && (!(b == 0xE0) || 0xA0 ≤ x) && (!(b == 0xED) || x < 0xA0)
          then some (x, y, r) else none from rfl] at h
    by_cases hc : (contB x && contB y && (!(b == 0xE0) || decide (0xA0 ≤ x)) &&
        (!(b == 0xED) || decide (x < 0xA0))) = true
    · rw [if_pos hc] at h
      simp only [Option.some.injEq, Prod.mk.injEq] at h
      obtain ⟨-, -, rfl⟩ := h
      simp
      omega
    · rw [if_neg hc] at h
      exact Option.noConfusion h

theorem four?_len (b : ℕ) (rest : List UTok) (b1 b2 b3 : ℕ) (rest3 : List UTok)
    (h : four? b rest = some (b1, b2, b3, rest3)) : rest3.length < rest.length := by
  match rest, h with
  | .byte x :: .byte y :: .byte z :: r, h =>
    rw [show four? b (.byte x :: .byte y :: .byte z :: r)
        = if contB x && contB y && contB z && (!(b == 0xF0) || 0x90 ≤ x) &&
            (!(b == 0xF4) || x < 0x90)
          then some (x, y, z, r) else none from rfl] at h
    by_cases hc : (contB x && contB y && contB z && (!(b == 0xF0) || decide (0x90 ≤ x)) &&
        (!(b == 0xF4) || decide (x < 0x90))) = true
    · rw [if_pos hc] at h
      simp only [Option.some.injEq, Prod.mk.injEq] at h
      obtain ⟨-, -, -, rfl⟩ := h
      simp
      omega
    · rw [if_neg hc] at h
      exact Option.noConfusion h

/-- `udtF` does not depend on the fuel once the fuel covers the list length,
so `utf8DecodeTok` is well defined. -/
theorem udtF_irrel (f : ℕ) : ∀ (g : ℕ) (l : List UTok), l.length ≤ f → l.length ≤ g →
    udtF f l = udtF g l := by
  induction f with
  | zero =>
    intro g l h _
    obtain rfl : l = [] := List.length_eq_zero.mp (Nat.le_zero.mp h)
    rw [udtF_nil, udtF_nil]
  | succ f ih =>
    intro g l h hg
    cases l with
    | nil => rw [udtF_nil, udtF_nil]
    | cons t rest =>
      have hr : rest.length ≤ f := by
        simp only [List.length_cons] at h
        omega
      cases g with
      | zero => simp at hg
      | succ g =>
        have hrg : rest.length ≤ g := by
          simp only [List.length_cons] at hg
          omega
        cases t with
        | chr c => rw [udtF_chr, udtF_chr, ih g rest hr hrg]
        | byte b =>
          rw [udtF_byte, udtF_byte]
          by_cases hb : b < 0x80
          · rw [if_pos hb, if_pos hb, ih g rest hr hrg]
          · rw [if_neg hb, if_neg hb]
            by_cases h2 : (decide (0xC2 ≤ b) && decide (b < 0xE0)) = true
            · rw [if_pos h2, if_pos h2]
              rcases htwo : two? rest with _ | ⟨b1, rest1⟩
              · simp only [htwo]
                rw [ih g rest hr hrg]
              · simp only [htwo]
                have hl := two?_len rest b1 rest1 htwo
                rw [ih g rest1 (by omega) (by omega)]
            · rw [if_neg h2, if_neg h2]
              by_cases h3 : (decide (0xE0 ≤ b) && decide (b < 0xF0)) = true
              · rw [if_pos h3, if_pos h3]
                rcases hth : three? b rest with _ | ⟨b1, b2, rest2⟩
                · simp only [hth]
                  rw [ih g rest hr hrg]
                · simp only [hth]
                  have hl := three?_len b rest b1 b2 rest2 hth
                  rw [ih g rest2 (by omega) (by omega)]
              · rw [if_neg h3, if_neg h3]
                by_cases h4 : (decide (0xF0 ≤ b) && decide (b < 0xF5)) = true
                · rw [if_pos h4, if_pos h4]
                  rcases hfo : four? b rest with _ | ⟨b1, b2, b3, rest3⟩
                  · simp only [hfo]
                    rw [ih g rest hr hrg]
                  · simp only [hfo]
                    have hl := four?_len b rest b1 b2 b3 rest3 hfo
                    rw [ih g rest3 (by omega) (by omega)]
                · rw [if_neg h4, if_neg h4, ih g rest hr hrg]

theorem utf8DecodeTok_encodeChar (c : Char) (ts : List UTok) :
    utf8DecodeTok (List.map UTok.byte (utf8EncodeChar c) ++ ts) = c :: utf8DecodeTok ts := by
  have hval : c.toNat < 0xD800 ∨ (0xE000 ≤ c.toNat ∧ c.toNat < 0x110000) := by
    rcases c.valid with h | ⟨ha, hb⟩
    · exact Or.inl h
    · exact Or.inr ⟨ha, hb⟩
  have hofn : Char.ofNat c.toNat = c := Char.ofNat_toNat c
  by_cases h1 : c.toNat < 0x80
  · rw [show utf8EncodeChar c = [c.toNat] from by simp [utf8EncodeChar, h1]]
    simp only [utf8DecodeTok, List.map_cons, List.map_nil, List.cons_append,
      List.nil_append, List.length_cons]
    rw [udtF_byte, if_pos h1, hofn]
  · by_cases h2 : c.toNat < 0x800
    · rw [show utf8EncodeChar c = [0xC0 + c.toNat / 64, 0x80 + c.toNat % 64] from by
        simp [utf8EncodeChar, h1, h2]]
      simp only [utf8DecodeTok, List.map_cons, List.map_nil, List.cons_append,
        List.nil_append, List.length_cons]
      rw [udtF_byte, if_neg (by omega),
        if_pos (show (decide (0xC2 ≤ 0xC0 + c.toNat / 64) &&
            decide (0xC0 + c.toNat / 64 < 0xE0)) = true by
          simp only [Bool.and_eq_true, decide_eq_true_eq]
          omega),
        show two? (.byte (0x80 + c.toNat % 64) :: ts) = some (0x80 + c.toNat % 64, ts) from by
          rw [show two? (.byte (0x80 + c.toNat % 64) :: ts)
              = if contB (0x80 + c.toNat % 64) then some (0x80 + c.toNat % 64, ts) else none
              from rfl,
            if_pos (by simp only [contB, Bool.and_eq_true, decide_eq_true_eq]; omega)]]
      simp only []
      rw [udtF_irrel (ts.length + 1) ts.length ts (by omega) le_rfl,
        show (0xC0 + c.toNat / 64 - 0xC0) * 64 + (0x80 + c.toNat % 64 - 0x80) = c.toNat
          from by omega, hofn]
    · by_cases h3 : c.toNat < 0x10000
      · rw [show utf8EncodeChar c =
            [0xE0 + c.toNat / 4096, 0x80 + c.toNat / 64 % 64, 0x80 + c.toNat % 64] from by
          simp [utf8EncodeChar, h1, h2, h3]]
        simp only [utf8DecodeTok, List.map_cons, List.map_nil, List.cons_append,
          List.nil_append, List.length_cons]
        rw [udtF_byte, if_neg (by omega),
          if_neg (show ¬ (decide (0xC2 ≤ 0xE0 + c.toNat / 4096) &&
              decide (0xE0 + c.toNat / 4096 < 0xE0)) = true by
            simp only [Bool.and_eq_true, decide_eq_true_eq]
            omega),
          if_pos (show (decide (0xE0 ≤ 0xE0 + c.toNat / 4096) &&
              decide (0xE0 + c.toNat / 4096 < 0xF0)) = true by
            simp only [Bool.and_eq_true, decide_eq_true_eq]
            omega),
          show three? (0xE0 + c.toNat / 4096)
              (.byte (0x80 + c.toNat / 64 % 64) :: .byte (0x80 + c.toNat % 64) :: ts)
              = some (0x80 + c.toNat / 64 % 64, 0x80 + c.toNat % 64, ts) from by
            rw [show three? (0xE0 + c.toNat / 4096)
                (.byte (0x80 + c.toNat / 64 % 64) :: .byte (0x80 + c.toNat % 64) :: ts)
                = if contB (0x80 + c.toNat / 64 % 64) && contB (0x80 + c.toNat % 64) &&
                    (!(0xE0 + c.toNat / 4096 == 0xE0) || 0xA0 ≤ 0x80 + c.toNat / 64 % 64) &&
                    (!(0xE0 + c.toNat / 4096 == 0xED) || 0x80 + c.toNat / 64 % 64 < 0xA0)
                  then some (0x80 + c.toNat / 64 % 64, 0x80 + c.toNat % 64, ts) else none
                from rfl,
              if_pos (by
                simp only [contB, Bool.and_eq_true, Bool.or_eq_true, Bool.not_eq_true',
                  decide_eq_true_eq, beq_eq_false_iff_ne, ne_eq]
                omega)]]
        simp only []
        rw [udtF_irrel (ts.length + 1 + 1) ts.length ts (by omega) le_rfl,
          show (0xE0 + c.toNat / 4096 - 0xE0) * 4096 + (0x80 + c.toNat / 64 % 64 - 0x80) * 64 +
            (0x80 + c.toNat % 64 - 0x80) = c.toNat from by omega, hofn]
      · rw [show utf8EncodeChar c =
            [0xF0 + c.toNat / 262144, 0x80 + c.toNat / 4096 % 64,
             0x80 + c.toNat / 64 % 64, 0x80 + c.toNat % 64] from by
          simp [utf8EncodeChar, h1, h2, h3]]
        simp only [utf8DecodeTok, List.map_cons, List.map_nil, List.cons_append,
          List.nil_append, List.length_cons]
        rw [udtF_byte, if_neg (by omega),
          if_neg (show ¬ (decide (0xC2 ≤ 0xF0 + c.toNat / 262144) &&
              decide (0xF0 + c.toNat / 262144 < 0xE0)) = true by
            simp only [Bool.and_eq_true, decide_eq_true_eq]
            omega),
          if_neg (show ¬ (decide (0xE0 ≤ 0xF0 + c.toNat / 262144) &&
              decide (0xF0 + c.toNat / 262144 < 0xF0)) = true by
            simp only [Bool.and_eq_true, decide_eq_true_eq]
            omega),
          if_pos (show (decide (0xF0 ≤ 0xF0 + c.toNat / 262144) &&
              decide (0xF0 + c.toNat / 262144 < 0xF5)) = true by
            simp only [Bool.and_eq_true, decide_eq_true_eq]
            omega),
          show four? (0xF0 + c.toNat / 262144)
              (.byte (0x80 + c.toNat / 4096 % 64) :: .byte (0x80 + c.toNat / 64 % 64) ::
                .byte (0x80 + c.toNat % 64) :: ts)
              = some (0x80 + c.toNat / 4096 % 64, 0x80 + c.toNat / 64 % 64,
                  0x80 + c.toNat % 64, ts) from by
            rw [show four? (0xF0 + c.toNat / 262144)
                (.byte (0x80 + c.toNat / 4096 % 64) :: .byte (0x80 + c.toNat / 64 % 64) ::
                  .byte (0x80 + c.toNat % 64) :: ts)
                = if contB (0x80 + c.toNat / 4096 % 64) && contB (0x80 + c.toNat / 64 % 64) &&
                    contB (0x80 + c.toNat % 64) &&
                    (!(0xF0 + c.toNat / 262144 == 0xF0) || 0x90 ≤ 0x80 + c.toNat / 4096 % 64) &&
                    (!(0xF0 + c.toNat / 262144 == 0xF4) || 0x80 + c.toNat / 4096 % 64 < 0x90)
                  then some (0x80 + c.toNat / 4096 % 64, 0x80 + c.toNat / 64 % 64,
                      0x80 + c.toNat % 64, ts) else none
                from rfl,
              if_pos (by
                simp only [contB, Bool.and_eq_true, Bool.or_eq_true, Bool.not_eq_true',
                  decide_eq_true_eq, beq_eq_false_iff_ne, ne_eq]
                omega)]]
        simp only []
        rw [udtF_irrel (ts.length + 1 + 1 + 1) ts.length ts (by omega) le_rfl,
          show (0xF0 + c.toNat / 262144 - 0xF0) * 262144 +
            (0x80 + c.toNat / 4096 % 64 - 0x80) * 4096 +
            (0x80 + c.toNat / 64 % 64 - 0x80) * 64 + (0x80 + c.toNat % 64 - 0x80) = c.toNat
            from by omega, hofn]

theorem utf8_round (l : List Char) :
    utf8DecodeTok (List.map UTok.byte (utf8Encode l)) = l := by
  induction l with
  | nil => rfl
  | cons c cs ih =>
    rw [show utf8Encode (c :: cs) = utf8EncodeChar c ++ utf8Encode cs from by
      simp [utf8Encode], List.map_append, utf8DecodeTok_encodeChar, ih]

/-! ### Percent layer: `unquote_plus` inverts `quote_plus` -/

theorem pctTokens_not_pct (c : Char) (rest : List Char) (hc : ¬ c = '%') :
    pctTokens (c :: rest)
      = (if c.toNat < 0x80 then UTok.byte c.toNat else .chr c) :: pctTokens rest := by
  rw [pctTokens.eq_def]
  split
  · rename_i a b r heq
    injection heq with h1 _
    exact absurd h1 hc
  · rename_i c2 r heq
    injection heq with h1 h2
    subst h1
    subst h2
    rfl
  · rename_i heq
    exact List.noConfusion heq

theorem pctTokens_pct (a b : Char) (x y : ℕ) (rest : List Char)
    (ha : hexVal? a = some x) (hb : hexVal? b = some y) :
    pctTokens ('%' :: a :: b :: rest) = .byte (16 * x + y) :: pctTokens rest := by
  rw [pctTokens.eq_def]
  simp only []
  rw [ha, hb]

theorem hexVal?_hexUpper (x : ℕ) (h : x < 16) : hexVal? (hexUpper x) = some x := by
  interval_cases x <;> rfl

theorem hexUpper_ne_plus (x : ℕ) (h : x < 16) : ¬ hexUpper x = '+' := by
  interval_cases x <;> decide

theorem hexUpper_ne_pct (x : ℕ) (h : x < 16) : ¬ hexUpper x = '%' := by
  interval_cases x <;> decide

theorem alwaysSafe_range {b : ℕ} (hs : alwaysSafeByte b = true) :
    (65 ≤ b ∧ b ≤ 90) ∨ (97 ≤ b ∧ b ≤ 122) ∨ (48 ≤ b ∧ b ≤ 57) ∨
      b = 95 ∨ b = 46 ∨ b = 45 ∨ b = 126 := by
  simp only [alwaysSafeByte, Bool.or_eq_true, Bool.and_eq_true, decide_eq_true_eq] at hs
  tauto

/-- One quoted byte decodes back to itself, in front of any continuation. -/
theorem pctTokens_quoteByte (b : ℕ) (hb : b < 256) (rest : List Char) :
    pctTokens (((quoteByte b).map fun c => if c = '+' then ' ' else c) ++ rest)
      = UTok.byte b :: pctTokens rest := by
  by_cases hs : alwaysSafeByte b = true
  · have hrange := alwaysSafe_range hs
    have hba : b < 128 := by omega
    have ht : (Char.ofNat b).toNat = b := Char_toNat_ofNat (by omega)
    rw [show quoteByte b = [Char.ofNat b] from by simp [quoteByte, hs]]
    simp only [List.map_cons, List.map_nil, List.cons_append, List.nil_append,
      if_neg (show ¬ Char.ofNat b = '+' from char_ne_of_toNat (by
        rw [ht, show ('+' : Char).toNat = 43 from rfl]
        omega))]
    rw [pctTokens_not_pct _ _ (char_ne_of_toNat (by
        rw [ht, show ('%' : Char).toNat = 37 from rfl]
        omega)),
      ht, if_pos hba]
  · by_cases hsp : b = 32
    · subst hsp
      rw [show quoteByte 32 = ['+'] from rfl]
      simp only [List.map_cons, List.map_nil, List.cons_append, List.nil_append,
        if_pos rfl, if_true]
      rw [pctTokens_not_pct ' ' rest (by decide),
        show (' ' : Char).toNat = 32 from rfl, if_pos (by omega)]
    · rw [show quoteByte b = ['%', hexUpper (b / 16), hexUpper (b % 16)] from by
        simp [quoteByte, hs, hsp]]
      simp only [List.map_cons, List.map_nil, List.cons_append, List.nil_append,
        if_neg (show ¬ ('%' : Char) = '+' by decide),
        if_neg (hexUpper_ne_plus (b / 16) (by omega)),
        if_neg (hexUpper_ne_plus (b % 16) (by omega))]
      rw [pctTokens_pct _ _ _ _ _ (hexVal?_hexUpper (b / 16) (by omega))
          (hexVal?_hexUpper (b % 16) (by omega)),
        show 16 * (b / 16) + b % 16 = b from by omega]

theorem pctTokens_quote (bs : List ℕ) (h : ∀ b ∈ bs, b < 256) (rest : List Char) :
    pctTokens ((((bs.map quoteByte).flatten).map fun c => if c = '+' then ' ' else c) ++ rest)
      = bs.map UTok.byte ++ pctTokens rest := by
  induction bs with
  | nil => simp
  | cons b bs ih =>
    simp only [List.map_cons, List.flatten_cons, List.map_append, List.append_assoc]
    rw [pctTokens_quoteByte b (h b (by simp)) _,
      ih (fun x hx => h x (by simp [hx]))]
    rfl

/-- The round trip at the heart of `set_query_param`: percent-decoding a
percent-encoded string recovers the original characters. -/
theorem unquote_plus_quote_plus (s : String) :
    unquote_plus (quote_plus s) = s.data := by
  have h := pctTokens_quote (utf8Encode s.data) (utf8Encode_lt s.data) []
  rw [List.append_nil] at h
  unfold unquote_plus quote_plus
  rw [h, show pctTokens [] = [] from rfl, List.append_nil, utf8_round]

/-! ### `parse_qsl` inverts `urlencode(..., doseq=True)` -/

theorem splitOnChar_no_sep (sep : Char) :
    ∀ (p : List Char), sep ∉ p → splitOnChar sep p = [p] := by
  intro p
  induction p with
  | nil => intro _; rfl
  | cons c rest ih =>
    intro h
    simp only [List.mem_cons, not_or] at h
    rw [splitOnChar, if_neg (fun hh => h.1 hh.symm), ih h.2]

theorem splitOnChar_append (sep : Char) :
    ∀ (p r : List Char), sep ∉ p →
      splitOnChar sep (p ++ sep :: r) = p :: splitOnChar sep r := by
  intro p
  induction p with
  | nil =>
    intro r _
    rw [List.nil_append, splitOnChar, if_pos rfl]
  | cons c rest ih =>
    intro r h
    simp only [List.mem_cons, not_or] at h
    rw [List.cons_append, splitOnChar, if_neg (fun hh => h.1 hh.symm), ih r h.2]

theorem joinAmp_parse :
    ∀ (chunks : List (List Char)), (∀ p ∈ chunks, '&' ∉ p) → chunks ≠ [] →
      splitOnChar '&' (joinAmp chunks) = chunks := by
  intro chunks
  induction chunks with
  | nil => intro _ hne; exact absurd rfl hne
  | cons p ps ih =>
    intro h _
    cases ps with
    | nil => exact splitOnChar_no_sep '&' p (h p (by simp))
    | cons q qs =>
      rw [show joinAmp (p :: q :: qs) = p ++ '&' :: joinAmp (q :: qs) from rfl,
        splitOnChar_append '&' p _ (h p (by simp)),
        ih (fun x hx => h x (by simp [hx])) (by simp)]

theorem utf8EncodeChar_ne_nil (c : Char) : utf8EncodeChar c ≠ [] := by
  simp only [utf8EncodeChar]
  split
  · simp
  · split
    · simp
    · split <;> simp

theorem quoteByte_ne_nil (b : ℕ) : quoteByte b ≠ [] := by
  simp only [quoteByte]
  split
  · simp
  · split <;> simp

theorem quote_plus_ne_nil (v : String) (hv : v ≠ "") : quote_plus v ≠ [] := by
  obtain ⟨c, rest, hd⟩ : ∃ c rest, v.data = c :: rest := by
    cases v with
    | mk data =>
      cases data with
      | nil => exact absurd rfl hv
      | cons c rest => exact ⟨c, rest, rfl⟩
  unfold quote_plus
  rw [hd, show utf8Encode (c :: rest) = utf8EncodeChar c ++ utf8Encode rest from by
    simp [utf8Encode]]
  rcases hh : utf8EncodeChar c with _ | ⟨b, bs⟩
  · exact absurd hh (utf8EncodeChar_ne_nil c)
  · simp only [List.cons_append, List.map_cons, List.flatten_cons, ne_eq,
      List.append_eq_nil]
    intro habs
    exact quoteByte_ne_nil b habs.1

theorem filterMap_of_forall_some {α β : Type} (f : α → Option β) (g : α → β) :
    ∀ (l : List α), (∀ x ∈ l, f x = some (g x)) → l.filterMap f = l.map g := by
  intro l
  induction l with
  | nil => intro _; rfl
  | cons x xs ih =>
    intro h
    rw [List.filterMap_cons, h x (by simp), List.map_cons, ih (fun y hy => h y (by simp [hy]))]

theorem mem_quote_plus_ne {ch : Char} {s : String} (h : ch ∈ quote_plus s) :
    ch ≠ '=' ∧ ch ≠ '&' := by
  have hq := quote_plus_qchar s ch h
  exact ⟨(qchar_props hq).1, (qchar_props hq).2.1⟩

/-- Decoding one `quote_plus(k)=quote_plus(v)` chunk of `urlencode` output
recovers the pair, as long as the value is nonempty. -/
theorem chunk_decode (k v : String) (hv : v ≠ "") :
    (fun (piece : List Char) =>
      if piece.isEmpty then none
      else
        match splitFirst '=' piece with
        | none => none
        | some (n, w) =>
          if w.isEmpty then none
          else some ((⟨unquote_plus n⟩ : String), (⟨unquote_plus w⟩ : String)))
      (quote_plus k ++ '=' :: quote_plus v) = some (k, v) := by
  have hne : '=' ∉ quote_plus k := fun hmem => (mem_quote_plus_ne hmem).1 rfl
  have hsp := splitFirst_append '=' (quote_plus k) (quote_plus v) hne
  simp only
  rw [if_neg (by
      simp only [List.isEmpty_iff, List.append_eq_nil]
      intro habs
      exact List.noConfusion habs.2),
    hsp]
  simp only
  rw [if_neg (by
      simp only [List.isEmpty_iff]
      exact quote_plus_ne_nil v hv)]
  rw [show unquote_plus (quote_plus k) = k.data from unquote_plus_quote_plus k,
    show unquote_plus (quote_plus v) = v.data from unquote_plus_quote_plus v]

/-- `parse_qsl (urlencode d)` recovers exactly the flattened pairs of `d`
when every value string is nonempty. -/
theorem parse_qsl_enc (d : List (String × List String))
    (hv : ∀ kv ∈ d, ∀ v ∈ kv.2, v ≠ "") :
    parse_qsl (urlencodeD d)
      = (d.map fun kv => kv.2.map fun v => (kv.1, v)).flatten := by
  unfold parse_qsl urlencodeD
  by_cases hch :
      (d.map fun kv => kv.2.map fun v => quote_plus kv.1 ++ '=' :: quote_plus v).flatten
        = ([] : List (List Char))
  · rw [hch]
    have hall : ∀ kv ∈ d, kv.2 = [] := by
      intro kv hkv
      have := (List.flatten_eq_nil_iff.mp hch) (kv.2.map fun v =>
        quote_plus kv.1 ++ '=' :: quote_plus v) (by
          exact List.mem_map_of_mem _ hkv)
      simpa using this
    rw [show ((d.map fun kv => kv.2.map fun v => (kv.1, v)).flatten
        : List (String × String)) = [] from List.flatten_eq_nil_iff.mpr (by
      intro x hx
      obtain ⟨kv, hkv, rfl⟩ := List.mem_map.mp hx
      rw [hall kv hkv]
      rfl)]
    rfl
  · rw [joinAmp_parse _ (by
      intro p hp
      obtain ⟨l, hl, hpl⟩ := List.mem_flatten.mp hp
      obtain ⟨kv, _, rfl⟩ := List.mem_map.mp hl
      obtain ⟨v, _, rfl⟩ := List.mem_map.mp hpl
      intro hmem
      rcases List.mem_append.mp hmem with hmem | hmem
      · exact (mem_quote_plus_ne hmem).2 rfl
      · rcases List.mem_cons.mp hmem with hmem | hmem
        · exact absurd hmem.symm (by decide)
        · exact (mem_quote_plus_ne hmem).2 rfl) hch]
    rw [List.filterMap_flatten, List.map_map]
    congr 1
    apply List.map_congr_left
    intro kv hkv
    simp only [Function.comp_apply, List.filterMap_map]
    exact filterMap_of_forall_some _ _ kv.2
      (fun v hvm => chunk_decode kv.1 v (hv kv hkv v hvm))

/-! ### Character facts for the scheme of a URL -/

theorem char_eq_of_toNat {a b : Char} (h : a.toNat = b.toNat) : a = b :=
  Char.eq_of_val_eq (UInt32.ext h)

theorem isUpper_iff (c : Char) : c.isUpper = true ↔ 65 ≤ c.toNat ∧ c.toNat ≤ 90 := by
  simp only [Char.isUpper, Bool.and_eq_true, decide_eq_true_eq]
  exact Iff.rfl

theorem isLower_iff (c : Char) : c.isLower = true ↔ 97 ≤ c.toNat ∧ c.toNat ≤ 122 := by
  simp only [Char.isLower, Bool.and_eq_true, decide_eq_true_eq]
  exact Iff.rfl

theorem isDigit_iff (c : Char) : c.isDigit = true ↔ 48 ≤ c.toNat ∧ c.toNat ≤ 57 := by
  simp only [Char.isDigit, Bool.and_eq_true, decide_eq_true_eq]
  exact Iff.rfl

theorem isAlpha_iff (c : Char) : c.isAlpha = true ↔
    (65 ≤ c.toNat ∧ c.toNat ≤ 90) ∨ (97 ≤ c.toNat ∧ c.toNat ≤ 122) := by
  simp only [Char.isAlpha, Bool.or_eq_true, isUpper_iff, isLower_iff]

theorem toLower_toNat (c : Char) : (Char.toLower c).toNat =
    if 65 ≤ c.toNat ∧ c.toNat ≤ 90 then c.toNat + 32 else c.toNat := by
  simp only [Char.toLower]
  split
  · rename_i h
    exact Char_toNat_ofNat (by omega)
  · rfl

theorem toLower_eq_self {c : Char} (h : ¬(65 ≤ c.toNat ∧ c.toNat ≤ 90)) :
    Char.toLower c = c := by
  simp only [Char.toLower]
  rw [if_neg (fun hh => h ⟨hh.1, hh.2⟩)]

theorem toLower_idem (c : Char) : Char.toLower (Char.toLower c) = Char.toLower c := by
  by_cases h : 65 ≤ c.toNat ∧ c.toNat ≤ 90
  · apply toLower_eq_self
    rw [toLower_toNat, if_pos h]
    omega
  · rw [toLower_eq_self h]
    exact toLower_eq_self h

theorem isAlpha_toLower (c : Char) : (Char.toLower c).isAlpha = c.isAlpha := by
  by_cases h : 65 ≤ c.toNat ∧ c.toNat ≤ 90
  · have h1 : (Char.toLower c).isAlpha = true := by
      rw [isAlpha_iff, toLower_toNat, if_pos h]
      omega
    have h2 : c.isAlpha = true := by
      rw [isAlpha_iff]
      omega
    rw [h1, h2]
  · rw [toLower_eq_self h]

theorem isSchemeChar_toNat {c : Char} (h : isSchemeChar c = true) :
    (65 ≤ c.toNat ∧ c.toNat ≤ 90) ∨ (97 ≤ c.toNat ∧ c.toNat ≤ 122) ∨
      (48 ≤ c.toNat ∧ c.toNat ≤ 57) ∨ c.toNat = 43 ∨ c.toNat = 45 ∨ c.toNat = 46 := by
  simp only [isSchemeChar, Bool.or_eq_true, isAlpha_iff, isDigit_iff, beq_iff_eq,
    decide_eq_true_eq] at h
  rcases h with ((((h | h) | h) | h) | h) | h
  · exact Or.inl h
  · exact Or.inr (Or.inl h)
  · exact Or.inr (Or.inr (Or.inl h))
  · exact Or.inr (Or.inr (Or.inr (Or.inl (by rw [h]; rfl))))
  · exact Or.inr (Or.inr (Or.inr (Or.inr (Or.inl (by rw [h]; rfl)))))
  · exact Or.inr (Or.inr (Or.inr (Or.inr (Or.inr (by rw [h]; rfl)))))

theorem isSchemeChar_toLower {c : Char} (h : isSchemeChar c = true) :
    isSchemeChar (Char.toLower c) = true := by
  by_cases hu : 65 ≤ c.toNat ∧ c.toNat ≤ 90
  · simp only [isSchemeChar, Bool.or_eq_true, isAlpha_iff, toLower_toNat, if_pos hu]
    left
    left
    omega
  · rw [toLower_eq_self hu]
    exact h

/-- A scheme character is none of the URL delimiters and no control
character. -/
theorem schemeChar_props {c : Char} (h : isSchemeChar c = true) :
    c ≠ ':' ∧ c ≠ '/' ∧ c ≠ '?' ∧ c ≠ '#' ∧ unsafeURLChar c = false ∧
      c0OrSpace c = false := by
  have hb := isSchemeChar_toNat h
  refine ⟨char_ne_of_toNat (by rw [show (':' : Char).toNat = 58 from rfl]; omega),
    char_ne_of_toNat (by rw [show ('/' : Char).toNat = 47 from rfl]; omega),
    char_ne_of_toNat (by rw [show ('?' : Char).toNat = 63 from rfl]; omega),
    char_ne_of_toNat (by rw [show ('#' : Char).toNat = 35 from rfl]; omega), ?_, ?_⟩
  · simp only [unsafeURLChar, Bool.or_eq_false_iff, decide_eq_false_iff_not]
    exact ⟨⟨char_ne_of_toNat (by rw [show ('\t' : Char).toNat = 9 from rfl]; omega),
      char_ne_of_toNat (by rw [show ('\r' : Char).toNat = 13 from rfl]; omega)⟩,
      char_ne_of_toNat (by rw [show ('\n' : Char).toNat = 10 from rfl]; omega)⟩
  · simp only [c0OrSpace, decide_eq_false_iff_not]
    omega

/-! ### Rebuilding lemmas: parsing an unparsed URL -/

theorem splitFirst_append_gen (c : Char) :
    ∀ (a b : List Char), c ∉ a →
      splitFirst c (a ++ b) = (splitFirst c b).map fun p => (a ++ p.1, p.2) := by
  intro a
  induction a with
  | nil =>
    intro b _
    rw [List.nil_append]
    cases h : splitFirst c b with
    | none => rfl
    | some p => simp
  | cons x xs ih =>
    intro b h
    simp only [List.mem_cons, not_or] at h
    rw [List.cons_append, splitFirst, if_neg (fun hh => h.1 hh.symm), ih b h.2]
    cases h2 : splitFirst c b with
    | none => rfl
    | some p => simp

theorem removeUnsafe_id (l : List Char) (h : ∀ ch ∈ l, unsafeURLChar ch = false) :
    removeUnsafe l = l := by
  unfold removeUnsafe
  apply List.filter_eq_self.mpr
  intro ch hch
  rw [h ch hch]
  rfl

theorem dropWhile_head_false (p : Char → Bool) (l : List Char)
    (h : ∀ x, l.head? = some x → p x = false) : l.dropWhile p = l := by
  cases l with
  | nil => rfl
  | cons x xs =>
    rw [List.dropWhile_cons, h x rfl]
    simp

theorem splitScheme_build (s rest : List Char) (hs : s ≠ [])
    (hall : s.all isSchemeChar = true) (halpha : (s.headD ' ').isAlpha = true)
    (hlow : s.map Char.toLower = s) :
    splitScheme (s ++ ':' :: rest) = (s, rest) := by
  have hns : ':' ∉ s := by
    intro hmem
    exact (schemeChar_props (List.all_eq_true.mp hall ':' hmem)).1 rfl
  have hhd : ((s ++ ':' :: rest).headD ' ') = s.headD ' ' := by
    cases s with
    | nil => exact absurd rfl hs
    | cons a t => rfl
  unfold splitScheme
  rw [splitFirst_append ':' s rest hns]
  simp only []
  rw [if_pos (show (!s.isEmpty && s.all isSchemeChar &&
      ((s ++ ':' :: rest).headD ' ').isAlpha) = true from by
    rw [hhd, hall, halpha, show s.isEmpty = false from by
      cases s with
      | nil => exact absurd rfl hs
      | cons a t => rfl]
    rfl), hlow]

theorem splitNetloc_build (n rest : List Char) (hn : ∀ ch ∈ n, netDelim ch = false)
    (hrest : ∀ x, rest.head? = some x → netDelim x = true) :
    splitNetloc (n ++ rest) = (n, rest) := by
  unfold splitNetloc
  obtain ⟨h1, h2⟩ := takeWhile_exact (fun c => !netDelim c) n rest
    (fun x hx => by simp [hn x hx])
    (fun x hx => by simp [hrest x hx])
  rw [h1, h2]

theorem splitLastSlash_cons_slash (t : List Char) :
    splitLastSlash ('/' :: t) =
      if t.contains '/' then ('/' :: (splitLastSlash t).1, (splitLastSlash t).2)
      else (['/'], t) := by
  rw [splitLastSlash]
  by_cases h : t.contains '/' = true
  · rw [if_pos h, if_pos h]
  · rw [if_neg h, if_neg h, if_pos rfl]

theorem splitParams_cons_slash (t : List Char) :
    splitParams ('/' :: t) = ('/' :: (splitParams t).1, (splitParams t).2) := by
  unfold splitParams
  by_cases h : t.contains '/' = true
  · rw [splitLastSlash_cons_slash, if_pos h]
    rcases hsl : splitLastSlash t with ⟨pre, seg⟩
    simp only []
    cases hsp : splitFirst ';' seg with
    | none => simp
    | some p => simp
  · rw [splitLastSlash_cons_slash, if_neg h,
      splitLastSlash_not_mem t (fun hm => h (contains_true hm))]
    simp only []
    cases hsp : splitFirst ';' t with
    | none => simp
    | some p => simp

/-- Stage-by-stage computation of `urlparseM`. -/
theorem urlparseM_stages (u r1 r2 r3 r4 : List Char) (c' : UrlComps)
    (h0 : u.dropWhile c0OrSpace = u)
    (h1 : removeUnsafe u = u)
    (h2 : splitScheme u = (c'.scheme, r1))
    (h3 : (if r1.take 2 = ['/', '/'] then splitNetloc (r1.drop 2) else ([], r1))
        = (c'.netloc, r2))
    (h4 : c'.netloc.contains '[' = false) (h5 : c'.netloc.contains ']' = false)
    (h6 : split1 '#' r2 = (r3, c'.fragment))
    (h7 : split1 '?' r3 = (r4, c'.query))
    (h8 : splitParams r4 = (c'.path, c'.params)) :
    urlparseM u = some c' := by
  unfold urlparseM
  rw [h0, h1]
  simp only []
  rw [h2]
  simp only []
  rw [h3]
  simp only []
  rw [if_neg (by rw [h4, h5]; simp), h6]
  simp only []
  rw [h7]
  simp only []
  rw [h8]

/-- `urlparseM_stages` when the post-scheme text starts with `//`. -/
theorem urlparseM_stages2 (u netrest r2 r3 r4 : List Char) (c' : UrlComps)
    (h0 : u.dropWhile c0OrSpace = u)
    (h1 : removeUnsafe u = u)
    (h2 : splitScheme u = (c'.scheme, '/' :: '/' :: netrest))
    (h3 : splitNetloc netrest = (c'.netloc, r2))
    (h4 : c'.netloc.contains '[' = false) (h5 : c'.netloc.contains ']' = false)
    (h6 : split1 '#' r2 = (r3, c'.fragment))
    (h7 : split1 '?' r3 = (r4, c'.query))
    (h8 : splitParams r4 = (c'.path, c'.params)) :
    urlparseM u = some c' :=
  urlparseM_stages u ('/' :: '/' :: netrest) r2 r3 r4 c' h0 h1 h2
    (by
      rw [show List.take 2 ('/' :: '/' :: netrest) = ['/', '/'] from rfl, if_pos rfl,
        show List.drop 2 ('/' :: '/' :: netrest) = netrest from rfl]
      exact h3) h4 h5 h6 h7 h8

/-- `urlparseM_stages` when the post-scheme text has no netloc marker. -/
theorem urlparseM_stages1 (u r2 r3 r4 : List Char) (c' : UrlComps)
    (h0 : u.dropWhile c0OrSpace = u)
    (h1 : removeUnsafe u = u)
    (h2 : splitScheme u = (c'.scheme, r2))
    (htk : r2.take 2 ≠ ['/', '/'])
    (hnl : c'.netloc = [])
    (h6 : split1 '#' r2 = (r3, c'.fragment))
    (h7 : split1 '?' r3 = (r4, c'.query))
    (h8 : splitParams r4 = (c'.path, c'.params)) :
    urlparseM u = some c' :=
  urlparseM_stages u r2 r2 r3 r4 c' h0 h1 h2
    (by rw [if_neg htk, hnl]) (by rw [hnl]; rfl) (by rw [hnl]; rfl) h6 h7 h8

theorem splitScheme_nonalpha (u : List Char) (h : ((u.headD ' ').isAlpha) = false) :
    splitScheme u = ([], u) := by
  unfold splitScheme
  cases hsp : splitFirst ':' u with
  | none => rfl
  | some p =>
    rcases p with ⟨pre, rest⟩
    simp only []
    rw [if_neg (by rw [h]; simp)]

theorem splitScheme_invalid (u pre rest : List Char)
    (hsp : splitFirst ':' u = some (pre, rest))
    (hbad : (!pre.isEmpty && pre.all isSchemeChar && ((u.headD ' ').isAlpha)) = false) :
    splitScheme u = ([], u) := by
  unfold splitScheme
  rw [hsp]
  simp only []
  rw [if_neg (by rw [hbad]; simp)]

theorem queryChar_props {ch : Char} (h : qchar ch = true ∨ ch = '=' ∨ ch = '&') :
    unsafeURLChar ch = false ∧ ch ≠ '#' ∧ ch ≠ '?' ∧ ch ≠ ':' ∧ ch ≠ '/' ∧
      c0OrSpace ch = false := by
  rcases h with h | h | h
  · obtain ⟨_, _, h3, h4, h5, _, h7, _, _, h10, h11, _⟩ := qchar_props h
    exact ⟨h10, h3, h4, h5, h7, h11⟩
  · subst h
    exact ⟨by decide, by decide, by decide, by decide, by decide, by decide⟩
  · subst h
    exact ⟨by decide, by decide, by decide, by decide, by decide, by decide⟩

theorem pathParams_nil_iff (c : UrlComps) :
    pathParams c = [] ↔ c.path = [] ∧ c.params = [] := by
  unfold pathParams
  by_cases hp : c.params.isEmpty
  · rw [hp]
    simp only [Bool.not_true, Bool.false_eq_true, if_false]
    have : c.params = [] := List.isEmpty_iff.mp hp
    simp [this]
  · rw [show c.params.isEmpty = false from by
      cases h : c.params.isEmpty
      · rfl
      · exact absurd h hp]
    simp only [Bool.not_false, if_true]
    constructor
    · intro h
      exact absurd (List.append_eq_nil.mp h).2 (by simp)
    · intro h
      exact absurd (List.isEmpty_iff.mpr h.2) hp

theorem normP_eq_self (c : UrlComps)
    (h : ¬(c.netloc = [] ∧ c.scheme ≠ [] ∧ usesNetloc c.scheme = true ∧
      ¬(c.path = [] ∧ c.params = []) ∧ (pathParams c).headD ' ' ≠ '/')) : normP c = c := by
  unfold normP
  rw [if_neg h]

theorem frag_tail (A F : List Char) :
    (if !F.isEmpty then A ++ '#' :: F else A)
      = A ++ (if F.isEmpty then [] else '#' :: F) := by
  cases F <;> simp

/-- Reparse stability, netloc nonempty case. -/
theorem reparse_netloc (c : UrlComps) (g : GoodComps c)
    (hQne : c.query ≠ [])
    (hQc : ∀ ch ∈ c.query, qchar ch = true ∨ ch = '=' ∨ ch = '&')
    (hn : c.netloc ≠ []) :
    urlparseM (urlunparseM c) = some (normP c) := by
  have hQp := fun ch hch => queryChar_props (hQc ch hch)
  have htu : ∀ ch ∈ pathParams c, unsafeURLChar ch = false :=
    fun ch hch => g.no_unsafe ch (by simp [hch])
  have hnu : ∀ ch ∈ c.netloc, unsafeURLChar ch = false :=
    fun ch hch => g.no_unsafe ch (by simp [hch])
  have hfu : ∀ ch ∈ c.fragment, unsafeURLChar ch = false :=
    fun ch hch => g.no_unsafe ch (by simp [hch])
  have hq : c.query.isEmpty = false := by
    cases hq2 : c.query.isEmpty
    · rfl
    · exact absurd (List.isEmpty_iff.mp hq2) hQne
  have hnempty : c.netloc.isEmpty = false := by
    cases hc2 : c.netloc.isEmpty
    · rfl
    · exact absurd (List.isEmpty_iff.mp hc2) hn
  have hr2u : ∀ ch ∈ (pathParams c ++ '?' :: c.query) ++
      (if c.fragment.isEmpty then [] else '#' :: c.fragment), unsafeURLChar ch = false := by
    intro ch hch
    rcases List.mem_append.mp hch with hch | hch
    · rcases List.mem_append.mp hch with hch | hch
      · exact htu ch hch
      · rcases List.mem_cons.mp hch with rfl | hch
        · decide
        · exact (hQp ch hch).1
    · by_cases hF : c.fragment.isEmpty
      · rw [if_pos hF] at hch
        exact absurd hch (by simp)
      · rw [if_neg hF] at hch
        rcases List.mem_cons.mp hch with rfl | hch
        · decide
        · exact hfu ch hch
  have hhash : '#' ∉ pathParams c ++ '?' :: c.query := by
    intro hmem
    rcases List.mem_append.mp hmem with h | h
    · exact g.pp_no_hash h
    · rcases List.mem_cons.mp h with h | h
      · exact absurd h.symm (by decide)
      · exact (hQp '#' h).2.1 rfl
  have h6 : split1 '#' ((pathParams c ++ '?' :: c.query) ++
      (if c.fragment.isEmpty then [] else '#' :: c.fragment))
      = (pathParams c ++ '?' :: c.query, c.fragment) := by
    by_cases hF : c.fragment.isEmpty
    · rw [if_pos hF, List.append_nil, split1_not_mem '#' _ hhash,
        List.isEmpty_iff.mp hF]
    · rw [if_neg hF, split1_append '#' _ _ hhash]
  have h7 : split1 '?' (pathParams c ++ '?' :: c.query) = (pathParams c, c.query) :=
    split1_append '?' _ _ g.pp_no_q
  have hrra : ∀ x, ((pathParams c ++ '?' :: c.query) ++
        (if c.fragment.isEmpty then [] else '#' :: c.fragment)).head? = some x →
      netDelim x = true := by
    rcases g.netloc_slash hn with h | h
    · rw [h]
      intro x hx
      simp only [List.nil_append, List.cons_append, List.head?_cons,
        Option.some.injEq] at hx
      rw [← hx]
      decide
    · cases ht : pathParams c with
      | nil =>
        rw [ht] at h
        exact absurd h (by decide)
      | cons t0 ts =>
        rw [ht] at h
        intro x hx
        simp only [List.cons_append, List.head?_cons, Option.some.injEq] at hx
        rw [← hx, show t0 = '/' from h]
        decide
  have hsn : splitNetloc (c.netloc ++ ((pathParams c ++ '?' :: c.query) ++
      (if c.fragment.isEmpty then [] else '#' :: c.fragment))) = (c.netloc,
      (pathParams c ++ '?' :: c.query) ++
      (if c.fragment.isEmpty then [] else '#' :: c.fragment)) :=
    splitNetloc_build c.netloc _ g.netloc_nd hrra
  have hnorm : normP c = c := normP_eq_self c (fun hcond => hn hcond.1)
  rcases g.scheme_ok with hs | ⟨hs, hall, halpha, hlow⟩
  · have hU : urlunparseM c = '/' :: '/' :: (c.netloc ++ ((pathParams c ++ '?' :: c.query) ++
        (if c.fragment.isEmpty then [] else '#' :: c.fragment))) := by
      unfold urlunparseM
      rcases g.netloc_slash hn with h | h
      · by_cases hF : c.fragment = [] <;>
          simp [hnempty, hs, hq, hF, h, List.append_assoc]
      · have h2 : (pathParams c).head?.getD ' ' = '/' := by
          rw [← List.headD_eq_head?_getD]
          exact h
        by_cases hF : c.fragment = [] <;>
          simp [hnempty, hs, hq, hF, h2, List.append_assoc]
    rw [hU, urlparseM_stages2 _
      (c.netloc ++ ((pathParams c ++ '?' :: c.query) ++
        (if c.fragment.isEmpty then [] else '#' :: c.fragment)))
      ((pathParams c ++ '?' :: c.query) ++
        (if c.fragment.isEmpty then [] else '#' :: c.fragment))
      (pathParams c ++ '?' :: c.query) (pathParams c) c
      (dropWhile_head_false _ _ (by
        intro x hx
        simp only [List.head?_cons, Option.some.injEq] at hx
        rw [← hx]
        decide))
      (removeUnsafe_id _ (by
        intro ch hch
        rcases List.mem_cons.mp hch with rfl | hch
        · decide
        · rcases List.mem_cons.mp hch with rfl | hch
          · decide
          · rcases List.mem_append.mp hch with hch | hch
            · exact hnu ch hch
            · exact hr2u ch hch))
      (by rw [hs]; exact splitScheme_nonalpha _ rfl)
      hsn
      (contains_false g.netloc_nb.1) (contains_false g.netloc_nb.2)
      h6 h7 g.pp_resplit, hnorm]
  · have hsne : c.scheme.isEmpty = false := by
      cases hs2 : c.scheme.isEmpty
      · rfl
      · exact absurd (List.isEmpty_iff.mp hs2) hs
    have hU : urlunparseM c = c.scheme ++ ':' :: ('/' :: '/' :: (c.netloc ++
        ((pathParams c ++ '?' :: c.query) ++
        (if c.fragment.isEmpty then [] else '#' :: c.fragment)))) := by
      unfold urlunparseM
      rcases g.netloc_slash hn with h | h
      · by_cases hF : c.fragment = [] <;>
          simp [hnempty, hsne, hq, hF, h, List.append_assoc]
      · have h2 : (pathParams c).head?.getD ' ' = '/' := by
          rw [← List.headD_eq_head?_getD]
          exact h
        by_cases hF : c.fragment = [] <;>
          simp [hnempty, hsne, hq, hF, h2, List.append_assoc]
    rw [hU, urlparseM_stages2 _
      (c.netloc ++ ((pathParams c ++ '?' :: c.query) ++
        (if c.fragment.isEmpty then [] else '#' :: c.fragment)))
      ((pathParams c ++ '?' :: c.query) ++
        (if c.fragment.isEmpty then [] else '#' :: c.fragment))
      (pathParams c ++ '?' :: c.query) (pathParams c) c
      (dropWhile_head_false _ _ (by
        intro x hx
        cases hsch : c.scheme with
        | nil => exact absurd hsch hs
        | cons s0 ss =>
          rw [hsch] at hx
          simp only [List.cons_append, List.head?_cons, Option.some.injEq] at hx
          have hal : s0.isAlpha = true := by
            have h2 := halpha
            rw [hsch] at h2
            exact h2
          rw [← hx]
          rcases (isAlpha_iff s0).mp hal with h | h <;>
            · simp only [c0OrSpace, decide_eq_false_iff_not]
              omega))
      (removeUnsafe_id _ (by
        intro ch hch
        rcases List.mem_append.mp hch with hch | hch
        · exact (schemeChar_props (List.all_eq_true.mp hall ch hch)).2.2.2.2.1
        · rcases List.mem_cons.mp hch with rfl | hch
          · decide
          · rcases List.mem_cons.mp hch with rfl | hch
            · decide
            · rcases List.mem_cons.mp hch with rfl | hch
              · decide
              · rcases List.mem_append.mp hch with hch | hch
                · exact hnu ch hch
                · exact hr2u ch hch))
      (splitScheme_build c.scheme _ hs hall halpha hlow)
      hsn
      (contains_false g.netloc_nb.1) (contains_false g.netloc_nb.2)
      h6 h7 g.pp_resplit, hnorm]

theorem take2_ne_qm : ∀ (t R : List Char), t.take 2 ≠ ['/', '/'] →
    (t ++ '?' :: R).take 2 ≠ ['/', '/'] := by
  intro t R ht habs
  cases t with
  | nil =>
    rw [List.nil_append,
      show List.take 2 ('?' :: R) = '?' :: List.take 1 R from rfl] at habs
    injection habs with h1 _
    exact absurd h1 (by decide)
  | cons a t2 =>
    cases t2 with
    | nil =>
      rw [show ([a] ++ '?' :: R) = a :: '?' :: R from rfl,
        show List.take 2 (a :: '?' :: R) = [a, '?'] from rfl] at habs
      injection habs with _ h2
      injection h2 with h2 _
      exact absurd h2 (by decide)
    | cons b t3 =>
      rw [show ((a :: b :: t3) ++ '?' :: R) = a :: b :: (t3 ++ '?' :: R) from rfl,
        show List.take 2 (a :: b :: (t3 ++ '?' :: R)) = [a, b] from rfl] at habs
      exact ht (by rw [show List.take 2 (a :: b :: t3) = [a, b] from rfl]; exact habs)

theorem splitFirst_mem (c : Char) :
    ∀ (l : List Char), c ∈ l → (splitFirst c l).isSome = true := by
  intro l
  induction l with
  | nil => intro h; exact absurd h (by simp)
  | cons x xs ih =>
    intro h
    rw [splitFirst]
    by_cases hx : x = c
    · rw [if_pos hx]
      rfl
    · rw [if_neg hx]
      rcases List.mem_cons.mp h with h | h
      · exact absurd h.symm hx
      · cases hsp : splitFirst c xs with
        | none => rw [hsp] at ih; exact absurd (ih h) (by simp)
        | some p => rfl

/-- Reparse stability, netloc empty case. -/
theorem reparse_nonetloc (c : UrlComps) (g : GoodComps c)
    (hQne : c.query ≠ [])
    (hQc : ∀ ch ∈ c.query, qchar ch = true ∨ ch = '=' ∨ ch = '&')
    (hn0 : c.netloc = []) :
    urlparseM (urlunparseM c) = some (normP c) := by
  have hQp := fun ch hch => queryChar_props (hQc ch hch)
  have htu : ∀ ch ∈ pathParams c, unsafeURLChar ch = false :=
    fun ch hch => g.no_unsafe ch (by simp [hch])
  have hfu : ∀ ch ∈ c.fragment, unsafeURLChar ch = false :=
    fun ch hch => g.no_unsafe ch (by simp [hch])
  have hq : c.query.isEmpty = false := by
    cases hq2 : c.query.isEmpty
    · rfl
    · exact absurd (List.isEmpty_iff.mp hq2) hQne
  have ht2 : (pathParams c).take 2 ≠ ['/', '/'] := g.no_dslash hn0
  have hr2u : ∀ ch ∈ (pathParams c ++ '?' :: c.query) ++
      (if c.fragment.isEmpty then [] else '#' :: c.fragment), unsafeURLChar ch = false := by
    intro ch hch
    rcases List.mem_append.mp hch with hch | hch
    · rcases List.mem_append.mp hch with hch | hch
      · exact htu ch hch
      · rcases List.mem_cons.mp hch with rfl | hch
        · decide
        · exact (hQp ch hch).1
    · by_cases hF : c.fragment.isEmpty
      · rw [if_pos hF] at hch
        exact absurd hch (by simp)
      · rw [if_neg hF] at hch
        rcases List.mem_cons.mp hch with rfl | hch
        · decide
        · exact hfu ch hch
  have hhash : '#' ∉ pathParams c ++ '?' :: c.query := by
    intro hmem
    rcases List.mem_append.mp hmem with h | h
    · exact g.pp_no_hash h
    · rcases List.mem_cons.mp h with h | h
      · exact absurd h.symm (by decide)
      · exact (hQp '#' h).2.1 rfl
  have h6 : split1 '#' ((pathParams c ++ '?' :: c.query) ++
      (if c.fragment.isEmpty then [] else '#' :: c.fragment))
      = (pathParams c ++ '?' :: c.query, c.fragment) := by
    by_cases hF : c.fragment.isEmpty
    · rw [if_pos hF, List.append_nil, split1_not_mem '#' _ hhash,
        List.isEmpty_iff.mp hF]
    · rw [if_neg hF, split1_append '#' _ _ hhash]
  have h7 : split1 '?' (pathParams c ++ '?' :: c.query) = (pathParams c, c.query) :=
    split1_append '?' _ _ g.pp_no_q
  have htk : ((pathParams c ++ '?' :: c.query) ++
      (if c.fragment.isEmpty then [] else '#' :: c.fragment)).take 2 ≠ ['/', '/'] := by
    rw [show (pathParams c ++ '?' :: c.query) ++
        (if c.fragment.isEmpty then [] else '#' :: c.fragment)
        = pathParams c ++ '?' :: (c.query ++
          (if c.fragment.isEmpty then [] else '#' :: c.fragment)) from by
      simp [List.append_assoc]]
    exact take2_ne_qm _ _ ht2
  by_cases huse : c.scheme ≠ [] ∧ usesNetloc c.scheme = true
  · -- a uses_netloc scheme with empty netloc: the unparser emits //
    obtain ⟨hs, husetrue⟩ := huse
    obtain ⟨-, hall, halpha, hlow⟩ := g.scheme_ok.resolve_left (fun h => hs h)
    have hsne : c.scheme.isEmpty = false := by
      cases hs2 : c.scheme.isEmpty
      · rfl
      · exact absurd (List.isEmpty_iff.mp hs2) hs
    have hdw : ∀ u1 : List Char,
        (c.scheme ++ ':' :: u1).dropWhile c0OrSpace = c.scheme ++ ':' :: u1 := by
      intro u1
      apply dropWhile_head_false
      intro x hx
      cases hsch : c.scheme with
      | nil => exact absurd hsch hs
      | cons s0 ss =>
        rw [hsch] at hx
        simp only [List.cons_append, List.head?_cons, Option.some.injEq] at hx
        have hal : s0.isAlpha = true := by
          have h2 := halpha
          rw [hsch] at h2
          exact h2
        rw [← hx]
        rcases (isAlpha_iff s0).mp hal with h | h <;>
          · simp only [c0OrSpace, decide_eq_false_iff_not]
            omega
    have hru : ∀ u1 : List Char, (∀ ch ∈ u1, unsafeURLChar ch = false) →
        removeUnsafe (c.scheme ++ ':' :: u1) = c.scheme ++ ':' :: u1 := by
      intro u1 hu1
      apply removeUnsafe_id
      intro ch hch
      rcases List.mem_append.mp hch with hch | hch
      · exact (schemeChar_props (List.all_eq_true.mp hall ch hch)).2.2.2.2.1
      · rcases List.mem_cons.mp hch with rfl | hch
        · decide
        · exact hu1 ch hch
    by_cases hsl : pathParams c = [] ∨ (pathParams c).headD ' ' = '/'
    · -- absolute or empty path: unparse emits // and the path unchanged
      have hU : urlunparseM c = c.scheme ++ ':' :: ('/' :: '/' ::
          ((pathParams c ++ '?' :: c.query) ++
          (if c.fragment.isEmpty then [] else '#' :: c.fragment))) := by
        unfold urlunparseM
        rcases hsl with h | h
        · by_cases hF : c.fragment = [] <;>
            simp [hn0, hsne, hq, hF, h, husetrue, ht2, List.append_assoc]
        · have h2 : (pathParams c).head?.getD ' ' = '/' := by
            rw [← List.headD_eq_head?_getD]
            exact h
          by_cases hF : c.fragment = [] <;>
            simp [hn0, hsne, hq, hF, h2, husetrue, ht2, List.append_assoc]
      have hrest : ∀ x, ((pathParams c ++ '?' :: c.query) ++
          (if c.fragment.isEmpty then [] else '#' :: c.fragment)).head? = some x →
          netDelim x = true := by
        rcases hsl with h | h
        · rw [h]
          intro x hx
          simp only [List.nil_append, List.cons_append, List.head?_cons,
            Option.some.injEq] at hx
          rw [← hx]
          decide
        · cases ht : pathParams c with
          | nil =>
            rw [ht] at h
            exact absurd h (by decide)
          | cons t0 ts =>
            rw [ht] at h
            intro x hx
            simp only [List.cons_append, List.head?_cons, Option.some.injEq] at hx
            rw [← hx, show t0 = '/' from h]
            decide
      rw [hU, urlparseM_stages2 _
        ((pathParams c ++ '?' :: c.query) ++
          (if c.fragment.isEmpty then [] else '#' :: c.fragment))
        ((pathParams c ++ '?' :: c.query) ++
          (if c.fragment.isEmpty then [] else '#' :: c.fragment))
        (pathParams c ++ '?' :: c.query) (pathParams c) c
        (hdw _) (hru _ (by
          intro ch hch
          rcases List.mem_cons.mp hch with rfl | hch
          · decide
          · rcases List.mem_cons.mp hch with rfl | hch
            · decide
            · exact hr2u ch hch))
        (splitScheme_build c.scheme _ hs hall halpha hlow)
        (by
          rw [show c.netloc = ([] : List Char) from hn0]
          exact splitNetloc_build [] _ (by simp) hrest)
        (by rw [hn0]; rfl) (by rw [hn0]; rfl)
        h6 h7 g.pp_resplit]
      rw [normP_eq_self c (by
        intro hcond
        rcases hsl with h | h
        · exact hcond.2.2.2.1 ((pathParams_nil_iff c).mp h)
        · exact hcond.2.2.2.2 h)]
    · -- relative path: unparse emits /// and the reparse absorbs a slash
      push_neg at hsl
      obtain ⟨htne, hthead⟩ := hsl
      have hgd : ¬(pathParams c).head?.getD ' ' = '/' := by
        rw [← List.headD_eq_head?_getD]
        exact hthead
      have hU : urlunparseM c = c.scheme ++ ':' :: ('/' :: '/' ::
          ((('/' :: pathParams c) ++ '?' :: c.query) ++
          (if c.fragment.isEmpty then [] else '#' :: c.fragment))) := by
        unfold urlunparseM
        by_cases hF : c.fragment = [] <;>
          simp [hn0, hsne, hq, hF, htne, hgd, husetrue, ht2, List.append_assoc]
      have hnp : normP c = { c with path := '/' :: c.path } := by
        unfold normP
        rw [if_pos ⟨hn0, hs, husetrue,
          fun hpair => htne ((pathParams_nil_iff c).mpr hpair), hthead⟩]
      have h8 : splitParams ('/' :: pathParams c) = ('/' :: c.path, c.params) := by
        have h := splitParams_cons_slash (pathParams c)
        rw [g.pp_resplit] at h
        exact h
      have hhash2 : '#' ∉ ('/' :: pathParams c) ++ '?' :: c.query := by
        intro hmem
        rcases List.mem_cons.mp hmem with h | h
        · exact absurd h.symm (by decide)
        · exact hhash h
      have h62 : split1 '#' ((('/' :: pathParams c) ++ '?' :: c.query) ++
          (if c.fragment.isEmpty then [] else '#' :: c.fragment))
          = (('/' :: pathParams c) ++ '?' :: c.query, c.fragment) := by
        by_cases hF : c.fragment.isEmpty
        · rw [if_pos hF, List.append_nil, split1_not_mem '#' _ hhash2,
            List.isEmpty_iff.mp hF]
        · rw [if_neg hF, split1_append '#' _ _ hhash2]
      have h72 : split1 '?' (('/' :: pathParams c) ++ '?' :: c.query)
          = ('/' :: pathParams c, c.query) :=
        split1_append '?' _ _ (by
          intro hmem
          rcases List.mem_cons.mp hmem with h | h
          · exact absurd h.symm (by decide)
          · exact g.pp_no_q h)
      rw [hU, hnp, urlparseM_stages2 _
        ((('/' :: pathParams c) ++ '?' :: c.query) ++
          (if c.fragment.isEmpty then [] else '#' :: c.fragment))
        ((('/' :: pathParams c) ++ '?' :: c.query) ++
          (if c.fragment.isEmpty then [] else '#' :: c.fragment))
        (('/' :: pathParams c) ++ '?' :: c.query) ('/' :: pathParams c)
        { c with path := '/' :: c.path }
        (hdw _) (hru _ (by
          intro ch hch
          rcases List.mem_cons.mp hch with rfl | hch
          · decide
          · rcases List.mem_cons.mp hch with rfl | hch
            · decide
            · rcases List.mem_cons.mp hch with rfl | hch
              · decide
              · exact hr2u ch hch))
        (splitScheme_build c.scheme _ hs hall halpha hlow)
        (by
          rw [show ({ c with path := '/' :: c.path } : UrlComps).netloc = c.netloc from rfl,
            hn0]
          exact splitNetloc_build [] _ (fun ch hch => absurd hch (List.not_mem_nil ch)) (by
            intro x hx
            simp only [List.nil_append, List.cons_append, List.head?_cons,
              Option.some.injEq] at hx
            rw [← hx]
            decide))
        (by
          rw [show ({ c with path := '/' :: c.path } : UrlComps).netloc = c.netloc from rfl,
            hn0]
          rfl)
        (by
          rw [show ({ c with path := '/' :: c.path } : UrlComps).netloc = c.netloc from rfl,
            hn0]
          rfl)
        h62 h72 h8]
  · -- no scheme, or a scheme that does not use the netloc: the unparser
    -- reassembles the text verbatim
    have hnorm : normP c = c := normP_eq_self c (by
      intro hcond
      exact huse ⟨hcond.2.1, hcond.2.2.1⟩)
    rcases g.scheme_ok with hs | ⟨hs, hall, halpha, hlow⟩
    · -- no scheme at all
      have hU : urlunparseM c = (pathParams c ++ '?' :: c.query) ++
          (if c.fragment.isEmpty then [] else '#' :: c.fragment) := by
        unfold urlunparseM
        by_cases hF : c.fragment = [] <;>
          simp [hn0, hs, hq, hF, List.append_assoc]
      have hsplitS : splitScheme ((pathParams c ++ '?' :: c.query) ++
          (if c.fragment.isEmpty then [] else '#' :: c.fragment))
          = ([], (pathParams c ++ '?' :: c.query) ++
          (if c.fragment.isEmpty then [] else '#' :: c.fragment)) := by
        cases hsp : splitFirst ':' (pathParams c) with
        | some p =>
          obtain ⟨pre, rest⟩ := p
          obtain ⟨hteq, hnpre⟩ := splitFirst_some hsp
          have hspU : splitFirst ':' ((pathParams c ++ '?' :: c.query) ++
              (if c.fragment.isEmpty then [] else '#' :: c.fragment))
              = some (pre, (rest ++ '?' :: c.query) ++
                (if c.fragment.isEmpty then [] else '#' :: c.fragment)) := by
            rw [show (pathParams c ++ '?' :: c.query) ++
                (if c.fragment.isEmpty then [] else '#' :: c.fragment)
                = pre ++ ':' :: ((rest ++ '?' :: c.query) ++
                  (if c.fragment.isEmpty then [] else '#' :: c.fragment)) from by
              rw [hteq]
              simp [List.append_assoc]]
            exact splitFirst_append ':' pre _ hnpre
          apply splitScheme_invalid _ pre _ hspU
          have hhd : ((pathParams c ++ '?' :: c.query) ++
              (if c.fragment.isEmpty then [] else '#' :: c.fragment)).headD ' '
              = (pathParams c).headD ' ' := by
            cases ht : pathParams c with
            | nil =>
              rw [ht] at hteq
              exact absurd hteq.symm (by simp)
            | cons t0 ts => rfl
          have hdis := g.scheme_nil_colon hs hn0
          rw [hsp] at hdis
          rcases hdis with h | h | h
          · rw [h]
            rfl
          · rw [show pre.all isSchemeChar = false from by
              cases hh : pre.all isSchemeChar
              · rfl
              · exact absurd hh h]
            simp
          · rw [hhd, show ((pathParams c).headD ' ').isAlpha = false from by
              cases hh : ((pathParams c).headD ' ').isAlpha
              · rfl
              · exact absurd hh h]
            simp
        | none =>
          have hnotc : ':' ∉ pathParams c := by
            intro hmem
            have h2 := splitFirst_mem ':' (pathParams c) hmem
            rw [hsp] at h2
            exact absurd h2 (by simp)
          have hgen := splitFirst_append_gen ':' (pathParams c)
            ('?' :: (c.query ++ (if c.fragment.isEmpty then [] else '#' :: c.fragment)))
            hnotc
          rw [show (pathParams c ++ '?' :: c.query) ++
              (if c.fragment.isEmpty then [] else '#' :: c.fragment)
              = pathParams c ++ '?' :: (c.query ++
                (if c.fragment.isEmpty then [] else '#' :: c.fragment)) from by
            simp [List.append_assoc]]
          rw [show splitFirst ':' ('?' :: (c.query ++
              (if c.fragment.isEmpty then [] else '#' :: c.fragment)))
              = (splitFirst ':' (c.query ++
                (if c.fragment.isEmpty then [] else '#' :: c.fragment))).map
                  fun p => ('?' :: p.1, p.2) from by
            rw [splitFirst, if_neg (by decide)]] at hgen
          cases hsp2 : splitFirst ':' (c.query ++
              (if c.fragment.isEmpty then [] else '#' :: c.fragment)) with
          | none =>
            rw [hsp2] at hgen
            unfold splitScheme
            rw [hgen]
            rfl
          | some p2 =>
            obtain ⟨p1, p2t⟩ := p2
            rw [hsp2] at hgen
            simp only [Option.map_some'] at hgen
            apply splitScheme_invalid _ _ _ hgen
            rw [show (pathParams c ++ '?' :: p1).all isSchemeChar = false from by
              cases hh : (pathParams c ++ '?' :: p1).all isSchemeChar
              · rfl
              · have := List.all_eq_true.mp hh '?' (by simp)
                exact absurd this (by decide)]
            simp
      have hhead0 : ∀ x, ((pathParams c ++ '?' :: c.query) ++
          (if c.fragment.isEmpty then [] else '#' :: c.fragment)).head? = some x →
          c0OrSpace x = false := by
        cases ht : pathParams c with
        | nil =>
          intro x hx
          simp only [List.nil_append, List.cons_append, List.head?_cons,
            Option.some.injEq] at hx
          rw [← hx]
          decide
        | cons t0 ts =>
          intro x hx
          simp only [List.cons_append, List.head?_cons, Option.some.injEq] at hx
          have h2 := g.scheme_nil_head hs hn0 (by rw [ht]; simp)
          rw [ht] at h2
          rw [← hx]
          exact h2
      rw [hU, urlparseM_stages1 _
        ((pathParams c ++ '?' :: c.query) ++
          (if c.fragment.isEmpty then [] else '#' :: c.fragment))
        (pathParams c ++ '?' :: c.query) (pathParams c) c
        (dropWhile_head_false _ _ hhead0)
        (removeUnsafe_id _ hr2u)
        (by rw [hs]; exact hsplitS)
        htk hn0 h6 h7 g.pp_resplit, hnorm]
    · -- a scheme that does not use the netloc
      have husef : usesNetloc c.scheme = false := by
        cases hh : usesNetloc c.scheme
        · rfl
        · exact absurd ⟨hs, hh⟩ huse
      have hsne : c.scheme.isEmpty = false := by
        cases hs2 : c.scheme.isEmpty
        · rfl
        · exact absurd (List.isEmpty_iff.mp hs2) hs
      have hU : urlunparseM c = c.scheme ++ ':' ::
          ((pathParams c ++ '?' :: c.query) ++
          (if c.fragment.isEmpty then [] else '#' :: c.fragment)) := by
        unfold urlunparseM
        by_cases hF : c.fragment = [] <;>
          simp [hn0, hsne, hq, hF, husef, List.append_assoc]
      rw [hU, urlparseM_stages1 _
        ((pathParams c ++ '?' :: c.query) ++
          (if c.fragment.isEmpty then [] else '#' :: c.fragment))
        (pathParams c ++ '?' :: c.query) (pathParams c) c
        (dropWhile_head_false _ _ (by
          intro x hx
          cases hsch : c.scheme with
          | nil => exact absurd hsch hs
          | cons s0 ss =>
            rw [hsch] at hx
            simp only [List.cons_append, List.head?_cons, Option.some.injEq] at hx
            have hal : s0.isAlpha = true := by
              have h2 := halpha
              rw [hsch] at h2
              exact h2
            rw [← hx]
            rcases (isAlpha_iff s0).mp hal with h | h <;>
              · simp only [c0OrSpace, decide_eq_false_iff_not]
                omega))
        (removeUnsafe_id _ (by
          intro ch hch
          rcases List.mem_append.mp hch with hch | hch
          · exact (schemeChar_props (List.all_eq_true.mp hall ch hch)).2.2.2.2.1
          · rcases List.mem_cons.mp hch with rfl | hch
            · decide
            · exact hr2u ch hch))
        (splitScheme_build c.scheme _ hs hall halpha hlow)
        htk hn0 h6 h7 g.pp_resplit, hnorm]

/-- Parsing the unparse of good components gives exactly the `normP`
normalisation. -/
theorem reparse (c : UrlComps) (g : GoodComps c)
    (hQne : c.query ≠ [])
    (hQc : ∀ ch ∈ c.query, qchar ch = true ∨ ch = '=' ∨ ch = '&') :
    urlparseM (urlunparseM c) = some (normP c) := by
  by_cases hn : c.netloc = []
  · exact reparse_nonetloc c g hQne hQc hn
  · exact reparse_netloc c g hQne hQc hn

/-- The `normP` path change never alters the unparsed text: the extra `/`
the parser absorbed is exactly the one `urlunsplit` re-emits. -/
theorem urlunparseM_normP (c : UrlComps) : urlunparseM (normP c) = urlunparseM c := by
  unfold normP
  by_cases h : c.netloc = [] ∧ c.scheme ≠ [] ∧ usesNetloc c.scheme = true ∧
      ¬(c.path = [] ∧ c.params = []) ∧ (pathParams c).headD ' ' ≠ '/'
  · rw [if_pos h]
    obtain ⟨hn0, hs, huse, hne, hhead⟩ := h
    have htne : pathParams c ≠ [] := fun hnil => hne ((pathParams_nil_iff c).mp hnil)
    have hgd : ¬(pathParams c).head?.getD ' ' = '/' := by
      rw [← List.headD_eq_head?_getD]
      exact hhead
    have hsne : c.scheme.isEmpty = false := by
      cases hs2 : c.scheme.isEmpty
      · rfl
      · exact absurd (List.isEmpty_iff.mp hs2) hs
    have hpp : pathParams { c with path := '/' :: c.path } = '/' :: pathParams c := by
      unfold pathParams
      by_cases hpar : c.params.isEmpty <;> simp [hpar]
    have hta : ('/' :: pathParams c).take 2 ≠ ['/', '/'] := by
      cases ht : pathParams c with
      | nil => exact absurd ht htne
      | cons a t2 =>
        rw [show List.take 2 ('/' :: a :: t2) = ['/', a] from rfl]
        intro habs
        injection habs with _ hh
        injection hh with hh _
        exact hhead (by rw [ht]; exact hh)
    have ht2c : (pathParams c).take 2 ≠ ['/', '/'] := by
      cases ht : pathParams c with
      | nil => simp
      | cons a t2 =>
        intro habs
        rw [show List.take 2 (a :: t2) = a :: List.take 1 t2 from rfl] at habs
        injection habs with hh _
        exact hhead (by rw [ht]; exact hh)
    have ht1 : List.take 1 (pathParams c) ≠ ['/'] := by
      cases ht : pathParams c with
      | nil => simp
      | cons a t2 =>
        rw [show List.take 1 (a :: t2) = [a] from rfl]
        intro habs
        injection habs with hh _
        exact hhead (by rw [ht]; exact hh)
    unfold urlunparseM
    rw [hpp]
    simp [hn0, hsne, hta, ht2c, htne, hgd, huse, ht1]
  · rw [if_neg h]

/-! ### The `parse_qs` dictionary: rebuild, invariants, `dictSet` -/

theorem qsInsert_new (acc : List (String × List String)) (k v : String)
    (hk : ∀ kv ∈ acc, kv.1 ≠ k) :
    qsInsert acc k v = acc ++ [(k, [v])] := by
  unfold qsInsert
  rw [if_neg (by
    simp only [List.any_eq_true, beq_iff_eq, not_exists, not_and]
    intro kv hkv
    exact hk kv hkv)]

theorem qsInsert_app (acc tail : List (String × List String)) (k : String)
    (vs0 : List String) (v : String)
    (hk : ∀ kv ∈ acc, kv.1 ≠ k) (hkt : ∀ kv ∈ tail, kv.1 ≠ k) :
    qsInsert (acc ++ (k, vs0) :: tail) k v = acc ++ (k, vs0 ++ [v]) :: tail := by
  unfold qsInsert
  rw [if_pos (by
    simp only [List.any_eq_true, beq_iff_eq]
    exact ⟨(k, vs0), by simp, rfl⟩)]
  rw [List.map_append, List.map_cons]
  congr 1
  · rw [show List.map (fun kv => if (kv.1 == k) = true then (kv.1, kv.2 ++ [v]) else kv) acc
        = List.map id acc from
      List.map_congr_left (fun kv hkv => by rw [if_neg (by simp [hk kv hkv])]; rfl),
      List.map_id]
  · congr 1
    · rw [if_pos (by simp)]
    · rw [show List.map (fun kv => if (kv.1 == k) = true then (kv.1, kv.2 ++ [v]) else kv) tail
          = List.map id tail from
        List.map_congr_left (fun kv hkv => by rw [if_neg (by simp [hkt kv hkv])]; rfl),
        List.map_id]

theorem foldl_group (k : String) (vs' : List String) :
    ∀ (acc : List (String × List String)) (vs0 : List String),
      (∀ kv ∈ acc, kv.1 ≠ k) →
      List.foldl (fun d nv => qsInsert d nv.1 nv.2) (acc ++ [(k, vs0)])
        (vs'.map fun v => (k, v)) = acc ++ [(k, vs0 ++ vs')] := by
  induction vs' with
  | nil =>
    intro acc vs0 _
    simp
  | cons v vs ih =>
    intro acc vs0 hk
    simp only [List.map_cons, List.foldl_cons]
    rw [show qsInsert (acc ++ [(k, vs0)]) k v = acc ++ [(k, vs0 ++ [v])] from
      qsInsert_app acc [] k vs0 v hk (by simp), ih acc (vs0 ++ [v]) hk,
      List.append_assoc]
    simp

theorem foldl_pairs :
    ∀ (d acc : List (String × List String)),
      (∀ kv ∈ acc, ∀ kv2 ∈ d, kv.1 ≠ kv2.1) →
      (d.map Prod.fst).Nodup → (∀ kv ∈ d, kv.2 ≠ []) →
      List.foldl (fun a nv => qsInsert a nv.1 nv.2) acc
        ((d.map fun kv => kv.2.map fun v => (kv.1, v)).flatten) = acc ++ d := by
  intro d
  induction d with
  | nil =>
    intro acc _ _ _
    simp
  | cons kv d ih =>
    intro acc hdisj hnodup hvne
    obtain ⟨k, vs⟩ := kv
    obtain ⟨v, vs', rfl⟩ : ∃ v vs', vs = v :: vs' := by
      cases hvs : vs with
      | nil => exact absurd hvs (hvne (k, vs) (by simp))
      | cons v vs' => exact ⟨v, vs', rfl⟩
    simp only [List.map_cons, List.flatten_cons, List.foldl_append, List.foldl_cons]
    have hknotacc : ∀ kv2 ∈ acc, kv2.1 ≠ k := by
      intro kv2 hkv2
      exact hdisj kv2 hkv2 (k, v :: vs') (by simp)
    have hnd : k ∉ List.map Prod.fst d ∧ (List.map Prod.fst d).Nodup := by
      rw [List.map_cons] at hnodup
      exact List.nodup_cons.mp hnodup
    have hknotd : ∀ kv2 ∈ d, kv2.1 ≠ k := by
      intro kv2 hkv2 habs
      exact hnd.1 (habs ▸ List.mem_map_of_mem Prod.fst hkv2)
    rw [qsInsert_new acc k v hknotacc,
      foldl_group k vs' acc [v] hknotacc]
    simp only [List.singleton_append]
    rw [ih (acc ++ [(k, v :: vs')]) (by
        intro kv2 hkv2 kv3 hkv3
        rcases List.mem_append.mp hkv2 with h | h
        · exact hdisj kv2 h kv3 (by simp [hkv3])
        · rcases List.mem_singleton.mp h with rfl
          exact fun habs => hknotd kv3 hkv3 habs.symm)
      hnd.2
      (fun kv2 hkv2 => hvne kv2 (by simp [hkv2])),
      List.append_assoc]
    rfl

/-- `parse_qs (urlencode d)` recovers `d` exactly, for a well-formed dict. -/
theorem parse_qs_enc (d : List (String × List String))
    (hnodup : (d.map Prod.fst).Nodup)
    (hvl : ∀ kv ∈ d, kv.2 ≠ [])
    (hv : ∀ kv ∈ d, ∀ v ∈ kv.2, v ≠ "") :
    parse_qs (urlencodeD d) = d := by
  unfold parse_qs
  rw [parse_qsl_enc d hv, foldl_pairs d [] (by simp) hnodup hvl, List.nil_append]

theorem qsInsert_keys (d : List (String × List String)) (k v : String) :
    (d.any fun kv => kv.1 == k) = true →
    List.map Prod.fst (d.map fun kv =>
      if (kv.1 == k) = true then (kv.1, kv.2 ++ [v]) else kv) = d.map Prod.fst := by
  intro _
  rw [List.map_map]
  apply List.map_congr_left
  intro kv _
  by_cases hkv : (kv.1 == k) = true
  · simp [Function.comp, hkv]
  · simp [Function.comp, hkv]

theorem qsInsert_inv (d : List (String × List String)) (k v : String)
    (hv : v ≠ "") (h : QDictInv d) : QDictInv (qsInsert d k v) := by
  obtain ⟨h1, h2, h3⟩ := h
  unfold qsInsert
  by_cases hp : (d.any fun kv => kv.1 == k) = true
  · rw [if_pos hp]
    refine ⟨by rw [qsInsert_keys d k v hp]; exact h1, ?_, ?_⟩
    · intro kv hkv
      obtain ⟨kv0, hkv0, rfl⟩ := List.mem_map.mp hkv
      by_cases hk0 : (kv0.1 == k) = true
      · rw [if_pos hk0]
        simp
      · rw [if_neg hk0]
        exact h2 kv0 hkv0
    · intro kv hkv w hw
      obtain ⟨kv0, hkv0, rfl⟩ := List.mem_map.mp hkv
      by_cases hk0 : (kv0.1 == k) = true
      · rw [if_pos hk0] at hw
        rcases List.mem_append.mp hw with hw | hw
        · exact h3 kv0 hkv0 w hw
        · rcases List.mem_singleton.mp hw with rfl
          exact hv
      · rw [if_neg hk0] at hw
        exact h3 kv0 hkv0 w hw
  · rw [if_neg hp]
    have hknot : ∀ kv ∈ d, kv.1 ≠ k := by
      intro kv hkv habs
      exact hp (List.any_eq_true.mpr ⟨kv, hkv, by simp [habs]⟩)
    refine ⟨?_, ?_, ?_⟩
    · rw [List.map_append]
      apply List.Nodup.append h1 (by simp)
      intro a ha hb
      obtain ⟨kv0, hkv0, rfl⟩ := List.mem_map.mp ha
      simp only [List.map_cons, List.map_nil, List.mem_singleton] at hb
      exact hknot kv0 hkv0 hb
    · intro kv hkv
      rcases List.mem_append.mp hkv with hkv | hkv
      · exact h2 kv hkv
      · rcases List.mem_singleton.mp hkv with rfl
        simp
    · intro kv hkv w hw
      rcases List.mem_append.mp hkv with hkv | hkv
      · exact h3 kv hkv w hw
      · rcases List.mem_singleton.mp hkv with rfl
        rcases List.mem_singleton.mp hw with rfl
        exact hv

theorem pctTokens_ne_nil (l : List Char) (h : l ≠ []) : pctTokens l ≠ [] := by
  cases l with
  | nil => exact absurd rfl h
  | cons c rest =>
    rw [pctTokens.eq_def]
    split
    · split <;> simp
    · simp
    · rename_i heq
      exact List.noConfusion heq

theorem udtF_ne_nil : ∀ (f : ℕ) (l : List UTok), l ≠ [] → 1 ≤ f → udtF f l ≠ [] := by
  intro f l hl hf
  cases l with
  | nil => exact absurd rfl hl
  | cons t rest =>
    cases f with
    | zero => omega
    | succ f =>
      cases t with
      | chr c =>
        rw [udtF_chr]
        simp
      | byte b =>
        rw [udtF_byte]
        split
        · simp
        · split
          · split <;> simp
          · split
            · split <;> simp
            · split
              · split <;> simp
              · simp

theorem unquote_plus_ne_nil (l : List Char) (h : l ≠ []) : unquote_plus l ≠ [] := by
  unfold unquote_plus utf8DecodeTok
  have h1 : (l.map fun c => if c = '+' then ' ' else c) ≠ [] := by
    intro habs
    exact h (List.map_eq_nil_iff.mp habs)
  have h2 := pctTokens_ne_nil _ h1
  apply udtF_ne_nil _ _ h2
  cases hp : pctTokens (l.map fun c => if c = '+' then ' ' else c) with
  | nil => exact absurd hp h2
  | cons a b => simp

theorem parse_qsl_val_ne (q : List Char) : ∀ p ∈ parse_qsl q, p.2 ≠ "" := by
  intro p hp
  unfold parse_qsl at hp
  obtain ⟨piece, _, hsome⟩ := List.mem_filterMap.mp hp
  by_cases hemp : piece.isEmpty
  · rw [if_pos hemp] at hsome
    exact absurd hsome (by simp)
  · rw [if_neg hemp] at hsome
    cases hsp : splitFirst '=' piece with
    | none =>
      rw [hsp] at hsome
      exact absurd hsome (by simp)
    | some nv =>
      obtain ⟨nm, w⟩ := nv
      rw [hsp] at hsome
      simp only [] at hsome
      by_cases hw : w.isEmpty
      · rw [if_pos hw] at hsome
        exact absurd hsome (by simp)
      · rw [if_neg hw] at hsome
        have hwne : w ≠ [] := fun habs => hw (List.isEmpty_iff.mpr habs)
        have hpe : p = (⟨unquote_plus nm⟩, ⟨unquote_plus w⟩) := (Option.some.inj hsome).symm
        rw [hpe]
        intro habs
        exact unquote_plus_ne_nil w hwne (congrArg String.data habs)

theorem parse_qs_inv (q : List Char) : QDictInv (parse_qs q) := by
  unfold parse_qs
  have hvals := parse_qsl_val_ne q
  have : ∀ (ps : List (String × String)) (acc : List (String × List String)),
      (∀ p ∈ ps, p.2 ≠ "") → QDictInv acc →
      QDictInv (ps.foldl (fun d nv => qsInsert d nv.1 nv.2) acc) := by
    intro ps
    induction ps with
    | nil => intro acc _ h; exact h
    | cons p ps ih =>
      intro acc hps h
      rw [List.foldl_cons]
      exact ih _ (fun p2 hp2 => hps p2 (by simp [hp2]))
        (qsInsert_inv acc p.1 p.2 (hps p (by simp)) h)
  exact this _ [] hvals ⟨by simp, by simp, by simp⟩

theorem dictSet_keys_nodup (d : List (String × List String)) (k : String)
    (vs : List String) (h : (d.map Prod.fst).Nodup) :
    ((dictSet d k vs).map Prod.fst).Nodup := by
  unfold dictSet
  by_cases hp : (d.any fun kv => kv.1 == k) = true
  · rw [if_pos hp]
    rw [show List.map Prod.fst (d.map fun kv =>
        if (kv.1 == k) = true then (kv.1, vs) else kv) = d.map Prod.fst from by
      rw [List.map_map]
      apply List.map_congr_left
      intro kv _
      by_cases hkv : (kv.1 == k) = true
      · simp [Function.comp, hkv]
      · simp [Function.comp, hkv]]
    exact h
  · rw [if_neg hp]
    have hknot : ∀ kv ∈ d, kv.1 ≠ k := by
      intro kv hkv habs
      exact hp (List.any_eq_true.mpr ⟨kv, hkv, by simp [habs]⟩)
    rw [List.map_append]
    apply List.Nodup.append h (by simp)
    intro a ha hb
    obtain ⟨kv0, hkv0, rfl⟩ := List.mem_map.mp ha
    simp only [List.map_cons, List.map_nil, List.mem_singleton] at hb
    exact hknot kv0 hkv0 hb

theorem dictSet_mem (d : List (String × List String)) (k : String) (vs : List String) :
    ∀ kv ∈ dictSet d k vs, (kv.1 = k ∧ kv.2 = vs) ∨ (kv.1 ≠ k ∧ kv ∈ d) := by
  intro kv hkv
  unfold dictSet at hkv
  by_cases hp : (d.any fun kv => kv.1 == k) = true
  · rw [if_pos hp] at hkv
    obtain ⟨kv0, hkv0, rfl⟩ := List.mem_map.mp hkv
    by_cases hk0 : (kv0.1 == k) = true
    · rw [if_pos hk0]
      exact Or.inl ⟨beq_iff_eq.mp hk0, rfl⟩
    · rw [if_neg hk0]
      exact Or.inr ⟨fun habs => hk0 (beq_iff_eq.mpr habs), hkv0⟩
  · rw [if_neg hp] at hkv
    rcases List.mem_append.mp hkv with hkv | hkv
    · refine Or.inr ⟨?_, hkv⟩
      intro habs
      exact hp (List.any_eq_true.mpr ⟨kv, hkv, by simp [habs]⟩)
    · rcases List.mem_singleton.mp hkv with rfl
      exact Or.inl ⟨rfl, rfl⟩

theorem dictSet_mem_self (d : List (String × List String)) (k : String)
    (vs : List String) : (k, vs) ∈ dictSet d k vs := by
  unfold dictSet
  by_cases hp : (d.any fun kv => kv.1 == k) = true
  · rw [if_pos hp]
    obtain ⟨kv0, hkv0, hk0⟩ := List.any_eq_true.mp hp
    have : (k, vs) = (if (kv0.1 == k) = true then (kv0.1, vs) else kv0) := by
      rw [if_pos hk0, beq_iff_eq.mp hk0]
    rw [this]
    exact List.mem_map_of_mem _ hkv0
  · rw [if_neg hp]
    simp

theorem dictSet_ne_nil (d : List (String × List String)) (k : String)
    (vs : List String) : dictSet d k vs ≠ [] := by
  intro habs
  have h2 := dictSet_mem_self d k vs
  rw [habs] at h2
  exact absurd h2 (by simp)

theorem dictSet_inv (d : List (String × List String)) (k v : String)
    (hv : v ≠ "") (h : QDictInv d) : QDictInv (dictSet d k [v]) := by
  obtain ⟨h1, h2, h3⟩ := h
  refine ⟨dictSet_keys_nodup d k [v] h1, ?_, ?_⟩
  · intro kv hkv
    rcases dictSet_mem d k [v] kv hkv with ⟨_, hv2⟩ | ⟨_, hmem⟩
    · rw [hv2]
      simp
    · exact h2 kv hmem
  · intro kv hkv w hw
    rcases dictSet_mem d k [v] kv hkv with ⟨_, hv2⟩ | ⟨_, hmem⟩
    · rw [hv2] at hw
      rcases List.mem_singleton.mp hw with rfl
      exact hv
    · exact h3 kv hmem w hw

theorem dictSet_idem (d : List (String × List String)) (k : String)
    (vs : List String) : dictSet (dictSet d k vs) k vs = dictSet d k vs := by
  have hmem := dictSet_mem_self d k vs
  have hany : ((dictSet d k vs).any fun kv => kv.1 == k) = true :=
    List.any_eq_true.mpr ⟨(k, vs), hmem, by simp⟩
  show (if ((dictSet d k vs).any fun kv => kv.1 == k) = true
      then (dictSet d k vs).map fun kv => if (kv.1 == k) = true then (kv.1, vs) else kv
      else dictSet d k vs ++ [(k, vs)]) = dictSet d k vs
  rw [if_pos hany]
  have hcongr : List.map (fun kv => if (kv.1 == k) = true then (kv.1, vs) else kv)
      (dictSet d k vs) = List.map id (dictSet d k vs) := by
    apply List.map_congr_left
    intro kv hkv
    rcases dictSet_mem d k vs kv hkv with ⟨hk1, hk2⟩ | ⟨hk1, _⟩
    · rw [if_pos (beq_iff_eq.mpr hk1)]
      show (kv.1, vs) = kv
      rw [← hk2]
    · rw [if_neg (by simp [hk1])]
      rfl
  rw [hcongr, List.map_id]

/-! ### The encoded query: characters, nonemptiness, blank names -/

theorem joinAmp_mem : ∀ (chunks : List (List Char)) (ch : Char),
    ch ∈ joinAmp chunks → ch = '&' ∨ ∃ p ∈ chunks, ch ∈ p := by
  intro chunks
  induction chunks with
  | nil =>
    intro ch h
    exact absurd h (by simp [joinAmp])
  | cons p ps ih =>
    intro ch h
    cases ps with
    | nil => exact Or.inr ⟨p, by simp, h⟩
    | cons q qs =>
      rw [show joinAmp (p :: q :: qs) = p ++ '&' :: joinAmp (q :: qs) from rfl] at h
      rcases List.mem_append.mp h with h | h
      · exact Or.inr ⟨p, by simp, h⟩
      · rcases List.mem_cons.mp h with rfl | h
        · exact Or.inl rfl
        · rcases ih ch h with h | ⟨p2, hp2, hchp2⟩
          · exact Or.inl h
          · exact Or.inr ⟨p2, by simp [hp2], hchp2⟩

theorem urlencodeD_chars (d : List (String × List String)) :
    ∀ ch ∈ urlencodeD d, qchar ch = true ∨ ch = '=' ∨ ch = '&' := by
  intro ch hch
  unfold urlencodeD at hch
  rcases joinAmp_mem _ ch hch with h | ⟨p, hp, hchp⟩
  · exact Or.inr (Or.inr h)
  · obtain ⟨l, hl, hpl⟩ := List.mem_flatten.mp hp
    obtain ⟨kv, _, rfl⟩ := List.mem_map.mp hl
    obtain ⟨v, _, rfl⟩ := List.mem_map.mp hpl
    rcases List.mem_append.mp hchp with h | h
    · exact Or.inl (quote_plus_qchar _ ch h)
    · rcases List.mem_cons.mp h with rfl | h
      · exact Or.inr (Or.inl rfl)
      · exact Or.inl (quote_plus_qchar _ ch h)

theorem urlencodeD_ne_nil (d : List (String × List String)) (kv : String × List String)
    (hkv : kv ∈ d) (v : String) (hv : v ∈ kv.2) : urlencodeD d ≠ [] := by
  unfold urlencodeD
  have hchunk : quote_plus kv.1 ++ '=' :: quote_plus v ∈
      (d.map fun kv => kv.2.map fun v => quote_plus kv.1 ++ '=' :: quote_plus v).flatten :=
    List.mem_flatten.mpr ⟨_, List.mem_map_of_mem _ hkv, List.mem_map_of_mem _ hv⟩
  rcases hcs : (d.map fun kv => kv.2.map fun v =>
      quote_plus kv.1 ++ '=' :: quote_plus v).flatten with _ | ⟨c1, rest⟩
  · rw [hcs] at hchunk
    exact absurd hchunk (by simp)
  · cases rest with
    | nil =>
      rw [hcs] at hchunk ⊢
      have hc1 : quote_plus kv.1 ++ '=' :: quote_plus v = c1 :=
        List.mem_singleton.mp hchunk
      rw [← hc1]
      show quote_plus kv.1 ++ '=' :: quote_plus v ≠ []
      intro habs
      exact List.noConfusion (List.append_eq_nil.mp habs).2
    | cons c2 rest2 =>
      rw [hcs,
        show joinAmp (c1 :: c2 :: rest2) = c1 ++ '&' :: joinAmp (c2 :: rest2) from rfl]
      intro habs
      exact List.noConfusion (List.append_eq_nil.mp habs).2

theorem filterMap_congr_mem {α β : Type} (f g : α → Option β) :
    ∀ l : List α, (∀ x ∈ l, f x = g x) → l.filterMap f = l.filterMap g := by
  intro l
  induction l with
  | nil => intro _; rfl
  | cons x xs ih =>
    intro h
    rw [List.filterMap_cons, List.filterMap_cons, h x (by simp),
      ih (fun y hy => h y (by simp [hy]))]

/-- Decoding one `urlencode` chunk with the `blankNames` classifier. -/
theorem chunk_blank (k v : String) :
    (fun (piece : List Char) =>
      if piece.isEmpty then none
      else
        match splitFirst '=' piece with
        | none => some ((⟨unquote_plus piece⟩ : String))
        | some (nm, w) =>
          if w.isEmpty then some ((⟨unquote_plus nm⟩ : String)) else none)
      (quote_plus k ++ '=' :: quote_plus v)
      = ((fun p : String × String => if p.2 = "" then some p.1 else none) ∘
          fun v => (k, v)) v := by
  have hne : '=' ∉ quote_plus k := fun hmem => (mem_quote_plus_ne hmem).1 rfl
  simp only [Function.comp_apply]
  rw [if_neg (by
      simp only [List.isEmpty_iff, List.append_eq_nil]
      intro habs
      exact List.noConfusion habs.2),
    splitFirst_append '=' (quote_plus k) (quote_plus v) hne]
  simp only []
  by_cases hv : v = ""
  · subst hv
    rw [if_pos (by rfl), if_pos rfl,
      show unquote_plus (quote_plus k) = k.data from unquote_plus_quote_plus k]
  · rw [if_neg (by
        simp only [List.isEmpty_iff]
        exact quote_plus_ne_nil v hv),
      if_neg hv]

/-- `blankNames` of an `urlencode` output: exactly the keys paired with an
empty-string value. -/
theorem blankNames_enc (d : List (String × List String)) :
    blankNames (urlencodeD d)
      = ((d.map fun kv => kv.2.map fun v => (kv.1, v)).flatten).filterMap
          fun p => if p.2 = "" then some p.1 else none := by
  unfold blankNames urlencodeD
  by_cases hch :
      (d.map fun kv => kv.2.map fun v => quote_plus kv.1 ++ '=' :: quote_plus v).flatten
        = ([] : List (List Char))
  · rw [hch]
    have hall : ∀ kv ∈ d, kv.2 = [] := by
      intro kv hkv
      have := (List.flatten_eq_nil_iff.mp hch) (kv.2.map fun v =>
        quote_plus kv.1 ++ '=' :: quote_plus v) (List.mem_map_of_mem _ hkv)
      simpa using this
    rw [show ((d.map fun kv => kv.2.map fun v => (kv.1, v)).flatten
        : List (String × String)) = [] from List.flatten_eq_nil_iff.mpr (by
      intro x hx
      obtain ⟨kv, hkv, rfl⟩ := List.mem_map.mp hx
      rw [hall kv hkv]
      rfl)]
    rfl
  · rw [joinAmp_parse _ (by
      intro p hp
      obtain ⟨l, hl, hpl⟩ := List.mem_flatten.mp hp
      obtain ⟨kv, _, rfl⟩ := List.mem_map.mp hl
      obtain ⟨v, _, rfl⟩ := List.mem_map.mp hpl
      intro hmem
      rcases List.mem_append.mp hmem with hmem | hmem
      · exact (mem_quote_plus_ne hmem).2 rfl
      · rcases List.mem_cons.mp hmem with hmem | hmem
        · exact absurd hmem.symm (by decide)
        · exact (mem_quote_plus_ne hmem).2 rfl) hch]
    rw [List.filterMap_flatten, List.filterMap_flatten, List.map_map, List.map_map]
    congr 1
    apply List.map_congr_left
    intro kv _
    simp only [Function.comp_apply, List.filterMap_map]
    apply filterMap_congr_mem
    intro v _
    exact chunk_blank kv.1 v

theorem filterMap_none {α β : Type} (f : α → Option β) :
    ∀ (l : List α), (∀ x ∈ l, f x = none) → l.filterMap f = [] := by
  intro l
  induction l with
  | nil => intro _; rfl
  | cons x xs ih =>
    intro h
    rw [List.filterMap_cons, h x (by simp), ih (fun y hy => h y (by simp [hy]))]

theorem blanks_flatten (k v : String) :
    ∀ (d : List (String × List String)),
      (d.map Prod.fst).Nodup →
      (∀ kv ∈ d, (kv.1 = k ∧ kv.2 = [v]) ∨ (kv.1 ≠ k ∧ ∀ w ∈ kv.2, w ≠ "")) →
      (k, [v]) ∈ d →
      ((d.map fun kv => kv.2.map fun w => (kv.1, w)).flatten).filterMap
          (fun p => if p.2 = "" then some p.1 else none)
        = if v = "" then [k] else [] := by
  intro d
  induction d with
  | nil =>
    intro _ _ hmem
    exact absurd hmem (by simp)
  | cons kv0 d ih =>
    intro hnodup hclass hmem
    rw [List.map_cons, List.flatten_cons, List.filterMap_append]
    have hnd : kv0.1 ∉ List.map Prod.fst d ∧ (List.map Prod.fst d).Nodup := by
      rw [List.map_cons] at hnodup
      exact List.nodup_cons.mp hnodup
    rcases hclass kv0 (by simp) with ⟨hk1, hk2⟩ | ⟨hk1, hvals⟩
    · have htail : ((d.map fun kv => kv.2.map fun w => (kv.1, w)).flatten).filterMap
          (fun p => if p.2 = "" then some p.1 else none) = [] := by
        rw [List.filterMap_flatten]
        apply List.flatten_eq_nil_iff.mpr
        intro x hx
        obtain ⟨l2, hl2, rfl⟩ := List.mem_map.mp hx
        obtain ⟨kv2, hkv2, rfl⟩ := List.mem_map.mp hl2
        have hk2ne : kv2.1 ≠ k := by
          intro habs
          exact hnd.1 (by rw [hk1, ← habs]; exact List.mem_map_of_mem _ hkv2)
        have hvne := (hclass kv2 (by simp [hkv2])).resolve_left (fun h => hk2ne h.1)
        rw [List.filterMap_map]
        apply filterMap_none
        intro w hw
        simp only [Function.comp_apply]
        rw [if_neg (hvne.2 w hw)]
      rw [htail, List.append_nil, hk2]
      by_cases hv : v = ""
      · rw [if_pos hv]
        simp [hv, hk1]
      · rw [if_neg hv]
        simp [hv]
    · have hmem2 : (k, [v]) ∈ d := by
        rcases List.mem_cons.mp hmem with h | h
        · exfalso
          rw [← h] at hk1
          exact hk1 rfl
        · exact h
      have hhead : ((kv0.2.map fun w => (kv0.1, w)).filterMap
          (fun p => if p.2 = "" then some p.1 else none)) = [] := by
        rw [List.filterMap_map]
        apply filterMap_none
        intro w hw
        simp only [Function.comp_apply]
        rw [if_neg (hvals w hw)]
      rw [hhead, List.nil_append]
      exact ih hnd.2 (fun kv2 hkv2 => hclass kv2 (by simp [hkv2])) hmem2

/-- The blank-valued names after `set_query_param`'s re-encoding: just the
newly set key, and only when the new value is empty. -/
theorem blankNames_setq (q : List Char) (k v : String) :
    blankNames (urlencodeD (dictSet (parse_qs q) k [v]))
      = if v = "" then [k] else [] := by
  rw [blankNames_enc]
  obtain ⟨h1, _, h3⟩ := parse_qs_inv q
  apply blanks_flatten k v
  · exact dictSet_keys_nodup _ _ _ h1
  · intro kv hkv
    rcases dictSet_mem _ _ _ kv hkv with ⟨hka, hkb⟩ | ⟨hka, hmem⟩
    · exact Or.inl ⟨hka, hkb⟩
    · exact Or.inr ⟨hka, fun w hw => h3 kv hmem w hw⟩
  · exact dictSet_mem_self _ _ _

/-! ### What `urlparseM` guarantees about its output -/

theorem splitFirst_none_not_mem (c : Char) (l : List Char)
    (h : splitFirst c l = none) : c ∉ l := by
  intro hmem
  have h2 := splitFirst_mem c l hmem
  rw [h] at h2
  exact absurd h2 (by simp)

theorem split1_cases (c : Char) (l a b : List Char) (h : split1 c l = (a, b)) :
    (l = a ++ c :: b ∧ c ∉ a) ∨ (a = l ∧ b = [] ∧ c ∉ l) := by
  unfold split1 at h
  cases hsp : splitFirst c l with
  | none =>
    rw [hsp] at h
    simp only [Prod.mk.injEq] at h
    exact Or.inr ⟨h.1.symm, h.2.symm, splitFirst_none_not_mem c l hsp⟩
  | some p =>
    obtain ⟨p1, p2⟩ := p
    rw [hsp] at h
    simp only [Prod.mk.injEq] at h
    obtain ⟨h2, h3⟩ := splitFirst_some hsp
    rw [← h.1, ← h.2]
    exact Or.inl ⟨h2, h3⟩

theorem dropWhile_head_prop (p : Char → Bool) : ∀ (l : List Char) (x : Char),
    (l.dropWhile p).head? = some x → p x = false := by
  intro l
  induction l with
  | nil =>
    intro x h
    exact absurd h (by simp)
  | cons y ys ih =>
    intro x h
    rw [List.dropWhile_cons] at h
    by_cases hy : p y = true
    · rw [if_pos hy] at h
      exact ih x h
    · rw [if_neg hy] at h
      simp only [List.head?_cons, Option.some.injEq] at h
      rw [← h]
      cases hyv : p y
      · rfl
      · exact absurd hyv hy

theorem removeUnsafe_head (l : List Char) (x : Char)
    (h : (removeUnsafe (l.dropWhile c0OrSpace)).head? = some x) :
    c0OrSpace x = false := by
  cases hd : l.dropWhile c0OrSpace with
  | nil =>
    rw [hd] at h
    exact absurd h (by simp [removeUnsafe])
  | cons y ys =>
    have hy : c0OrSpace y = false := dropWhile_head_prop _ l y (by rw [hd]; rfl)
    rw [hd] at h
    unfold removeUnsafe at h
    rw [List.filter_cons] at h
    have hyu : unsafeURLChar y = false := by
      cases hu : unsafeURLChar y
      · rfl
      · exfalso
        simp only [unsafeURLChar, Bool.or_eq_true, decide_eq_true_eq] at hu
        simp only [c0OrSpace, decide_eq_false_iff_not] at hy
        rcases hu with (h2 | h2) | h2 <;>
          · rw [h2] at hy
            exact hy (by decide)
    rw [hyu] at h
    simp only [Bool.not_false, if_true, List.head?_cons, Option.some.injEq] at h
    rw [← h]
    exact hy

theorem headD_prefix {a : List Char} (b : List Char) (hne : a ≠ []) :
    ((a ++ b).headD ' ') = a.headD ' ' := by
  cases a with
  | nil => exact absurd rfl hne
  | cons x xs => rfl

theorem splitLastSlash_last : ∀ (l : List Char), l.getLast? = some '/' →
    splitLastSlash l = (l, []) := by
  intro l
  induction l with
  | nil =>
    intro h
    exact absurd h (by simp)
  | cons c rest ih =>
    intro h
    cases rest with
    | nil =>
      simp only [List.getLast?_singleton, Option.some.injEq] at h
      rw [splitLastSlash, show ([] : List Char).contains '/' = false from rfl]
      simp only [Bool.false_eq_true, if_false]
      rw [if_pos h, h]
    | cons d rest2 =>
      rw [List.getLast?_cons_cons] at h
      have hmem : '/' ∈ d :: rest2 :=
        List.mem_of_mem_getLast? (by rw [h]; rfl)
      rw [splitLastSlash, contains_true hmem, if_pos rfl, ih h]

theorem splitLastSlash_pre : ∀ (l : List Char),
    (splitLastSlash l).1 = [] ∨ (splitLastSlash l).1.getLast? = some '/' := by
  intro l
  induction l with
  | nil => exact Or.inl rfl
  | cons c rest ih =>
    rw [splitLastSlash]
    by_cases hm : '/' ∈ rest
    · rw [contains_true hm, if_pos rfl]
      rcases ih with h | h
      · -- the prefix of rest is empty yet rest contains a slash: impossible
        exfalso
        obtain ⟨hparts, hns⟩ := splitLastSlash_parts rest
        rw [h, List.nil_append] at hparts
        exact hns (by rw [hparts]; exact hm)
      · right
        rcases hslr : splitLastSlash rest with ⟨a2, b2⟩
        rw [hslr] at h
        simp only [] at h
        show (c :: a2).getLast? = some '/'
        cases a2 with
        | nil => exact absurd h (by simp)
        | cons x xs =>
          rw [List.getLast?_cons_cons]
          exact h
    · rw [contains_false hm]
      simp only [Bool.false_eq_true, if_false]
      by_cases hc : c = '/'
      · rw [if_pos hc]
        right
        rw [hc]
        rfl
      · rw [if_neg hc]
        exact Or.inl rfl

theorem splitParams_stable (r4 p q : List Char) (h : splitParams r4 = (p, q)) :
    splitParams (if q.isEmpty then p else p ++ ';' :: q) = (p, q) := by
  obtain ⟨hparts, hns⟩ := splitLastSlash_parts r4
  have hpre := splitLastSlash_pre r4
  unfold splitParams at h
  rcases hsl : splitLastSlash r4 with ⟨pre, seg⟩
  rw [hsl] at h hparts hns hpre
  simp only [] at h hparts hns hpre
  cases hsp : splitFirst ';' seg with
  | none =>
    rw [hsp] at h
    simp only [Prod.mk.injEq] at h
    obtain ⟨rfl, rfl⟩ := h
    rw [show (([] : List Char)).isEmpty = true from rfl, if_pos rfl]
    apply splitParams_no_semi
    rw [hsl]
    exact splitFirst_none_not_mem ';' seg hsp
  | some ab =>
    obtain ⟨a, b⟩ := ab
    rw [hsp] at h
    simp only [Prod.mk.injEq] at h
    obtain ⟨rfl, rfl⟩ := h
    obtain ⟨hseg, hna⟩ := splitFirst_some hsp
    have hnsa : '/' ∉ a := fun hmem => hns (by rw [hseg]; simp [hmem])
    have hnsb : '/' ∉ b := fun hmem => hns (by rw [hseg]; simp [hmem])
    have hslp : splitLastSlash (pre ++ a) = (pre, a) := by
      rcases hpre with h0 | h0
      · rw [h0, List.nil_append, splitLastSlash_not_mem a hnsa]
      · rw [splitLastSlash_append pre a hnsa, splitLastSlash_last pre h0]
        simp
    cases hb : b with
    | nil =>
      rw [show (([] : List Char)).isEmpty = true from rfl, if_pos rfl]
      apply splitParams_no_semi
      rw [hslp]
      exact hna
    | cons b0 bs =>
      rw [show ((b0 :: bs : List Char)).isEmpty = false from rfl]
      simp only [Bool.false_eq_true, if_false]
      apply splitParams_append
      · rw [hslp]
        exact hna
      · rw [← hb]
        exact hnsb

theorem splitParams_pp_sub (r4 p q : List Char) (h : splitParams r4 = (p, q)) :
    ∀ ch, ch ∈ (if q.isEmpty then p else p ++ ';' :: q) → ch ∈ r4 ∨ ch = ';' := by
  obtain ⟨hparts, hns⟩ := splitLastSlash_parts r4
  unfold splitParams at h
  rcases hsl : splitLastSlash r4 with ⟨pre, seg⟩
  rw [hsl] at h hparts
  simp only [] at h hparts
  cases hsp : splitFirst ';' seg with
  | none =>
    rw [hsp] at h
    simp only [Prod.mk.injEq] at h
    obtain ⟨rfl, rfl⟩ := h
    intro ch hch
    rw [show (([] : List Char)).isEmpty = true from rfl, if_pos rfl] at hch
    exact Or.inl hch
  | some ab =>
    obtain ⟨a, b⟩ := ab
    rw [hsp] at h
    simp only [Prod.mk.injEq] at h
    obtain ⟨rfl, rfl⟩ := h
    obtain ⟨hseg, _⟩ := splitFirst_some hsp
    intro ch hch
    by_cases hb : b.isEmpty
    · rw [if_pos hb] at hch
      left
      rw [← hparts, hseg]
      rcases List.mem_append.mp hch with h2 | h2
      · simp [h2]
      · simp [h2]
    · rw [if_neg hb] at hch
      rcases List.mem_append.mp hch with h2 | h2
      · left
        rw [← hparts, hseg]
        rcases List.mem_append.mp h2 with h3 | h3
        · simp [h3]
        · simp [h3]
      · rcases List.mem_cons.mp h2 with rfl | h3
        · exact Or.inr rfl
        · left
          rw [← hparts, hseg]
          simp [h3]

theorem splitParams_pp_head (r4 p q : List Char) (h : splitParams r4 = (p, q)) :
    (if q.isEmpty then p else p ++ ';' :: q) ≠ [] →
    ((if q.isEmpty then p else p ++ ';' :: q).headD ' ') = r4.headD ' ' := by
  obtain ⟨hparts, _⟩ := splitLastSlash_parts r4
  unfold splitParams at h
  rcases hsl : splitLastSlash r4 with ⟨pre, seg⟩
  rw [hsl] at h hparts
  simp only [] at h hparts
  cases hsp : splitFirst ';' seg with
  | none =>
    rw [hsp] at h
    simp only [Prod.mk.injEq] at h
    obtain ⟨rfl, rfl⟩ := h
    intro _
    rw [show (([] : List Char)).isEmpty = true from rfl, if_pos rfl]
  | some ab =>
    obtain ⟨a, b⟩ := ab
    rw [hsp] at h
    simp only [Prod.mk.injEq] at h
    obtain ⟨rfl, rfl⟩ := h
    obtain ⟨hseg, _⟩ := splitFirst_some hsp
    have hr4 : r4 = (pre ++ a) ++ ';' :: b := by
      rw [← hparts, hseg, List.append_assoc]
    intro hne
    by_cases hb : b.isEmpty
    · rw [if_pos hb] at hne ⊢
      rw [hr4, headD_prefix _ hne]
    · rw [if_neg hb] at hne ⊢
      rw [hr4]

theorem splitParams_pp_prefix (r4 p q : List Char) (h : splitParams r4 = (p, q)) :
    ∃ rest, r4 = (if q.isEmpty then p else p ++ ';' :: q) ++ rest := by
  obtain ⟨hparts, _⟩ := splitLastSlash_parts r4
  unfold splitParams at h
  rcases hsl : splitLastSlash r4 with ⟨pre, seg⟩
  rw [hsl] at h hparts
  simp only [] at h hparts
  cases hsp : splitFirst ';' seg with
  | none =>
    rw [hsp] at h
    simp only [Prod.mk.injEq] at h
    obtain ⟨rfl, rfl⟩ := h
    exact ⟨[], by simp⟩
  | some ab =>
    obtain ⟨a, b⟩ := ab
    rw [hsp] at h
    simp only [Prod.mk.injEq] at h
    obtain ⟨rfl, rfl⟩ := h
    obtain ⟨hseg, _⟩ := splitFirst_some hsp
    have hr4 : r4 = (pre ++ a) ++ ';' :: b := by
      rw [← hparts, hseg, List.append_assoc]
    by_cases hb : b.isEmpty
    · rw [if_pos hb]
      refine ⟨';' :: b, ?_⟩
      exact hr4
    · rw [if_neg hb]
      exact ⟨[], by rw [hr4]; simp⟩

theorem splitScheme_cases (u s r : List Char) (h : splitScheme u = (s, r)) :
    (s = [] ∧ r = u ∧
      (∀ pre rest, splitFirst ':' u = some (pre, rest) →
        pre = [] ∨ ¬(pre.all isSchemeChar = true) ∨ ¬((u.headD ' ').isAlpha = true))) ∨
    (∃ pre, splitFirst ':' u = some (pre, r) ∧ s = pre.map Char.toLower ∧ pre ≠ [] ∧
      pre.all isSchemeChar = true ∧ ((u.headD ' ').isAlpha = true)) := by
  unfold splitScheme at h
  cases hsp : splitFirst ':' u with
  | none =>
    rw [hsp] at h
    simp only [Prod.mk.injEq] at h
    obtain ⟨rfl, rfl⟩ := h
    exact Or.inl ⟨rfl, rfl, fun pre rest hsome => Option.noConfusion hsome⟩
  | some p =>
    obtain ⟨pre, rest⟩ := p
    rw [hsp] at h
    simp only [] at h
    by_cases hcond : (!pre.isEmpty && pre.all isSchemeChar && ((u.headD ' ').isAlpha)) = true
    · rw [if_pos hcond] at h
      simp only [Prod.mk.injEq] at h
      obtain ⟨rfl, rfl⟩ := h
      simp only [Bool.and_eq_true, Bool.not_eq_true'] at hcond
      refine Or.inr ⟨pre, rfl, rfl, ?_, hcond.1.2, hcond.2⟩
      intro habs
      rw [habs] at hcond
      simp at hcond
    · rw [if_neg hcond] at h
      simp only [Prod.mk.injEq] at h
      obtain ⟨rfl, rfl⟩ := h
      refine Or.inl ⟨rfl, rfl, ?_⟩
      intro pre2 rest2 hsome2
      have hpe2 : pre2 = pre := (congrArg Prod.fst (Option.some.inj hsome2)).symm
      subst hpe2
      by_cases hpe : pre2 = []
      · exact Or.inl hpe
      · by_cases hall : pre2.all isSchemeChar = true
        · by_cases halpha : ((u.headD ' ').isAlpha) = true
          · exfalso
            apply hcond
            simp only [Bool.and_eq_true]
            refine ⟨⟨?_, hall⟩, halpha⟩
            cases pre2 with
            | nil => exact absurd rfl hpe
            | cons _ _ => rfl
          · exact Or.inr (Or.inr halpha)
        · exact Or.inr (Or.inl hall)

theorem urlparseM_good (url : List Char) (c : UrlComps)
    (hc : urlparseM url = some c)
    (hp : c.netloc = [] → (pathParams c).take 2 ≠ ['/', '/']) :
    GoodComps c := by
  unfold urlparseM at hc
  simp only [] at hc
  set U := removeUnsafe (url.dropWhile c0OrSpace) with hU
  rcases hsch : splitScheme U with ⟨scheme, r1⟩
  rw [hsch] at hc
  simp only [] at hc
  rcases hnle : (if r1.take 2 = ['/', '/'] then splitNetloc (r1.drop 2) else ([], r1))
    with ⟨netloc, r2⟩
  rw [hnle] at hc
  simp only [] at hc
  by_cases hbr : (netloc.contains '[' || netloc.contains ']') = true
  · rw [if_pos hbr] at hc
    exact absurd hc (by simp)
  · rw [if_neg hbr] at hc
    rcases h3 : split1 '#' r2 with ⟨r3, fragment⟩
    rw [h3] at hc
    simp only [] at hc
    rcases h4 : split1 '?' r3 with ⟨r4, query⟩
    rw [h4] at hc
    simp only [] at hc
    rcases h5 : splitParams r4 with ⟨path, params⟩
    rw [h5] at hc
    simp only [Option.some.injEq] at hc
    subst hc
    -- global facts about the cleaned input U
    have huu : ∀ ch ∈ U, unsafeURLChar ch = false := by
      intro ch hch
      rw [hU] at hch
      unfold removeUnsafe at hch
      rw [List.mem_filter] at hch
      have h2 := hch.2
      cases hv : unsafeURLChar ch
      · rfl
      · rw [hv] at h2
        exact absurd h2 (by simp)
    have hscases := splitScheme_cases U scheme r1 hsch
    have hr1U : ∀ ch ∈ r1, ch ∈ U := by
      rcases hscases with ⟨_, hr1u, _⟩ | ⟨pre, hspU, _, _, _, _⟩
      · rw [hr1u]
        exact fun ch h => h
      · obtain ⟨hUeq, _⟩ := splitFirst_some hspU
        rw [hUeq]
        intro ch h
        exact List.mem_append_right _ (List.mem_cons_of_mem _ h)
    have hnet : (r1.take 2 = ['/', '/'] ∧
          netloc = (r1.drop 2).takeWhile (fun ch => !netDelim ch) ∧
          r2 = (r1.drop 2).dropWhile (fun ch => !netDelim ch)) ∨
        (¬(r1.take 2 = ['/', '/']) ∧ netloc = [] ∧ r2 = r1) := by
      by_cases htk : r1.take 2 = ['/', '/']
      · rw [if_pos htk] at hnle
        unfold splitNetloc at hnle
        simp only [Prod.mk.injEq] at hnle
        exact Or.inl ⟨htk, hnle.1.symm, hnle.2.symm⟩
      · rw [if_neg htk] at hnle
        simp only [Prod.mk.injEq] at hnle
        exact Or.inr ⟨htk, hnle.1.symm, hnle.2.symm⟩
    have hr2r1 : ∀ ch ∈ r2, ch ∈ r1 := by
      rcases hnet with ⟨_, _, hr2⟩ | ⟨_, _, hr2⟩
      · rw [hr2]
        intro ch h
        exact List.drop_subset 2 r1 ((List.dropWhile_sublist _).subset h)
      · rw [hr2]
        exact fun ch h => h
    have hnetU : ∀ ch ∈ netloc, ch ∈ U := by
      rcases hnet with ⟨_, hnl, _⟩ | ⟨_, hnl, _⟩
      · rw [hnl]
        intro ch h
        exact hr1U ch (List.drop_subset 2 r1 ((List.takeWhile_prefix _).subset h))
      · rw [hnl]
        intro ch h
        exact absurd h (List.not_mem_nil ch)
    have hnd : ∀ ch ∈ netloc, netDelim ch = false := by
      rcases hnet with ⟨_, hnl, _⟩ | ⟨_, hnl, _⟩
      · rw [hnl]
        intro ch h
        have h2 := List.mem_takeWhile_imp h
        cases hv : netDelim ch
        · rfl
        · rw [hv] at h2
          exact absurd h2 (by simp)
      · rw [hnl]
        intro ch h
        exact absurd h (List.not_mem_nil ch)
    have hne_tk : netloc ≠ [] → r1.take 2 = ['/', '/'] := by
      intro hne
      rcases hnet with ⟨htk, _, _⟩ | ⟨_, hnl, _⟩
      · exact htk
      · exact absurd hnl hne
    have hr2headD : r1.take 2 = ['/', '/'] → ∀ x, r2.head? = some x →
        netDelim x = true := by
      intro htk x hx
      rcases hnet with ⟨_, _, hr2⟩ | ⟨htk2, _, _⟩
      · rw [hr2] at hx
        have h2 := dropWhile_head_prop _ _ _ hx
        cases hv : netDelim x
        · rw [hv] at h2
          exact absurd h2 (by simp)
        · rfl
      · exact absurd htk htk2
    have hsp3 := split1_cases '#' r2 r3 fragment h3
    have hr3r2 : ∃ s, r2 = r3 ++ s := by
      rcases hsp3 with ⟨he, _⟩ | ⟨he, _, _⟩
      · exact ⟨'#' :: fragment, he⟩
      · exact ⟨[], by rw [he, List.append_nil]⟩
    have hnh3 : '#' ∉ r3 := by
      rcases hsp3 with ⟨_, hn⟩ | ⟨he, _, hn⟩
      · exact hn
      · rw [he]
        exact hn
    have hfragU : ∀ ch ∈ fragment, ch ∈ U := by
      rcases hsp3 with ⟨he, _⟩ | ⟨_, hf, _⟩
      · intro ch h
        apply hr1U
        apply hr2r1
        rw [he]
        exact List.mem_append_right _ (List.mem_cons_of_mem _ h)
      · rw [hf]
        intro ch h
        exact absurd h (List.not_mem_nil ch)
    have hsp4 := split1_cases '?' r3 r4 query h4
    have hr4r3 : ∃ s, r3 = r4 ++ s := by
      rcases hsp4 with ⟨he, _⟩ | ⟨he, _, _⟩
      · exact ⟨'?' :: query, he⟩
      · exact ⟨[], by rw [he, List.append_nil]⟩
    have hnq4 : '?' ∉ r4 := by
      rcases hsp4 with ⟨_, hn⟩ | ⟨he, _, hn⟩
      · exact hn
      · rw [he]
        exact hn
    have hnh4 : '#' ∉ r4 := by
      obtain ⟨s, hs⟩ := hr4r3
      intro h
      exact hnh3 (by rw [hs]; exact List.mem_append_left _ h)
    have hr4r1 : ∀ ch ∈ r4, ch ∈ r1 := by
      obtain ⟨s, hs⟩ := hr4r3
      obtain ⟨s2, hs2⟩ := hr3r2
      intro ch h
      apply hr2r1
      rw [hs2, hs]
      exact List.mem_append_left _ (List.mem_append_left _ h)
    have hr4slash : r1.take 2 = ['/', '/'] → r4 ≠ [] → r4.headD ' ' = '/' := by
      intro htk hr4ne
      obtain ⟨s3, hs3⟩ := hr4r3
      obtain ⟨s2, hs2⟩ := hr3r2
      cases hr4c : r4 with
      | nil => exact absurd hr4c hr4ne
      | cons x t4 =>
        have hxh : r2.head? = some x := by
          rw [hs2, hs3, hr4c]
          rfl
        have hxnd := hr2headD htk x hxh
        have hxmem : x ∈ r4 := by
          rw [hr4c]
          exact List.mem_cons_self x t4
        have hx : x = '/' := by
          simp only [netDelim, Bool.or_eq_true, decide_eq_true_eq] at hxnd
          rcases hxnd with (h | h) | h
          · exact h
          · rw [h] at hxmem
            exact absurd hxmem hnq4
          · rw [h] at hxmem
            exact absurd hxmem hnh4
        exact hx
    have hppform : pathParams ⟨scheme, netloc, path, params, query, fragment⟩
        = (if params.isEmpty then path else path ++ ';' :: params) := by
      unfold pathParams
      cases hq : params.isEmpty <;> simp [hq]
    refine ⟨?_, hnd, ?_, ?_, ?_, ?_, ?_, ?_, hp, ?_, ?_⟩
    · -- scheme_ok
      rcases hscases with ⟨hs0, _, _⟩ | ⟨pre, hspU, hsl, hpne, hallp, halpha⟩
      · exact Or.inl hs0
      · right
        obtain ⟨hUeq, _⟩ := splitFirst_some hspU
        refine ⟨?_, ?_, ?_, ?_⟩
        · rw [hsl]
          cases pre with
          | nil => exact absurd rfl hpne
          | cons a as => simp
        · rw [hsl, List.all_eq_true]
          intro ch hch
          rw [List.mem_map] at hch
          obtain ⟨x, hx, rfl⟩ := hch
          exact isSchemeChar_toLower (List.all_eq_true.mp hallp x hx)
        · cases pre with
          | nil => exact absurd rfl hpne
          | cons p0 pr =>
            rw [hsl]
            simp only [List.map_cons, List.headD_cons]
            rw [isAlpha_toLower]
            rw [hUeq] at halpha
            simp only [List.cons_append, List.headD_cons] at halpha
            exact halpha
        · rw [hsl, List.map_map]
          exact List.map_congr_left fun x _ => toLower_idem x
    · -- netloc_nb
      constructor
      · intro hmem
        exact hbr (by simp [hmem])
      · intro hmem
        exact hbr (by simp [hmem])
    · -- pp_resplit
      rw [hppform]
      exact splitParams_stable r4 path params h5
    · -- pp_no_hash
      rw [hppform]
      intro hmem
      rcases splitParams_pp_sub r4 path params h5 '#' hmem with h | h
      · exact hnh4 h
      · exact absurd h (by decide)
    · -- pp_no_q
      rw [hppform]
      intro hmem
      rcases splitParams_pp_sub r4 path params h5 '?' hmem with h | h
      · exact hnq4 h
      · exact absurd h (by decide)
    · -- no_unsafe
      intro ch hch
      rcases List.mem_append.mp hch with h12 | h3f
      · rcases List.mem_append.mp h12 with h1 | h2
        · exact huu ch (hnetU ch h1)
        · rw [hppform] at h2
          rcases splitParams_pp_sub r4 path params h5 ch h2 with h | rfl
          · exact huu ch (hr1U ch (hr4r1 ch h))
          · decide
      · exact huu ch (hfragU ch h3f)
    · -- netloc_slash
      intro hne
      by_cases hpp : pathParams ⟨scheme, netloc, path, params, query, fragment⟩ = []
      · exact Or.inl hpp
      · right
        rw [hppform] at hpp ⊢
        rw [splitParams_pp_head r4 path params h5 hpp]
        obtain ⟨rest, hr4eq⟩ := splitParams_pp_prefix r4 path params h5
        have hr4ne : r4 ≠ [] := by
          rw [hr4eq]
          intro habs
          exact hpp (List.append_eq_nil.mp habs).1
        exact hr4slash (hne_tk hne) hr4ne
    · -- scheme_nil_head
      intro hs0 hn0 hppne
      have hs0x : scheme = [] := hs0
      rw [hppform] at hppne ⊢
      rw [splitParams_pp_head r4 path params h5 hppne]
      obtain ⟨rest, hr4eq⟩ := splitParams_pp_prefix r4 path params h5
      have hr4ne : r4 ≠ [] := by
        rw [hr4eq]
        intro habs
        exact hppne (List.append_eq_nil.mp habs).1
      by_cases htk : r1.take 2 = ['/', '/']
      · rw [hr4slash htk hr4ne]
        decide
      · rcases hnet with ⟨htk2, _, _⟩ | ⟨_, _, hr2⟩
        · exact absurd htk2 htk
        · rcases hscases with ⟨_, hr1u, _⟩ | ⟨pre, hspU, hsl, hpne, _, _⟩
          · obtain ⟨s3, hs3⟩ := hr4r3
            obtain ⟨s2, hs2⟩ := hr3r2
            have hUas : U = r4 ++ (s3 ++ s2) := by
              rw [← hr1u, ← hr2, hs2, hs3, List.append_assoc]
            cases hr4c : r4 with
            | nil => exact absurd hr4c hr4ne
            | cons x t4 =>
              have hxh : U.head? = some x := by
                rw [hUas, hr4c]
                rfl
              exact removeUnsafe_head url x (by rw [← hU]; exact hxh)
          · exfalso
            rw [hsl] at hs0x
            cases pre with
            | nil => exact hpne rfl
            | cons a as => simp at hs0x
    · -- scheme_nil_colon
      intro hs0 hn0
      have hs0x : scheme = [] := hs0
      cases hspt : splitFirst ':'
          (pathParams ⟨scheme, netloc, path, params, query, fragment⟩) with
      | none => simp only []
      | some p =>
        obtain ⟨pre2, rest2⟩ := p
        simp only []
        obtain ⟨hteq, hnc⟩ := splitFirst_some hspt
        have htne : pathParams ⟨scheme, netloc, path, params, query, fragment⟩ ≠ [] := by
          rw [hteq]
          cases pre2 <;> simp
        rw [hppform] at hteq htne
        obtain ⟨rest, hr4eq⟩ := splitParams_pp_prefix r4 path params h5
        have hr4ne : r4 ≠ [] := by
          rw [hr4eq]
          intro habs
          exact htne (List.append_eq_nil.mp habs).1
        by_cases htk : r1.take 2 = ['/', '/']
        · refine Or.inr (Or.inr ?_)
          rw [hppform, splitParams_pp_head r4 path params h5 htne,
            hr4slash htk hr4ne]
          decide
        · rcases hnet with ⟨htk2, _, _⟩ | ⟨_, _, hr2⟩
          · exact absurd htk2 htk
          · rcases hscases with ⟨_, hr1u, hsafe⟩ | ⟨pre, hspU, hsl, hpne, _, _⟩
            · obtain ⟨s3, hs3⟩ := hr4r3
              obtain ⟨s2, hs2⟩ := hr3r2
              have hUas : U = (if params.isEmpty then path
                  else path ++ ';' :: params) ++ (rest ++ (s3 ++ s2)) := by
                rw [← hr1u, ← hr2, hs2, hs3, hr4eq]
                simp [List.append_assoc]
              have hUsp : splitFirst ':' U
                  = some (pre2, rest2 ++ (rest ++ (s3 ++ s2))) := by
                rw [hUas, hteq, List.append_assoc, List.cons_append]
                exact splitFirst_append ':' pre2 _ hnc
              rcases hsafe pre2 _ hUsp with h | h | h
              · exact Or.inl h
              · exact Or.inr (Or.inl h)
              · refine Or.inr (Or.inr ?_)
                intro habs
                apply h
                rw [hUas, headD_prefix _ htne]
                rw [← hppform]
                exact habs
            · exfalso
              rw [hsl] at hs0x
              cases pre with
              | nil => exact hpne rfl
              | cons a as => simp at hs0x

theorem mk_data (l : List Char) : (⟨l⟩ : String).data = l := rfl

theorem normP_query (c : UrlComps) : (normP c).query = c.query := by
  unfold normP
  split <;> rfl

theorem goodComps_query (c : UrlComps) (Q : List Char) (g : GoodComps c) :
    GoodComps {c with query := Q} :=
  ⟨g.scheme_ok, g.netloc_nd, g.netloc_nb, g.pp_resplit, g.pp_no_hash, g.pp_no_q,
    g.no_unsafe, g.netloc_slash, g.no_dslash, g.scheme_nil_head, g.scheme_nil_colon⟩

theorem dictSet_mem_other (d : List (String × List String)) (k : String)
    (vs : List String) (kv : String × List String) (hkv : kv ∈ d)
    (hne : kv.1 ≠ k) : kv ∈ dictSet d k vs := by
  unfold dictSet
  split
  · refine List.mem_map.mpr ⟨kv, hkv, ?_⟩
    show (if (kv.1 == k) = true then (kv.1, vs) else kv) = kv
    rw [if_neg (fun hbeq => hne (beq_iff_eq.mp hbeq))]
  · exact List.mem_append_left _ hkv

/-- Claim C4 (corrected): on any URL that `urlparse` accepts — with the
technical proviso that a netloc-free parse must not carry a `//`-prefixed
`path[;params]` text, the one case where `urlunparse∘urlparse` is itself
unstable — `set_query_param url "page" "3"` yields a URL whose decoded query
dict is exactly the input's decoded dict with `page` set to `["3"]`: the pair
`("page", ["3"])` occurs (and the keys are nodup, so it occurs exactly once),
and every other decoded parameter of the input is preserved.  Byte-identity
of the other parameters fails in general (see the counterexample), so the
guarantee is at the decoded level. -/
theorem claim_C4 (url : String) (c : UrlComps)
    (hc : urlparseM url.data = some c)
    (hp : c.netloc = [] → (pathParams c).take 2 ≠ ['/', '/']) :
    ∃ u1, set_query_param url "page" "3" = some u1 ∧
      queryDict u1 = some (dictSet (parse_qs c.query) "page" ["3"]) ∧
      ("page", ["3"]) ∈ dictSet (parse_qs c.query) "page" ["3"] ∧
      ((dictSet (parse_qs c.query) "page" ["3"]).map Prod.fst).Nodup ∧
      ∀ kv ∈ parse_qs c.query, kv.1 ≠ "page" →
        kv ∈ dictSet (parse_qs c.query) "page" ["3"] := by
  have hg : GoodComps c := urlparseM_good url.data c hc hp
  have hg1 : GoodComps {c with query := urlencodeD (dictSet (parse_qs c.query) "page" ["3"])} :=
    goodComps_query c _ hg
  have hQne : urlencodeD (dictSet (parse_qs c.query) "page" ["3"]) ≠ [] :=
    urlencodeD_ne_nil _ ("page", ["3"]) (dictSet_mem_self _ _ _) "3" (by simp)
  have hrep : urlparseM (urlunparseM {c with query := urlencodeD (dictSet (parse_qs c.query) "page" ["3"])}) = some (normP {c with query := urlencodeD (dictSet (parse_qs c.query) "page" ["3"])}) :=
    reparse _ hg1 hQne (urlencodeD_chars _)
  have hinv : QDictInv (dictSet (parse_qs c.query) "page" ["3"]) :=
    dictSet_inv (parse_qs c.query) "page" "3" (by decide) (parse_qs_inv c.query)
  have hqs : parse_qs (urlencodeD (dictSet (parse_qs c.query) "page" ["3"]))
      = dictSet (parse_qs c.query) "page" ["3"] :=
    parse_qs_enc _ hinv.1 hinv.2.1 hinv.2.2
  refine ⟨⟨urlunparseM {c with query := urlencodeD (dictSet (parse_qs c.query) "page" ["3"])}⟩, ?_, ?_,
      dictSet_mem_self _ _ _, dictSet_keys_nodup _ _ _ (parse_qs_inv c.query).1,
      fun kv hkv hne => dictSet_mem_other _ _ _ kv hkv hne⟩
  · unfold set_query_param
    rw [hc]
    rfl
  · unfold queryDict
    rw [mk_data, hrep]
    simp only [Option.map_some', Option.some.injEq]
    rw [normP_query]
    exact hqs

/-- Witness for claim C4 at `http://h/?a=1`: the rewrite yields a URL whose
decoded query is the input's dict with `page` set to `3`, `a=1` preserved. -/
theorem claim_C4_witness :
    ∃ u1, set_query_param "http://h/?a=1" "page" "3" = some u1 ∧
      queryDict u1 = some (dictSet (parse_qs ("a=1".data)) "page" ["3"]) ∧
      ("page", ["3"]) ∈ dictSet (parse_qs ("a=1".data)) "page" ["3"] ∧
      ((dictSet (parse_qs ("a=1".data)) "page" ["3"]).map Prod.fst).Nodup ∧
      ∀ kv ∈ parse_qs ("a=1".data), kv.1 ≠ "page" →
        kv ∈ dictSet (parse_qs ("a=1".data)) "page" ["3"] :=
  claim_C4 "http://h/?a=1" ⟨"http".data, "h".data, "/".data, [], "a=1".data, []⟩
    (by decide) (by decide)

/-- Counterexample to claim C4 as stated: the untouched parameter `a=%61` is
re-encoded to `a=a`, so it does not appear byte-identical in the result: no
raw `&`-chunk of the output equals the raw chunk `a=%61` of the input. -/
theorem claim_C4_counterexample :
    set_query_param "http://h/?a=%61" "page" "3" = some "http://h/?a=a&page=3" ∧
    rawQueryPieces "http://h/?a=%61" = some ["a=%61".data] ∧
    rawQueryPieces "http://h/?a=a&page=3" = some ["a=a".data, "page=3".data] ∧
    "a=%61".data ∉ ["a=a".data, "page=3".data] := by
  refine ⟨by decide, by decide, by decide, by decide⟩

/-- Claim C9 (corrected): `set_query_param` is idempotent for any key and any
nonempty value, on any URL that `urlparse` accepts (with the same
`//`-relative-path proviso as C4): applying it twice with the same key/value
returns exactly the URL of the first application.  For the empty value the
first application emits a blank `k=` parameter that the second application's
`parse_qs` drops and re-appends at the end, so idempotence fails there (see
the counterexample). -/
theorem claim_C9 (url : String) (c : UrlComps) (k v : String)
    (hc : urlparseM url.data = some c)
    (hp : c.netloc = [] → (pathParams c).take 2 ≠ ['/', '/'])
    (hv : v ≠ "") :
    ∃ u1, set_query_param url k v = some u1 ∧
      set_query_param u1 k v = some u1 := by
  have hg : GoodComps c := urlparseM_good url.data c hc hp
  have hg1 : GoodComps {c with query := urlencodeD (dictSet (parse_qs c.query) k [v])} :=
    goodComps_query c _ hg
  have hQne : urlencodeD (dictSet (parse_qs c.query) k [v]) ≠ [] :=
    urlencodeD_ne_nil _ (k, [v]) (dictSet_mem_self _ _ _) v (by simp)
  have hrep : urlparseM (urlunparseM {c with query := urlencodeD (dictSet (parse_qs c.query) k [v])}) = some (normP {c with query := urlencodeD (dictSet (parse_qs c.query) k [v])}) :=
    reparse _ hg1 hQne (urlencodeD_chars _)
  have hinv : QDictInv (dictSet (parse_qs c.query) k [v]) :=
    dictSet_inv (parse_qs c.query) k v hv (parse_qs_inv c.query)
  have hqs : parse_qs (urlencodeD (dictSet (parse_qs c.query) k [v]))
      = dictSet (parse_qs c.query) k [v] :=
    parse_qs_enc _ hinv.1 hinv.2.1 hinv.2.2
  refine ⟨⟨urlunparseM {c with query := urlencodeD (dictSet (parse_qs c.query) k [v])}⟩, ?_, ?_⟩
  · unfold set_query_param
    rw [hc]
    rfl
  · unfold set_query_param
    rw [mk_data, hrep]
    simp only [Option.map_some', Option.some.injEq]
    have h1 : parse_qs (normP {c with query := urlencodeD (dictSet (parse_qs c.query) k [v])}).query = dictSet (parse_qs c.query) k [v] := by
      rw [normP_query]
      exact hqs
    rw [h1, dictSet_idem]
    have h3 : {normP {c with query := urlencodeD (dictSet (parse_qs c.query) k [v])} with query := urlencodeD (dictSet (parse_qs c.query) k [v])} = normP {c with query := urlencodeD (dictSet (parse_qs c.query) k [v])} := by
      have h2 : (normP {c with query := urlencodeD (dictSet (parse_qs c.query) k [v])}).query = urlencodeD (dictSet (parse_qs c.query) k [v]) := normP_query _
      rcases hnp : normP {c with query := urlencodeD (dictSet (parse_qs c.query) k [v])} with ⟨s, n, p, pa, q, f⟩
      rw [hnp] at h2
      simp only [] at h2
      simp only []
      rw [← h2]
    rw [h3]
    exact congrArg (fun l => (⟨l⟩ : String)) (urlunparseM_normP _)

/-- Witness for claim C9 at `http://h/x;p?a=1&a=2&b=%2B` with `page=3`: a URL
with path params, a repeated key and a percent-escape, on which the rewrite
is idempotent. -/
theorem claim_C9_witness :
    ∃ u1, set_query_param "http://h/x;p?a=1&a=2&b=%2B" "page" "3" = some u1 ∧
      set_query_param u1 "page" "3" = some u1 :=
  claim_C9 "http://h/x;p?a=1&a=2&b=%2B"
    ⟨"http".data, "h".data, "/x".data, "p".data, "a=1&a=2&b=%2B".data, []⟩
    "page" "3" (by decide) (by decide) (by decide)

/-- Counterexample to claim C9 as stated (all keys and values): with the
empty value, the first rewrite leaves `page=` in place, while the second
drops the blank `page=` during `parse_qs` and re-appends it after `a=2`; the
two results differ, so `set_query_param` is not idempotent for `v = ""`. -/
theorem claim_C9_counterexample :
    set_query_param "http://h/?page=1&a=2" "page" "" = some "http://h/?page=&a=2" ∧
    set_query_param "http://h/?page=&a=2" "page" "" = some "http://h/?a=2&page=" ∧
    ("http://h/?a=2&page=" : String) ≠ "http://h/?page=&a=2" := by
  refine ⟨by decide, by decide, by decide⟩

/-- Claim C10 (corrected): on any URL that `urlparse` accepts (with the same
`//`-relative-path proviso as C4), every blank-valued query parameter `n` of
the input is removed by `set_query_param url k v` — the result's only
blank-valued parameter is `k` itself when `v = ""` and there is none
otherwise — except in the one case `n = k ∧ v = ""`, where the rewrite
re-creates the blank parameter it dropped (see the counterexample). -/
theorem claim_C10 (url : String) (c : UrlComps) (k v n : String)
    (hc : urlparseM url.data = some c)
    (hp : c.netloc = [] → (pathParams c).take 2 ≠ ['/', '/'])
    (hn : n ∈ blankNames c.query)
    (hkv : ¬(n = k ∧ v = "")) :
    ∃ u1, set_query_param url k v = some u1 ∧
      queryBlankNames u1 = some (if v = "" then [k] else []) ∧
      n ∉ (if v = "" then [k] else []) := by
  have hg : GoodComps c := urlparseM_good url.data c hc hp
  have hg1 : GoodComps {c with query := urlencodeD (dictSet (parse_qs c.query) k [v])} :=
    goodComps_query c _ hg
  have hQne : urlencodeD (dictSet (parse_qs c.query) k [v]) ≠ [] :=
    urlencodeD_ne_nil _ (k, [v]) (dictSet_mem_self _ _ _) v (by simp)
  have hrep : urlparseM (urlunparseM {c with query := urlencodeD (dictSet (parse_qs c.query) k [v])}) = some (normP {c with query := urlencodeD (dictSet (parse_qs c.query) k [v])}) :=
    reparse _ hg1 hQne (urlencodeD_chars _)
  refine ⟨⟨urlunparseM {c with query := urlencodeD (dictSet (parse_qs c.query) k [v])}⟩, ?_, ?_, ?_⟩
  · unfold set_query_param
    rw [hc]
    rfl
  · unfold queryBlankNames
    rw [mk_data, hrep]
    simp only [Option.map_some', Option.some.injEq]
    rw [normP_query]
    exact blankNames_setq c.query k v
  · by_cases hv : v = ""
    · rw [if_pos hv]
      intro hmem
      have hnk := List.mem_singleton.mp hmem
      exact hkv ⟨hnk, hv⟩
    · rw [if_neg hv]
      exact List.not_mem_nil n

/-- Witness for claim C10: `http://h/?b=` has the blank parameter `b`, and
rewriting `page=3` removes it — the result has no blank-valued parameter. -/
theorem claim_C10_witness :
    ∃ u1, set_query_param "http://h/?b=" "page" "3" = some u1 ∧
      queryBlankNames u1 = some (if ("3" : String) = "" then ["page"] else []) ∧
      ("b" : String) ∉ (if ("3" : String) = "" then ["page"] else []) :=
  claim_C10 "http://h/?b=" ⟨"http".data, "h".data, "/".data, [], "b=".data, []⟩
    "page" "3" "b" (by decide) (by decide) (by decide) (by decide)

/-- Counterexample to claim C10 as stated (any key and value): rewriting the
blank parameter `b` itself with the empty value keeps `b=` — the input's
blank parameter `b` is still a blank parameter of the output. -/
theorem claim_C10_counterexample :
    ("b" : String) ∈ blankNames ("b=".data) ∧
    set_query_param "http://h/?b=" "b" "" = some "http://h/?b=" ∧
    queryBlankNames "http://h/?b=" = some ["b"] := by
  refine ⟨by decide, by decide, by decide⟩

end Scraper
